import Mathlib

/-!
# Verification of the calamus JSON-LD (de)serialization engine

Shallow embedding of the core of the `calamus` library
(`calamus/schema.py`, `calamus/fields.py`, `calamus/utils.py`):
JSON-LD documents as a tree of association maps, schema definitions as
data, and the serialization / deserialization algorithms as executable
Lean functions translated line by line from the Python source.

Conventions used throughout:
* Python `dict`s are modelled as association lists with insert-overwrite
  (`dictSet`), preserving Python's dict-ordering semantics (an existing
  key keeps its position, a new key is appended).
* Falsiness of Python values (`not ret["@id"]` etc.) is modelled by
  explicit truthiness functions.
* Python exceptions that are not marshmallow `ValidationError`s
  (`KeyError`, `ValueError`, `IndexError`, `RecursionError`) abort a call;
  they are modelled with `Except`/`Option`.  marshmallow
  `ValidationError`s are accumulated in an error store and surfaced
  together at the end of a load; they are modelled as an explicit error
  list threaded through deserialization.
* Unbounded recursion (Python's call stack) is modelled with an explicit
  `fuel : Nat`; running out of fuel corresponds to `RecursionError`.
-/

namespace Calamus

/-- JSON-LD document values: string literals (also used for identifiers),
nodes (Python `dict`s as association lists) and arrays. -/
inductive JValue where
  | str (s : String) : JValue
  | obj (kvs : List (String × JValue)) : JValue
  | arr (vs : List JValue) : JValue

/-- A document node: the key/value list of a JSON-LD object. -/
abbrev JObj := List (String × JValue)

/-- Python-side model values: an instance of a model class is an attribute
map tagged with the name of its (runtime) type; collections are lists and
scalars are strings.  This is the universe of object graphs the engine
maps to and from documents. -/
inductive PVal where
  | str (s : String) : PVal
  | obj (ty : String) (attrs : List (String × PVal)) : PVal
  | list (vs : List PVal) : PVal

/-- Attribute map of a model instance. -/
abbrev PAttrs := List (String × PVal)

/-! ### Decidable equality for the nested inductives -/

mutual

def jvBeq : JValue → JValue → Bool
  | .str a, .str b => a == b
  | .obj a, .obj b => jvBeqObj a b
  | .arr a, .arr b => jvBeqArr a b
  | _, _ => false

def jvBeqObj : List (String × JValue) → List (String × JValue) → Bool
  | [], [] => true
  | (k, v) :: r, (k', v') :: r' => k == k' && jvBeq v v' && jvBeqObj r r'
  | _, _ => false

def jvBeqArr : List JValue → List JValue → Bool
  | [], [] => true
  | v :: r, v' :: r' => jvBeq v v' && jvBeqArr r r'
  | _, _ => false

end

mutual

theorem jvBeq_refl : ∀ a : JValue, jvBeq a a = true
  | .str s => by simp [jvBeq]
  | .obj kvs => by simp [jvBeq, jvBeqObj_refl kvs]
  | .arr vs => by simp [jvBeq, jvBeqArr_refl vs]

theorem jvBeqObj_refl : ∀ m : List (String × JValue), jvBeqObj m m = true
  | [] => by simp [jvBeqObj]
  | (k, v) :: r => by simp [jvBeqObj, jvBeq_refl v, jvBeqObj_refl r]

theorem jvBeqArr_refl : ∀ l : List JValue, jvBeqArr l l = true
  | [] => by simp [jvBeqArr]
  | v :: r => by simp [jvBeqArr, jvBeq_refl v, jvBeqArr_refl r]

end

mutual

theorem jvBeq_eq : ∀ {a b : JValue}, jvBeq a b = true → a = b
  | .str _, .str _, h => by
      simp only [jvBeq, beq_iff_eq] at h; rw [h]
  | .obj _, .obj _, h => by
      simp only [jvBeq] at h; rw [jvBeqObj_eq h]
  | .arr _, .arr _, h => by
      simp only [jvBeq] at h; rw [jvBeqArr_eq h]
  | .str _, .obj _, h => by simp [jvBeq] at h
  | .str _, .arr _, h => by simp [jvBeq] at h
  | .obj _, .str _, h => by simp [jvBeq] at h
  | .obj _, .arr _, h => by simp [jvBeq] at h
  | .arr _, .str _, h => by simp [jvBeq] at h
  | .arr _, .obj _, h => by simp [jvBeq] at h

theorem jvBeqObj_eq : ∀ {m m' : List (String × JValue)}, jvBeqObj m m' = true → m = m'
  | [], [], _ => rfl
  | (_, _) :: _, (_, _) :: _, h => by
      simp only [jvBeqObj, Bool.and_eq_true, beq_iff_eq] at h
      rw [h.1.1, jvBeq_eq h.1.2, jvBeqObj_eq h.2]
  | [], (_, _) :: _, h => by simp [jvBeqObj] at h
  | (_, _) :: _, [], h => by simp [jvBeqObj] at h

theorem jvBeqArr_eq : ∀ {l l' : List JValue}, jvBeqArr l l' = true → l = l'
  | [], [], _ => rfl
  | _ :: _, _ :: _, h => by
      simp only [jvBeqArr, Bool.and_eq_true] at h
      rw [jvBeq_eq h.1, jvBeqArr_eq h.2]
  | [], _ :: _, h => by simp [jvBeqArr] at h
  | _ :: _, [], h => by simp [jvBeqArr] at h

end

instance : DecidableEq JValue := fun a b =>
  if h : jvBeq a b = true then .isTrue (jvBeq_eq h)
  else .isFalse (fun he => h (he ▸ jvBeq_refl a))

mutual

def pvBeq : PVal → PVal → Bool
  | .str a, .str b => a == b
  | .obj ty a, .obj ty' b => ty == ty' && pvBeqObj a b
  | .list a, .list b => pvBeqList a b
  | _, _ => false

def pvBeqObj : List (String × PVal) → List (String × PVal) → Bool
  | [], [] => true
  | (k, v) :: r, (k', v') :: r' => k == k' && pvBeq v v' && pvBeqObj r r'
  | _, _ => false

def pvBeqList : List PVal → List PVal → Bool
  | [], [] => true
  | v :: r, v' :: r' => pvBeq v v' && pvBeqList r r'
  | _, _ => false

end

mutual

theorem pvBeq_refl : ∀ a : PVal, pvBeq a a = true
  | .str s => by simp [pvBeq]
  | .obj ty attrs => by simp [pvBeq, pvBeqObj_refl attrs]
  | .list vs => by simp [pvBeq, pvBeqList_refl vs]

theorem pvBeqObj_refl : ∀ m : List (String × PVal), pvBeqObj m m = true
  | [] => by simp [pvBeqObj]
  | (k, v) :: r => by simp [pvBeqObj, pvBeq_refl v, pvBeqObj_refl r]

theorem pvBeqList_refl : ∀ l : List PVal, pvBeqList l l = true
  | [] => by simp [pvBeqList]
  | v :: r => by simp [pvBeqList, pvBeq_refl v, pvBeqList_refl r]

end

mutual

theorem pvBeq_eq : ∀ {a b : PVal}, pvBeq a b = true → a = b
  | .str _, .str _, h => by
      simp only [pvBeq, beq_iff_eq] at h; rw [h]
  | .obj _ _, .obj _ _, h => by
      simp only [pvBeq, Bool.and_eq_true, beq_iff_eq] at h
      rw [h.1, pvBeqObj_eq h.2]
  | .list _, .list _, h => by
      simp only [pvBeq] at h; rw [pvBeqList_eq h]
  | .str _, .obj _ _, h => by simp [pvBeq] at h
  | .str _, .list _, h => by simp [pvBeq] at h
  | .obj _ _, .str _, h => by simp [pvBeq] at h
  | .obj _ _, .list _, h => by simp [pvBeq] at h
  | .list _, .str _, h => by simp [pvBeq] at h
  | .list _, .obj _ _, h => by simp [pvBeq] at h

theorem pvBeqObj_eq : ∀ {m m' : List (String × PVal)}, pvBeqObj m m' = true → m = m'
  | [], [], _ => rfl
  | (_, _) :: _, (_, _) :: _, h => by
      simp only [pvBeqObj, Bool.and_eq_true, beq_iff_eq] at h
      rw [h.1.1, pvBeq_eq h.1.2, pvBeqObj_eq h.2]
  | [], (_, _) :: _, h => by simp [pvBeqObj] at h
  | (_, _) :: _, [], h => by simp [pvBeqObj] at h

theorem pvBeqList_eq : ∀ {l l' : List PVal}, pvBeqList l l' = true → l = l'
  | [], [], _ => rfl
  | _ :: _, _ :: _, h => by
      simp only [pvBeqList, Bool.and_eq_true] at h
      rw [pvBeq_eq h.1, pvBeqList_eq h.2]
  | [], _ :: _, h => by simp [pvBeqList] at h
  | _ :: _, [], h => by simp [pvBeqList] at h

end

instance : DecidableEq PVal := fun a b =>
  if h : pvBeq a b = true then .isTrue (pvBeq_eq h)
  else .isFalse (fun he => h (he ▸ pvBeq_refl a))

/-- Python `d.get(k)` / `k in d` on a dict modelled as an association
list: the first binding wins (keys of well-formed dicts are unique). -/
def assocFind {α : Type} (m : List (String × α)) (k : String) : Option α :=
  match m with
  | [] => none
  | (k', v) :: rest => if k' = k then some v else assocFind rest k

/-- Python `d[k] = v` on a dict: an existing key keeps its position and
gets the new value, a new key is appended at the end. -/
def dictSet {α : Type} (m : List (String × α)) (k : String) (v : α) :
    List (String × α) :=
  match m with
  | [] => [(k, v)]
  | (k', v') :: rest =>
      if k' = k then (k, v) :: rest else (k', v') :: dictSet rest k v

/-- Python `del d[k]`: removes the binding (the caller checks presence,
`del` on a missing key raises `KeyError`). -/
def dictDel {α : Type} (m : List (String × α)) (k : String) :
    List (String × α) :=
  match m with
  | [] => []
  | (k', v') :: rest =>
      if k' = k then rest else (k', v') :: dictDel rest k

@[simp] theorem assocFind_nil {α : Type} (k : String) :
    assocFind ([] : List (String × α)) k = none := rfl

theorem assocFind_cons {α : Type} (k' : String) (v : α) (rest : List (String × α))
    (k : String) :
    assocFind ((k', v) :: rest) k =
      if k' = k then some v else assocFind rest k := rfl

theorem assocFind_dictSet {α : Type} (m : List (String × α)) (k k' : String) (v : α) :
    assocFind (dictSet m k v) k' = if k = k' then some v else assocFind m k' := by
  induction m with
  | nil => simp [dictSet, assocFind]
  | cons hd tl ih =>
      obtain ⟨k₀, v₀⟩ := hd
      by_cases h0 : k₀ = k
      · subst h0
        by_cases h1 : k₀ = k'
        · subst h1; simp [dictSet, assocFind]
        · simp [dictSet, assocFind, h1]
      · by_cases h1 : k₀ = k'
        · subst h1
          have hk : ¬ k = k₀ := fun h => h0 h.symm
          simp [dictSet, assocFind, h0, hk, ih]
        · simp [dictSet, assocFind, h0, h1, ih]

/-- `is_collection` from marshmallow utils: a list-like value that is not a
string and not a mapping. -/
def isCollection : JValue → Bool
  | .arr _ => true
  | _ => false

/-- Python truthiness of a document value (`not ret["@id"]`): empty
strings, empty arrays and empty objects are falsy. -/
def jtruthy : JValue → Bool
  | .str s => !s.isEmpty
  | .obj kvs => !kvs.isEmpty
  | .arr vs => !vs.isEmpty

/-- Python truthiness of a model value (used by `make_instance` when
deciding whether to overwrite an attribute). -/
def ptruthy : PVal → Bool
  | .str s => !s.isEmpty
  | .obj _ _ => true
  | .list vs => !vs.isEmpty

/-! ## Sorting (Python `sorted`)

`sorted` on lists of strings, implemented as insertion sort together with
the three facts the development needs: the result is a permutation, it is
sorted, and sorting is canonical (two permuted lists sort equally).
-/

/-- Insert into a `≤`-sorted list of strings. -/
def insSorted (x : String) : List String → List String
  | [] => [x]
  | y :: ys => if x ≤ y then x :: y :: ys else y :: insSorted x ys

/-- Python `sorted` on a list of strings (insertion sort). -/
def sortStrings : List String → List String
  | [] => []
  | x :: xs => insSorted x (sortStrings xs)

theorem insSorted_perm (x : String) (l : List String) :
    List.Perm (insSorted x l) (x :: l) := by
  induction l with
  | nil => simp [insSorted]
  | cons y ys ih =>
      simp only [insSorted]
      by_cases h : x ≤ y
      · simp [h]
      · simp only [if_neg h]
        exact (List.Perm.cons y ih).trans (List.Perm.swap x y ys)

theorem sortStrings_perm (l : List String) : List.Perm (sortStrings l) l := by
  induction l with
  | nil => simp [sortStrings]
  | cons x xs ih =>
      exact (insSorted_perm x (sortStrings xs)).trans (List.Perm.cons x ih)

theorem insSorted_sorted (x : String) (l : List String)
    (h : l.Sorted (· ≤ ·)) : (insSorted x l).Sorted (· ≤ ·) := by
  induction l with
  | nil => simp [insSorted]
  | cons y ys ih =>
      simp only [insSorted]
      by_cases hxy : x ≤ y
      · simp only [if_pos hxy]
        refine List.sorted_cons.mpr ⟨fun b hb => ?_, h⟩
        rcases List.mem_cons.mp hb with hb | hb
        · exact hb ▸ hxy
        · exact le_trans hxy ((List.sorted_cons.mp h).1 b hb)
      · simp only [if_neg hxy]
        have hyx : y ≤ x := le_of_not_le hxy
        have hys := (List.sorted_cons.mp h).2
        refine List.sorted_cons.mpr ⟨fun b hb => ?_, ih hys⟩
        rcases List.mem_cons.mp ((insSorted_perm x ys).mem_iff.mp hb) with hb | hb
        · exact hb ▸ hyx
        · exact (List.sorted_cons.mp h).1 b hb

theorem sortStrings_sorted (l : List String) :
    (sortStrings l).Sorted (· ≤ ·) := by
  induction l with
  | nil => simp [sortStrings]
  | cons x xs ih => exact insSorted_sorted x _ ih

theorem sortStrings_mem (l : List String) (x : String) :
    x ∈ sortStrings l ↔ x ∈ l := (sortStrings_perm l).mem_iff

theorem sortStrings_nodup (l : List String) (h : l.Nodup) :
    (sortStrings l).Nodup := ((sortStrings_perm l).nodup_iff).mpr h

/-- Sorting is canonical on permuted inputs. -/
theorem sortStrings_eq_of_perm {l₁ l₂ : List String} (h : List.Perm l₁ l₂) :
    sortStrings l₁ = sortStrings l₂ := by
  apply List.eq_of_perm_of_sorted
    (((sortStrings_perm l₁).trans h).trans (sortStrings_perm l₂).symm)
    (sortStrings_sorted l₁) (sortStrings_sorted l₂)

theorem sortStrings_idem (l : List String) :
    sortStrings (sortStrings l) = sortStrings l :=
  sortStrings_eq_of_perm (sortStrings_perm l)

/-! ## `calamus/utils.py`: normalization helpers -/

mutual

/-- `normalize_id` (utils.py): turn a JSON-LD id reference into a list of
raw identifier values.  A string is wrapped; a node contributes its
`"@id"` entry (raising `ValueError`, modelled as `none`, when it has
none); a list is flattened recursively.  The Python fallback
`[str(id_object)]` for other scalar types is unreachable in this
document universe. -/
def normalizeId : JValue → Option (List JValue)
  | .str s => some [.str s]
  | .obj kvs =>
      match assocFind kvs "@id" with
      | some v => some [v]
      | none => none
  | .arr vs => normalizeIdList vs

def normalizeIdList : List JValue → Option (List JValue)
  | [] => some []
  | v :: rest => do
      let a ← normalizeId v
      let b ← normalizeIdList rest
      pure (a ++ b)

end

mutual

/-- `normalize_type` (utils.py): normalize a JSON-LD type reference to a
sorted list of strings.  A Python object that is neither a string nor a
list would be rendered with `str(...)`; node values are outside the
modelled universe, yielding `none`. -/
def normalizeType : JValue → Option (List String)
  | .str s => some [s]
  | .arr vs => do
      let ls ← normalizeTypeList vs
      pure (sortStrings ls.flatten)
  | .obj _ => none

def normalizeTypeList : List JValue → Option (List (List String))
  | [] => some []
  | v :: rest => do
      let a ← normalizeType v
      let b ← normalizeTypeList rest
      pure (a :: b)

end

mutual

/-- `normalize_value` (utils.py): collapse singleton lists and unwrap
`{"@value": ...}` wrappers.  Note the Python code does not recurse into
dict values, only into list elements. -/
def normalizeValue : JValue → JValue
  | .arr [v] => normalizeValue v
  | .arr vs => .arr (normalizeValueList vs)
  | .obj kvs =>
      match assocFind kvs "@value" with
      | some v => v
      | none => .obj kvs
  | .str s => .str s

def normalizeValueList : List JValue → List JValue
  | [] => []
  | v :: rest => normalizeValue v :: normalizeValueList rest

end

/-- `JsonLDSchema._compare_ids` (schema.py:227-233): normalize both id
references, take them as sets, and test `first & second == first | second`
(which holds exactly when the two sets are equal).  `none` models a
`ValueError` escaping from `normalize_id`. -/
def compareIds (first second : JValue) : Option Bool := do
  let f ← normalizeId first
  let s ← normalizeId second
  let inter := f.filter (fun x => decide (x ∈ s))
  let union := f ++ s.filter (fun x => decide (x ∉ f))
  pure (inter.all (fun x => decide (x ∈ union)) &&
        union.all (fun x => decide (x ∈ inter)))

/-- `_compare_ids` decides set equality of the two normalized id lists. -/
theorem compareIds_eq_setEq (first second : JValue) (f s : List JValue)
    (hf : normalizeId first = some f) (hs : normalizeId second = some s) :
    compareIds first second =
      some ((f.all fun x => decide (x ∈ s)) && (s.all fun x => decide (x ∈ f))) := by
  simp only [compareIds, hf, hs, Option.bind_eq_bind, Option.some_bind]
  refine congrArg some ?_
  rw [Bool.eq_iff_iff]
  simp only [Bool.and_eq_true, List.all_eq_true, decide_eq_true_eq]
  constructor
  · rintro ⟨_, h2⟩
    constructor
    · intro x hx
      have hxu : x ∈ f ++ s.filter (fun y => decide (y ∉ f)) :=
        List.mem_append_left _ hx
      have hxi := List.mem_filter.mp (h2 x hxu)
      simpa using hxi.2
    · intro x hx
      by_cases hxf : x ∈ f
      · exact hxf
      · have hxu : x ∈ f ++ s.filter (fun y => decide (y ∉ f)) :=
          List.mem_append_right _ (List.mem_filter.mpr ⟨hx, by simpa using hxf⟩)
        exact (List.mem_filter.mp (h2 x hxu)).1
  · rintro ⟨h1, h2⟩
    constructor
    · intro x hx
      exact List.mem_append_left _ (List.mem_filter.mp hx).1
    · intro x hx
      rcases List.mem_append.mp hx with hx | hx
      · exact List.mem_filter.mpr ⟨hx, by simpa using h1 x hx⟩
      · have hxs := (List.mem_filter.mp hx).1
        have hxnf := (List.mem_filter.mp hx).2
        exact absurd (h2 x hxs) (by simpa using hxnf)

/-! ## `fields.DateTime` (fields.py:222-252)

The underlying `strptime`-based parser belongs to the excluded
field/validation substrate (marshmallow); it is abstracted as a function
`parse : format → input → Option value`, where `none` models a
marshmallow `ValidationError`.
-/

/-- The fallback loop of `DateTime._deserialize` (fields.py:242-250): for
each extra format, the field's `format` attribute is temporarily set to it
(and restored in the `finally` block), and the substrate parser is run;
the first success is returned. -/
def dateTimeExtraLoop {α : Type} (parse : String → String → Option α)
    (value : String) : List String → Except Unit α
  | [] => .error ()
  | fmt :: rest =>
      match parse fmt value with
      | some v => .ok v
      | none => dateTimeExtraLoop parse value rest

/-- `DateTime._deserialize` (fields.py:235-252): try the primary format
first; on `ValidationError` fall back to the declared extra formats in
order; if everything fails, raise the field's `invalid` format error
(`.error ()`), never a default value. -/
def dateTimeDeserialize {α : Type} (parse : String → String → Option α)
    (primary : String) (extraFormats : List String) (value : String) :
    Except Unit α :=
  match parse primary value with
  | some v => .ok v
  | none => dateTimeExtraLoop parse value extraFormats

/-! ## `utils.Proxy` (utils.py:142-186)

The lazy deferred handle.  Its mutable state (`__target__` present or
not, `__proxy_initialized__`, and — for instrumentation — the number of
times the factory closure has been invoked) is modelled by explicit state
passing; aliases of one handle share one state value.
-/

/-- Observable state of a `utils.Proxy`. -/
structure ProxyState (α : Type) where
  target : Option α
  initialized : Bool
  factoryCalls : Nat
deriving DecidableEq, Repr

/-- `Proxy.__init__` (utils.py:147-151): stores the factory and marks the
proxy uninitialized; it does not invoke the factory. -/
def proxyNew {α : Type} : ProxyState α := ⟨none, false, 0⟩

/-- `Proxy.__wrapped__` (utils.py:153-167), the accessor every attribute
access funnels through: return the memoized `__target__` if present,
otherwise invoke the factory once, memoize the result and mark the proxy
initialized. -/
def proxyWrapped {α : Type} (factory : Unit → α) (s : ProxyState α) :
    α × ProxyState α :=
  match s.target with
  | some t => (t, s)
  | none =>
      let t := factory ()
      (t, ⟨some t, true, s.factoryCalls + 1⟩)

/-- `n + 1` further attribute accesses through the handle, returning the
result of the last one. -/
def proxyAccessIter {α : Type} (factory : Unit → α) :
    Nat → ProxyState α → α × ProxyState α
  | 0, s => proxyWrapped factory s
  | n + 1, s => proxyAccessIter factory n (proxyWrapped factory s).2

/-! ## Schema registration (`JsonLDSchemaOpts` / `JsonLDSchemaMeta`) -/

/-- `JsonLDSchemaOpts.__init__` (schema.py:56-62): the `rdf_type`
declared on a `class Meta`, coerced to a list (`[]` when unset) and
sorted.  The argument is the already-listified declaration. -/
def jsonLDSchemaOptsRdfType (metaRdfType : List String) : List String :=
  sortStrings metaRdfType

/-- `JsonLDSchemaMeta.__new__` (schema.py:73-85): starting from the
child's own sorted declaration, `extend` with each direct base's
(already fully inherited) `rdf_type`, then `sorted(set(...))`.  `parents`
lists the `rdf_type` of each base that has schema options; bases without
one (or with an empty `rdf_type`) contribute nothing either way. -/
def jsonLDSchemaMetaRdfType (own : List String) (parents : List (List String)) :
    List String :=
  sortStrings ((jsonLDSchemaOptsRdfType own ++ parents.flatten).dedup)

/-- `JsonLDSchema.__init__` validation (schema.py:160-161): an empty
`rdf_type` list and an unset `model` are both falsy, and either raises a
`ValueError` at construction time. -/
def jsonLDSchemaInitCheck (rdfType : List String) (model : Option String) :
    Except String Unit :=
  if rdfType.isEmpty || model.isNone then
    .error "rdf_type and model have to be set on the Meta of schema"
  else .ok ()

/-! ## `JsonLDSchema.make_instance` (schema.py:452-503)

The instance builder.  The target type's constructor is abstracted as a
function `construct : args → kwargs → instance`, where an instance is an
attribute map; `inspect.signature` is abstracted as an explicit parameter
list.  This models the builder for schemas in which no field declares an
`init_name`, so the renaming loop at schema.py:456-459 is the identity.
-/

/-- One constructor parameter kind, after `inspect.Parameter.kind`.
`VAR_POSITIONAL` (`*args`) parameters fall into no branch of the loop and
are ignored. -/
inductive ParamKind where
  | positionalOnly : ParamKind
  | positionalOrKeyword : ParamKind
  | keywordOnly : ParamKind
  | varPositional : ParamKind
  | varKeyword : ParamKind
deriving DecidableEq, Repr

/-- A constructor parameter: its name, kind, and whether it declares a
default value (`parameter.default is not inspect.Parameter.empty`). -/
structure Param where
  name : String
  kind : ParamKind
  hasDefault : Bool
deriving DecidableEq, Repr

/-- Errors raised by `make_instance` (all Python `ValueError`s). -/
inductive BuildError where
  | missingField (name : String)
  | fieldsNotFound (names : List String)
  | keyError
deriving DecidableEq, Repr

/-- State of the parameter-classification loop (schema.py:462-481):
positional arguments collected so far, keyword arguments collected so
far, the set of still-unconsumed data keys, and whether a `**kwargs`
sink was seen. -/
structure ConsumeState where
  args : List PVal
  kwargs : List (String × PVal)
  keys : List String
  hasKwargs : Bool
deriving DecidableEq

/-- The parameter-classification loop of `make_instance`
(schema.py:466-481).  Positional-only parameters must always be present
in the data (the source's explicit note); positional-or-keyword and
keyword-only parameters must be present unless they have a default;
`**kwargs` flips the sink flag.  A missing required parameter raises
`ValueError("Field ... not found in data ...")`. -/
def consumeParams (data : PAttrs) :
    List Param → ConsumeState → Except BuildError ConsumeState
  | [], st => .ok st
  | p :: rest, st =>
      match p.kind with
      | .positionalOnly =>
          if p.name ∈ st.keys then
            match assocFind data p.name with
            | some v =>
                consumeParams data rest
                  { st with args := st.args ++ [v],
                            keys := st.keys.filter (fun k => k ≠ p.name) }
            | none => .error .keyError
          else .error (.missingField p.name)
      | .positionalOrKeyword =>
          if p.name ∈ st.keys then
            match assocFind data p.name with
            | some v =>
                consumeParams data rest
                  { st with kwargs := st.kwargs ++ [(p.name, v)],
                            keys := st.keys.filter (fun k => k ≠ p.name) }
            | none => .error .keyError
          else if p.hasDefault then consumeParams data rest st
          else .error (.missingField p.name)
      | .keywordOnly =>
          if p.name ∈ st.keys then
            match assocFind data p.name with
            | some v =>
                consumeParams data rest
                  { st with kwargs := st.kwargs ++ [(p.name, v)],
                            keys := st.keys.filter (fun k => k ≠ p.name) }
            | none => .error .keyError
          else if p.hasDefault then consumeParams data rest st
          else .error (.missingField p.name)
      | .varPositional => consumeParams data rest st
      | .varKeyword =>
          consumeParams data rest { st with hasKwargs := true }

/-- The post-construction assignment loop of `make_instance`
(schema.py:488-494): each unconsumed attribute is assigned onto the
instance only if the instance has the attribute (`hasattr`) and its
current value is falsy; attributes without a matching slot are collected
into `unset_data` in order. -/
def postAssign (inst : PAttrs) : List (String × PVal) → PAttrs × List (String × PVal)
  | [] => (inst, [])
  | (k, v) :: rest =>
      match assocFind inst k with
      | some cur =>
          if ptruthy cur then postAssign inst rest
          else postAssign (dictSet inst k v) rest
      | none =>
          ((postAssign inst rest).1, (k, v) :: (postAssign inst rest).2)

/-- `make_instance` (schema.py:452-503) for a schema without init-name
remappings: classify constructor parameters, build the instance (passing
the leftover attributes to the constructor only when it has a `**kwargs`
sink), post-assign the leftovers, and raise a `ValueError` listing every
attribute that found no slot. -/
def makeInstance (construct : List PVal → List (String × PVal) → PAttrs)
    (sig : List Param) (data : PAttrs) : Except BuildError PAttrs :=
  match consumeParams data sig ⟨[], [], data.map Prod.fst, false⟩ with
  | .error e => .error e
  | .ok st =>
      let missingData := data.filter (fun kv => decide (kv.1 ∈ st.keys))
      let inst0 :=
        if st.hasKwargs then construct st.args (st.kwargs ++ missingData)
        else construct st.args st.kwargs
      let inst := (postAssign inst0 missingData).1
      let unset := (postAssign inst0 missingData).2
      if unset.isEmpty then .ok inst
      else .error (.fieldsNotFound (unset.map Prod.fst))

/-- Whether the classification loop treats a parameter as required:
positional-only parameters always, positional-or-keyword and keyword-only
parameters when they have no default. -/
def paramRequired (p : Param) : Bool :=
  match p.kind with
  | .positionalOnly => true
  | .positionalOrKeyword => !p.hasDefault
  | .keywordOnly => !p.hasDefault
  | .varPositional => false
  | .varKeyword => false

/-- The first required constructor parameter that is absent from the
attribute map, if any. -/
def firstMissingRequired (sig : List Param) (data : PAttrs) : Option Param :=
  sig.find? (fun p => paramRequired p && (assocFind data p.name).isNone)

end Calamus

namespace Calamus

/-! ## Claim theorems: C4, C5, C7, C8 -/

/-- C4. For every datetime field and every raw input value,
deserialization first tries the primary format, then each declared
fallback format in declaration order, returning the first successful
parse; if every format fails, it raises a format error rather than
returning any default value. -/
theorem C4_datetime_fallback_order {α : Type}
    (parse : String → String → Option α) (primary : String)
    (extraFormats : List String) (value : String) :
    dateTimeDeserialize parse primary extraFormats value =
      match (primary :: extraFormats).findSome? (fun f => parse f value) with
      | some v => .ok v
      | none => .error () := by
  simp only [dateTimeDeserialize, List.findSome?]
  cases parse primary value with
  | some v => rfl
  | none =>
      induction extraFormats with
      | nil => rfl
      | cons fmt rest ih =>
          simp only [dateTimeExtraLoop, List.findSome?]
          cases parse fmt value with
          | some v => rfl
          | none => exact ih

/-- A handle with a memoized target returns it unchanged without calling
the factory again. -/
theorem proxyWrapped_of_target {α : Type} (factory : Unit → α)
    (s : ProxyState α) (t : α) (h : s.target = some t) :
    proxyWrapped factory s = (t, s) := by
  simp [proxyWrapped, h]

/-- C5. For every lazy deferred handle, the backing construction closure
is not invoked before the first attribute access, is invoked exactly once
on first access, and the constructed instance is memoized so that every
subsequent access through any alias of the handle (aliases share the one
state value) returns the same instance with the call count still at
one. -/
theorem C5_proxy_lazy_once {α : Type} (factory : Unit → α) (n : Nat) :
    (proxyNew : ProxyState α).factoryCalls = 0 ∧
    (proxyWrapped factory (proxyNew : ProxyState α)).2.factoryCalls = 1 ∧
    (proxyWrapped factory (proxyNew : ProxyState α)).2.initialized = true ∧
    proxyAccessIter factory n (proxyWrapped factory (proxyNew : ProxyState α)).2 =
      proxyWrapped factory (proxyNew : ProxyState α) := by
  refine ⟨rfl, rfl, rfl, ?_⟩
  have htarget :
      (proxyWrapped factory (proxyNew : ProxyState α)).2.target =
        some (proxyWrapped factory (proxyNew : ProxyState α)).1 := by
    simp [proxyWrapped, proxyNew]
  induction n with
  | zero =>
      simp only [proxyAccessIter]
      exact proxyWrapped_of_target factory _ _ htarget
  | succ m ih =>
      simp only [proxyAccessIter]
      rw [proxyWrapped_of_target factory _ _ htarget]
      exact ih

/-- C7. For every schema definition that inherits from one or more parent
schemas, the resulting schema's set of type identifiers is the union of
its own declared identifiers and every parent's identifiers, deduplicated
and sorted deterministically.  (The source has no switch that disables
inheritance of type identifiers for a parent, so the claim's "unless
explicitly disabled" proviso never fires.) -/
theorem C7_rdf_type_inheritance (own : List String)
    (parents : List (List String)) :
    (∀ x, x ∈ jsonLDSchemaMetaRdfType own parents ↔
        (x ∈ own ∨ ∃ p ∈ parents, x ∈ p)) ∧
    (jsonLDSchemaMetaRdfType own parents).Sorted (· ≤ ·) ∧
    (jsonLDSchemaMetaRdfType own parents).Nodup := by
  refine ⟨?_, sortStrings_sorted _, sortStrings_nodup _ (List.nodup_dedup _)⟩
  intro x
  rw [jsonLDSchemaMetaRdfType, sortStrings_mem, List.mem_dedup, List.mem_append,
    jsonLDSchemaOptsRdfType, sortStrings_mem, List.mem_flatten]

/-! ### C9: the instance builder -/

theorem assocFind_isSome_iff_mem {α : Type} (m : List (String × α)) (k : String) :
    (assocFind m k).isSome ↔ k ∈ m.map Prod.fst := by
  induction m with
  | nil => simp [assocFind]
  | cons hd tl ih =>
      obtain ⟨k', v'⟩ := hd
      by_cases h : k' = k
      · subst h; simp [assocFind]
      · rw [assocFind_cons, if_neg h, ih]
        simp only [List.map_cons, List.mem_cons]
        constructor
        · exact Or.inr
        · rintro (he | hm)
          · exact absurd he.symm h
          · exact hm

theorem consumeParams_spec (data : PAttrs) :
    ∀ (sig : List Param) (st : ConsumeState),
      (sig.map Param.name).Nodup →
      (∀ p ∈ sig, (p.name ∈ st.keys ↔ (assocFind data p.name).isSome)) →
      (∀ p, firstMissingRequired sig data = some p →
          consumeParams data sig st = .error (.missingField p.name)) ∧
      (firstMissingRequired sig data = none →
          ∃ st', consumeParams data sig st = .ok st') := by
  intro sig
  induction sig with
  | nil =>
      intro st _ _
      exact ⟨fun p hp => by simp [firstMissingRequired] at hp, fun _ => ⟨st, rfl⟩⟩
  | cons p rest ih =>
      intro st hnodup hinv
      have hnodup' : (rest.map Param.name).Nodup := (List.nodup_cons.mp hnodup).2
      have hpnotin : p.name ∉ rest.map Param.name := (List.nodup_cons.mp hnodup).1
      have hinvp := hinv p (List.mem_cons_self p rest)
      -- invariant is preserved when `p.name` is removed from the key set
      have hinvFilter :
          ∀ q ∈ rest, (q.name ∈ st.keys.filter (fun k => k ≠ p.name) ↔
            (assocFind data q.name).isSome) := by
        intro q hq
        have hqp : q.name ≠ p.name := by
          intro he
          exact hpnotin (he ▸ List.mem_map_of_mem Param.name hq)
        simp only [List.mem_filter, decide_eq_true_eq, ne_eq]
        rw [← hinv q (List.mem_cons_of_mem p hq)]
        exact ⟨fun h => h.1, fun h => ⟨h, hqp⟩⟩
      have hinvSame : ∀ q ∈ rest, (q.name ∈ st.keys ↔ (assocFind data q.name).isSome) :=
        fun q hq => hinv q (List.mem_cons_of_mem p hq)
      cases hfind : assocFind data p.name with
      | some v =>
          have hmem : p.name ∈ st.keys := hinvp.mpr (by simp [hfind])
          have hreq : (paramRequired p && (assocFind data p.name).isNone) = false := by
            simp [hfind]
          have hfmr : firstMissingRequired (p :: rest) data = firstMissingRequired rest data := by
            simp [firstMissingRequired, List.find?_cons, hreq]
          cases hk : p.kind with
          | positionalOnly =>
              have := ih ⟨st.args ++ [v], st.kwargs,
                st.keys.filter (fun k => decide (k ≠ p.name)), st.hasKwargs⟩ hnodup' hinvFilter
              refine ⟨fun q hq => ?_, fun hq => ?_⟩
              · rw [hfmr] at hq
                simpa [consumeParams, hk, hmem, hfind] using this.1 q hq
              · rw [hfmr] at hq
                obtain ⟨st', hst'⟩ := this.2 hq
                exact ⟨st', by simpa [consumeParams, hk, hmem, hfind] using hst'⟩
          | positionalOrKeyword =>
              have := ih ⟨st.args, st.kwargs ++ [(p.name, v)],
                st.keys.filter (fun k => decide (k ≠ p.name)), st.hasKwargs⟩ hnodup' hinvFilter
              refine ⟨fun q hq => ?_, fun hq => ?_⟩
              · rw [hfmr] at hq
                simpa [consumeParams, hk, hmem, hfind] using this.1 q hq
              · rw [hfmr] at hq
                obtain ⟨st', hst'⟩ := this.2 hq
                exact ⟨st', by simpa [consumeParams, hk, hmem, hfind] using hst'⟩
          | keywordOnly =>
              have := ih ⟨st.args, st.kwargs ++ [(p.name, v)],
                st.keys.filter (fun k => decide (k ≠ p.name)), st.hasKwargs⟩ hnodup' hinvFilter
              refine ⟨fun q hq => ?_, fun hq => ?_⟩
              · rw [hfmr] at hq
                simpa [consumeParams, hk, hmem, hfind] using this.1 q hq
              · rw [hfmr] at hq
                obtain ⟨st', hst'⟩ := this.2 hq
                exact ⟨st', by simpa [consumeParams, hk, hmem, hfind] using hst'⟩
          | varPositional =>
              have := ih st hnodup' hinvSame
              refine ⟨fun q hq => ?_, fun hq => ?_⟩
              · rw [hfmr] at hq
                simpa [consumeParams, hk] using this.1 q hq
              · rw [hfmr] at hq
                obtain ⟨st', hst'⟩ := this.2 hq
                exact ⟨st', by simpa [consumeParams, hk] using hst'⟩
          | varKeyword =>
              have := ih { st with hasKwargs := true } hnodup' hinvSame
              refine ⟨fun q hq => ?_, fun hq => ?_⟩
              · rw [hfmr] at hq
                simpa [consumeParams, hk] using this.1 q hq
              · rw [hfmr] at hq
                obtain ⟨st', hst'⟩ := this.2 hq
                exact ⟨st', by simpa [consumeParams, hk] using hst'⟩
      | none =>
          have hnmem : p.name ∉ st.keys := by
            intro hc
            have := hinvp.mp hc
            rw [hfind] at this
            simp at this
          cases hk : p.kind with
          | positionalOnly =>
              have hreq : (paramRequired p && (assocFind data p.name).isNone) = true := by
                simp [paramRequired, hk, hfind]
              refine ⟨fun q hq => ?_, fun hq => ?_⟩
              · have : q = p := by
                  simpa [firstMissingRequired, List.find?_cons, hreq] using hq.symm
                subst this
                simp [consumeParams, hk, hnmem]
              · exfalso
                simp [firstMissingRequired, List.find?_cons, hreq] at hq
          | positionalOrKeyword =>
              by_cases hd : p.hasDefault
              · have hreq : (paramRequired p && (assocFind data p.name).isNone) = false := by
                  simp [paramRequired, hk, hd]
                have hfmr : firstMissingRequired (p :: rest) data = firstMissingRequired rest data := by
                  simp [firstMissingRequired, List.find?_cons, hreq]
                have := ih st hnodup' hinvSame
                refine ⟨fun q hq => ?_, fun hq => ?_⟩
                · rw [hfmr] at hq
                  simpa [consumeParams, hk, hnmem, hd] using this.1 q hq
                · rw [hfmr] at hq
                  obtain ⟨st', hst'⟩ := this.2 hq
                  exact ⟨st', by simpa [consumeParams, hk, hnmem, hd] using hst'⟩
              · have hreq : (paramRequired p && (assocFind data p.name).isNone) = true := by
                  simp [paramRequired, hk, hd, hfind]
                refine ⟨fun q hq => ?_, fun hq => ?_⟩
                · have : q = p := by
                    simpa [firstMissingRequired, List.find?_cons, hreq] using hq.symm
                  subst this
                  simp [consumeParams, hk, hnmem, hd]
                · exfalso
                  simp [firstMissingRequired, List.find?_cons, hreq] at hq
          | keywordOnly =>
              by_cases hd : p.hasDefault
              · have hreq : (paramRequired p && (assocFind data p.name).isNone) = false := by
                  simp [paramRequired, hk, hd]
                have hfmr : firstMissingRequired (p :: rest) data = firstMissingRequired rest data := by
                  simp [firstMissingRequired, List.find?_cons, hreq]
                have := ih st hnodup' hinvSame
                refine ⟨fun q hq => ?_, fun hq => ?_⟩
                · rw [hfmr] at hq
                  simpa [consumeParams, hk, hnmem, hd] using this.1 q hq
                · rw [hfmr] at hq
                  obtain ⟨st', hst'⟩ := this.2 hq
                  exact ⟨st', by simpa [consumeParams, hk, hnmem, hd] using hst'⟩
              · have hreq : (paramRequired p && (assocFind data p.name).isNone) = true := by
                  simp [paramRequired, hk, hd, hfind]
                refine ⟨fun q hq => ?_, fun hq => ?_⟩
                · have : q = p := by
                    simpa [firstMissingRequired, List.find?_cons, hreq] using hq.symm
                  subst this
                  simp [consumeParams, hk, hnmem, hd]
                · exfalso
                  simp [firstMissingRequired, List.find?_cons, hreq] at hq
          | varPositional =>
              have hreq : (paramRequired p && (assocFind data p.name).isNone) = false := by
                simp [paramRequired, hk]
              have hfmr : firstMissingRequired (p :: rest) data = firstMissingRequired rest data := by
                simp [firstMissingRequired, List.find?_cons, hreq]
              have := ih st hnodup' hinvSame
              refine ⟨fun q hq => ?_, fun hq => ?_⟩
              · rw [hfmr] at hq
                simpa [consumeParams, hk] using this.1 q hq
              · rw [hfmr] at hq
                obtain ⟨st', hst'⟩ := this.2 hq
                exact ⟨st', by simpa [consumeParams, hk] using hst'⟩
          | varKeyword =>
              have hreq : (paramRequired p && (assocFind data p.name).isNone) = false := by
                simp [paramRequired, hk]
              have hfmr : firstMissingRequired (p :: rest) data = firstMissingRequired rest data := by
                simp [firstMissingRequired, List.find?_cons, hreq]
              have := ih { st with hasKwargs := true } hnodup' hinvSame
              refine ⟨fun q hq => ?_, fun hq => ?_⟩
              · rw [hfmr] at hq
                simpa [consumeParams, hk] using this.1 q hq
              · rw [hfmr] at hq
                obtain ⟨st', hst'⟩ := this.2 hq
                exact ⟨st', by simpa [consumeParams, hk] using hst'⟩

theorem postAssign_lookup_notmem (inst : PAttrs) (l : List (String × PVal))
    (k : String) (hk : k ∉ l.map Prod.fst) :
    assocFind (postAssign inst l).1 k = assocFind inst k := by
  induction l generalizing inst with
  | nil => simp [postAssign]
  | cons hd tl ih =>
      obtain ⟨k0, v0⟩ := hd
      have hk0 : k0 ≠ k := fun he => hk (by simp [he])
      have hktl : k ∉ tl.map Prod.fst := fun hc => hk (by simp [hc])
      simp only [postAssign]
      cases hfind : assocFind inst k0 with
      | some cur =>
          by_cases ht : ptruthy cur
          · simp only [ht, if_pos]
            exact ih inst hktl
          · simp only [ht, if_neg, Bool.false_eq_true, not_false_eq_true]
            rw [ih _ hktl, assocFind_dictSet]
            simp [hk0]
      | none =>
          exact ih inst hktl

theorem postAssign_unset (inst : PAttrs) (l : List (String × PVal))
    (hnodup : (l.map Prod.fst).Nodup) :
    (postAssign inst l).2 = l.filter (fun kv => (assocFind inst kv.1).isNone) := by
  induction l generalizing inst with
  | nil => simp [postAssign]
  | cons hd tl ih =>
      obtain ⟨k0, v0⟩ := hd
      have hnodup' : (tl.map Prod.fst).Nodup := (List.nodup_cons.mp (by simpa using hnodup)).2
      have hk0 : k0 ∉ tl.map Prod.fst := (List.nodup_cons.mp (by simpa using hnodup)).1
      simp only [postAssign]
      cases hfind : assocFind inst k0 with
      | some cur =>
          have hfilter : List.filter (fun kv => (assocFind inst kv.1).isNone) ((k0, v0) :: tl) =
              List.filter (fun kv => (assocFind inst kv.1).isNone) tl := by
            simp [List.filter_cons, hfind]
          by_cases ht : ptruthy cur
          · simp only [ht, if_pos, hfilter]
            exact ih inst hnodup'
          · simp only [ht, Bool.false_eq_true, if_neg, not_false_eq_true, hfilter]
            rw [ih _ hnodup']
            apply List.filter_congr
            intro kv hkv
            have hne : kv.1 ≠ k0 := fun he => hk0 (he ▸ List.mem_map_of_mem Prod.fst hkv)
            show (assocFind (dictSet inst k0 v0) kv.1).isNone = (assocFind inst kv.1).isNone
            rw [assocFind_dictSet, if_neg (fun he => hne he.symm)]
      | none =>
          have hfilter : List.filter (fun kv => (assocFind inst kv.1).isNone) ((k0, v0) :: tl) =
              (k0, v0) :: List.filter (fun kv => (assocFind inst kv.1).isNone) tl := by
            simp [List.filter_cons, hfind]
          rw [hfilter]
          exact congrArg (fun x => (k0, v0) :: x) (ih inst hnodup')

theorem postAssign_lookup (inst : PAttrs) (l : List (String × PVal))
    (hnodup : (l.map Prod.fst).Nodup) (k : String) (v : PVal)
    (hmem : (k, v) ∈ l) :
    assocFind (postAssign inst l).1 k =
      match assocFind inst k with
      | some cur => some (if ptruthy cur then cur else v)
      | none => none := by
  induction l generalizing inst with
  | nil => simp at hmem
  | cons hd tl ih =>
      obtain ⟨k0, v0⟩ := hd
      have hnodup' : (tl.map Prod.fst).Nodup := (List.nodup_cons.mp (by simpa using hnodup)).2
      have hk0 : k0 ∉ tl.map Prod.fst := (List.nodup_cons.mp (by simpa using hnodup)).1
      rcases List.mem_cons.mp hmem with hhd | htl
      · obtain ⟨hek, hev⟩ := Prod.mk.injEq .. ▸ hhd
        injection hhd with hhd1 hhd2
        subst hhd1; subst hhd2
        simp only [postAssign]
        cases hfind : assocFind inst k with
        | some cur =>
            by_cases ht : ptruthy cur
            · simp only [ht, if_pos]
              rw [postAssign_lookup_notmem inst tl k hk0, hfind]
            · simp only [ht, Bool.false_eq_true, if_neg, not_false_eq_true]
              rw [postAssign_lookup_notmem _ tl k hk0, assocFind_dictSet]
              simp [ht]
        | none =>
            rw [show (((postAssign inst tl).1, (k, v) :: (postAssign inst tl).2) :
                PAttrs × List (String × PVal)).1 = (postAssign inst tl).1 from rfl,
              postAssign_lookup_notmem inst tl k hk0, hfind]
      · have hkk0 : k0 ≠ k := by
          intro he
          subst he
          exact hk0 (List.mem_map_of_mem Prod.fst htl)
        simp only [postAssign]
        cases hfind : assocFind inst k0 with
        | some cur =>
            by_cases ht : ptruthy cur
            · simp only [ht, if_pos]
              exact ih inst hnodup' htl
            · simp only [ht, Bool.false_eq_true, if_neg, not_false_eq_true]
              rw [ih _ hnodup' htl, assocFind_dictSet]
              simp [hkk0]
        | none =>
            exact ih inst hnodup' htl

/-- The property established for the instance builder, for a given
constructor, signature and deserialized attribute map: (a) the first
required constructor parameter absent from the map aborts with a
`ValueError` naming that field; (b) given the parameter-classification
result, each leftover attribute ends up assigned on the instance only if
the instance did not already hold a truthy value for it; and (c) if every
leftover has a slot the build succeeds with the post-assigned instance,
while if any leftover has no slot the build aborts with a `ValueError`
listing every such key. -/
def MakeInstanceProp (construct : List PVal → List (String × PVal) → PAttrs)
    (sig : List Param) (data : PAttrs) : Prop :=
  (∀ p, firstMissingRequired sig data = some p →
      makeInstance construct sig data = .error (.missingField p.name)) ∧
  (∀ st, consumeParams data sig ⟨[], [], data.map Prod.fst, false⟩ = .ok st →
    (let leftovers := data.filter (fun kv => decide (kv.1 ∈ st.keys))
     let inst0 :=
       if st.hasKwargs then construct st.args (st.kwargs ++ leftovers)
       else construct st.args st.kwargs
     (∀ k v, (k, v) ∈ leftovers →
        assocFind (postAssign inst0 leftovers).1 k =
          match assocFind inst0 k with
          | some cur => some (if ptruthy cur then cur else v)
          | none => none) ∧
     ((∀ kv ∈ leftovers, (assocFind inst0 kv.1).isSome) →
        makeInstance construct sig data = .ok (postAssign inst0 leftovers).1) ∧
     ((∃ kv ∈ leftovers, (assocFind inst0 kv.1).isNone) →
        makeInstance construct sig data =
          .error (.fieldsNotFound
            ((leftovers.filter fun kv => (assocFind inst0 kv.1).isNone).map Prod.fst)))))

/-- C9. For every deserialized attribute map handed to the instance
builder: a required constructor parameter absent from the map raises a
hard error naming the missing field; attributes not consumed by the
constructor are assigned onto the instance after construction only if the
instance does not already hold a truthy value for that attribute; and
attributes that can neither be passed to the constructor nor assigned (no
matching slot on the instance) raise a hard error listing every such key,
never constructing silently with a placeholder. -/
theorem C9_make_instance (construct : List PVal → List (String × PVal) → PAttrs)
    (sig : List Param) (data : PAttrs)
    (hsig : (sig.map Param.name).Nodup) (hdata : (data.map Prod.fst).Nodup) :
    MakeInstanceProp construct sig data := by
  have hinv : ∀ p ∈ sig,
      (p.name ∈ (⟨[], [], data.map Prod.fst, false⟩ : ConsumeState).keys ↔
        (assocFind data p.name).isSome) := by
    intro p _
    exact (assocFind_isSome_iff_mem data p.name).symm
  have hspec := consumeParams_spec data sig _ hsig hinv
  constructor
  · intro p hp
    simp only [makeInstance, hspec.1 p hp]
  · intro st hst
    intro leftovers inst0
    have hleftnodup : (leftovers.map Prod.fst).Nodup :=
      List.Nodup.sublist ((List.filter_sublist data).map Prod.fst) hdata
    have hunfold : makeInstance construct sig data =
        if (postAssign inst0 leftovers).2.isEmpty then .ok (postAssign inst0 leftovers).1
        else .error (.fieldsNotFound ((postAssign inst0 leftovers).2.map Prod.fst)) := by
      simp only [makeInstance, hst]
    refine ⟨fun k v hkv => postAssign_lookup inst0 leftovers hleftnodup k v hkv, ?_, ?_⟩
    · intro hall
      have hunset : (postAssign inst0 leftovers).2 = [] := by
        rw [postAssign_unset inst0 leftovers hleftnodup]
        rw [List.filter_eq_nil_iff]
        intro kv hkv
        have := hall kv hkv
        simp only [Option.isNone_iff_eq_none]
        intro he
        rw [he] at this
        simp at this
      rw [hunfold, hunset]
      rfl
    · intro hsome
      have hunset : (postAssign inst0 leftovers).2 =
          leftovers.filter (fun kv => (assocFind inst0 kv.1).isNone) :=
        postAssign_unset inst0 leftovers hleftnodup
      have hne : (postAssign inst0 leftovers).2.isEmpty = false := by
        rw [hunset]
        obtain ⟨kv, hkv, hnone⟩ := hsome
        rw [List.isEmpty_eq_false_iff_exists_mem]
        exact ⟨kv, List.mem_filter.mpr ⟨hkv, hnone⟩⟩
      rw [hunfold, hne, hunset]
      simp

/-- Witness for C9 at a concrete signature and attribute map: the model's
constructor takes one keyword parameter and the data carries one extra
attribute. -/
theorem C9_make_instance_witness :
    (([⟨"a", ParamKind.positionalOrKeyword, false⟩] : List Param).map Param.name).Nodup ∧
    (([("a", PVal.str "x"), ("b", PVal.str "y")] : PAttrs).map Prod.fst).Nodup ∧
    MakeInstanceProp (fun _ kwargs => kwargs)
      [⟨"a", ParamKind.positionalOrKeyword, false⟩]
      [("a", PVal.str "x"), ("b", PVal.str "y")] :=
  ⟨by decide, by decide,
    C9_make_instance (fun _ kwargs => kwargs) _ _ (by decide) (by decide)⟩

/-- C8. For every schema, instantiating it when either its set of type
identifiers is empty or its target model type is unset raises a
configuration error at construction, and construction succeeds (without
substituting any default) exactly when both are set. -/
theorem C8_schema_init_validation (rdfType : List String)
    (model : Option String) :
    jsonLDSchemaInitCheck rdfType model =
        .error "rdf_type and model have to be set on the Meta of schema" ↔
      (rdfType = [] ∨ model = none) := by
  constructor
  · intro h
    by_contra hc
    push_neg at hc
    simp only [jsonLDSchemaInitCheck, List.isEmpty_iff, Option.isNone_iff_eq_none] at h
    rw [if_neg] at h
    · exact Except.noConfusion h
    · simp [hc.1, hc.2]
  · intro h
    simp only [jsonLDSchemaInitCheck, List.isEmpty_iff, Option.isNone_iff_eq_none]
    rcases h with h | h <;> simp [h]

end Calamus

namespace Calamus

/-! ## The Schema Registry

Schemas may reference each other cyclically, so nested references are
indices into a global registry (`opts.model` is identified by the class
name; `opts.rdf_type` is the list of expanded type IRIs).
-/

/-- A field descriptor kind: `fields.Id`, `fields.String`, or
`fields.Nested` with its declared sub-schemas and `many` flag. -/
inductive FieldKind where
  | idF : FieldKind
  | stringF : FieldKind
  | nestedF (subs : List Nat) (many : Bool) : FieldKind
deriving DecidableEq, Repr

/-- A field descriptor: its attribute name on the schema class, its
expanded JSON-LD data key (`str(field_name)`), the `reverse` flag, and
its kind. -/
structure FieldDesc where
  attr : String
  dataKey : String
  reverse : Bool
  kind : FieldKind
deriving DecidableEq, Repr

/-- A registered schema: `opts.rdf_type`, `opts.model` (class name),
whether `opts.id_generation_strategy` is set (it defaults to
`blank_node_id_strategy`, so this is `true` unless a user explicitly
configures `None`), and the declared fields. -/
structure SchemaDef where
  rdfType : List String
  model : String
  idStrategy : Bool
  fieldList : List FieldDesc
deriving DecidableEq, Repr

/-- The global schema registry. -/
abbrev Registry := List SchemaDef

/-- Registry lookup. -/
def getSchema (reg : Registry) (i : Nat) : Option SchemaDef := reg[i]?

/-- Association lookup keyed by a document value (`_all_objects` is a
Python dict keyed by the raw `"@id"` values). -/
def jassocFind (m : List (JValue × JObj)) (k : JValue) : Option JObj :=
  match m with
  | [] => none
  | (k', v) :: rest => if k' = k then some v else jassocFind rest k

/-- Insert-overwrite on a document-value-keyed dict. -/
def jdictSet (m : List (JValue × JObj)) (k : JValue) (v : JObj) :
    List (JValue × JObj) :=
  match m with
  | [] => [(k, v)]
  | (k', v') :: rest =>
      if k' = k then (k, v) :: rest else (k', v') :: jdictSet rest k v

/-- The `"to"` dispatch map of `Nested.schema` (fields.py:276-340):
sub-schemas are inserted keyed by their `model`, so the last sub-schema
with a given model wins; serialization looks the runtime type of the
object up in it (fields.py:342-349). -/
def nestedToDispatch (reg : Registry) (subs : List Nat) (ty : String) : Option Nat :=
  (subs.filter (fun i => (getSchema reg i).any (fun s => s.model = ty))).getLast?

/-- The `"from"` dispatch map of `Nested.schema`: sub-schemas keyed by
`str(normalize_type(opts.rdf_type))`; deserialization looks the node's
normalized `"@type"` up in it (fields.py:370-377).  Keys are compared as
normalized (sorted) lists, which is what the string rendering of a list
of IRIs identifies. -/
def nestedFromDispatch (reg : Registry) (subs : List Nat) (tyKey : List String) :
    Option Nat :=
  (subs.filter (fun i => (getSchema reg i).any (fun s => sortStrings s.rdfType = tyKey))).getLast?

/-! ## Serializer (`JsonLDSchema._serialize`, schema.py:163-209)

Modelled for a non-`Proxy` object (the `Proxy` short-circuit at
schema.py:168-179 is modelled separately) and without the top-level
`jsonld.flatten` hand-off at schema.py:206-207, which belongs to the
external canonicalization processor.  `gen` models the configured
`id_generation_strategy(ret, obj)`; the default `blank_node_id_strategy`
is a particular choice of `gen` (see `blank_node_id_strategy`).  The
fuel argument models the Python call stack; exhaustion corresponds to
`RecursionError` and by convention yields `none` like any other escaping
exception.
-/

/-- `blank_node_id_strategy` (schema.py:39-41), with the random
`uuid4().hex` abstracted as an argument: it ignores the node and the
object and produces a fresh blank-node identifier. -/
def blank_node_id_strategy (hex : String) (_ret : JObj) (_obj : PAttrs) : String :=
  "_:" ++ hex

/-- Serialize a single nested object: dispatch on its runtime type via
the `"to"` map and dump it with the matching sub-schema
(`Nested._serialize_single_obj`, fields.py:342-349).  A type that is not
in the map escapes with a `KeyError` (the `ValueError` constructed at
fields.py:344-345 is never raised — a bug in the source — so the lookup
at line 347 raises). -/
def serializeSingleObj (serNode : SchemaDef → PAttrs → Option JObj)
    (reg : Registry) (subs : List Nat) (v : PVal) : Option JValue :=
  match v with
  | .obj ty attrs =>
      match nestedToDispatch reg subs ty with
      | some i => (getSchema reg i).bind (fun s => (serNode s attrs).map .obj)
      | none => none
  | _ => none

/-- Map `serializeSingleObj` over the elements of a many-valued nested
field (`Nested._serialize`, fields.py:351-365). -/
def serializeObjList (serNode : SchemaDef → PAttrs → Option JObj)
    (reg : Registry) (subs : List Nat) : List PVal → Option (List JValue)
  | [] => some []
  | v :: rest =>
      match serializeSingleObj serNode reg subs v with
      | none => none
      | some jv =>
          match serializeObjList serNode reg subs rest with
          | none => none
          | some jvs => some (jv :: jvs)

/-- Serialize one field value according to its descriptor kind.
`fields.Id` and `fields.String` render strings (with
`add_value_types = False`, the default, no datatype wrapper is added);
`fields.Nested` dispatches per object.  A single-valued nested field
raises on a collection (fields.py:362-363); a many-valued nested field
iterates. -/
def serializeValue (serNode : SchemaDef → PAttrs → Option JObj)
    (reg : Registry) (kind : FieldKind) (v : PVal) : Option JValue :=
  match kind with
  | .idF =>
      match v with
      | .str s => some (.str s)
      | _ => none
  | .stringF =>
      match v with
      | .str s => some (.str s)
      | _ => none
  | .nestedF subs many =>
      if many then
        match v with
        | .list vs => (serializeObjList serNode reg subs vs).map .arr
        | _ => none
      else
        match v with
        | .list _ => none
        | _ => serializeSingleObj serNode reg subs v

/-- The field loop of `_serialize` (schema.py:181-193): fields in
declaration order; a missing attribute is skipped; a reverse-flagged
value goes into the `"@reverse"` bucket keyed by the data key, a forward
value under the data key itself. -/
def serializeFieldsLoop (serNode : SchemaDef → PAttrs → Option JObj)
    (reg : Registry) (attrs : PAttrs) :
    List FieldDesc → JObj → Option JObj
  | [], ret => some ret
  | f :: rest, ret =>
      match assocFind attrs f.attr with
      | none => serializeFieldsLoop serNode reg attrs rest ret
      | some v =>
          match serializeValue serNode reg f.kind v with
          | none => none
          | some jv =>
              let ret' :=
                if f.reverse then
                  match assocFind ret "@reverse" with
                  | some (.obj bucket) =>
                      dictSet ret "@reverse" (.obj (dictSet bucket f.dataKey jv))
                  | _ => dictSet ret "@reverse" (.obj [(f.dataKey, jv)])
                else dictSet ret f.dataKey jv
              serializeFieldsLoop serNode reg attrs rest ret'

/-- The `"@id"` synthesis step of `_serialize` (schema.py:195-196): when
the node lacks an `"@id"` or holds a falsy one, the configured
identifier-generation strategy is invoked on the node-so-far and the
object (a strategy explicitly configured to `None` makes the call
raise). -/
def serializeAddId (gen : JObj → PAttrs → String) (s : SchemaDef)
    (attrs : PAttrs) (ret : JObj) : Option JObj :=
  match assocFind ret "@id" with
  | some idv =>
      if jtruthy idv then some ret
      else if s.idStrategy then some (dictSet ret "@id" (.str (gen ret attrs)))
      else none
  | none =>
      if s.idStrategy then some (dictSet ret "@id" (.str (gen ret attrs)))
      else none

/-- One `_serialize` call (schema.py:163-209) given a serializer for
nested objects: run the field loop, synthesize `"@id"` via the
identifier-generation strategy when absent or falsy (schema.py:195-196),
and attach the normalized `"@type"` (schema.py:199-204; the
empty-`rdf_type` guard can only fire for schemas that escaped the
`__init__` check). -/
def serializeNodeCore (serNode : SchemaDef → PAttrs → Option JObj)
    (gen : JObj → PAttrs → String) (reg : Registry)
    (s : SchemaDef) (attrs : PAttrs) : Option JObj :=
  match serializeFieldsLoop serNode reg attrs s.fieldList [] with
  | none => none
  | some ret =>
      match serializeAddId gen s attrs ret with
      | none => none
      | some ret₁ =>
          if s.rdfType.isEmpty then none
          else some (dictSet ret₁ "@type" (.arr ((sortStrings s.rdfType).map .str)))

/-- `_serialize` with the Python call stack made explicit. -/
def serializeNode (gen : JObj → PAttrs → String) (reg : Registry) :
    Nat → SchemaDef → PAttrs → Option JObj
  | 0, _, _ => none
  | fuel + 1, s, attrs =>
      serializeNodeCore (serializeNode gen reg fuel) gen reg s attrs

/-- `JsonLDSchema.dump` of a single non-`Proxy` object with
`flattened = False`: serialize its attribute map with the schema at
index `i`.  (The top-level schema does not dispatch on the runtime type
of the object; only nested fields do.) -/
def jsonldSerialize (gen : JObj → PAttrs → String) (reg : Registry)
    (fuel : Nat) (i : Nat) (obj : PVal) : Option JObj :=
  match obj with
  | .obj _ attrs => (getSchema reg i).bind (fun s => serializeNode gen reg fuel s attrs)
  | _ => none

end Calamus

namespace Calamus

/-! ## Deserializer (`JsonLDSchema._deserialize`, schema.py:235-368)

Modelled for `lazy = False` and `partial = False` (no partial loads) and
for documents without an `"@context"` key (compacted documents are
expanded by the external canonicalization processor at schema.py:288-292
before field resolution; that hand-off is not modelled).  Errors use two
channels, mirroring Python:

* `PyErr` — exceptions that are not marshmallow `ValidationError`s
  (`KeyError`, `ValueError`, `IndexError`, ...).  `_call_and_store`
  catches only `ValidationError`, so these abort the whole load.
* `VErr` — marshmallow `ValidationError`s, accumulated per field in the
  error store and surfaced together when the load finishes.

Fields are modelled with marshmallow's defaults (`required = False`,
`attribute = None`, `load_only/dump_only` unset), so a missing raw value
simply skips the attribute.
-/

/-- Escaping Python exceptions. -/
inductive PyErr where
  | keyError (k : String)
  | derefError (id : JValue)
  | multipleValuesError (name : String)
  | indexError
  | valueError
  | dispatchKeyError (tyKey : List String)
  | typeError
  | recursionLimit
deriving DecidableEq

/-- Accumulated marshmallow `ValidationError`s keyed like the error
store: a field-level failure under its field name (data key), an unknown
key under that key, or the schema-level `"type"` message. -/
inductive VErr where
  | invalidField (fieldName : String)
  | unknownKey (k : String)
  | typeInvalid
deriving DecidableEq, Repr

/-- The marshmallow `unknown` policy. -/
inductive UnknownPolicy where
  | RAISE : UnknownPolicy
  | EXCLUDE : UnknownPolicy
  | INCLUDE : UnknownPolicy
deriving DecidableEq, Repr

/-- Per-load configuration and schema-instance state threaded through
`_deserialize`: the registry, the `flattened` flag, the `unknown`
policy, and the `_reversed_properties` table together with the
`isinstance` relation on schema classes used by the unknown-key loop
(schema.py:347-349); `isInst self s` models `isinstance(self, s)` for
registry indices. -/
structure DeserCtx where
  reg : Registry
  flattened : Bool
  unknown : UnknownPolicy
  reversedProps : List (String × List Nat)
  isInst : Nat → Nat → Bool

/-- `Nested._dereference_single_id` (fields.py:412-427): look the id up
in the shared id→node index (a missing — or falsy — entry is a hard
dereference error); for a reverse field, delete the linking property from
the child node (`del data[attr]`, raising `KeyError` when absent). -/
def dereferenceSingleId (allObjects : List (JValue × JObj)) (reverse : Bool)
    (attr : String) (value : JValue) : Except PyErr JObj :=
  match jassocFind allObjects value with
  | none => .error (.derefError value)
  | some d =>
      if d.isEmpty then .error (.derefError value)
      else if reverse then
        if (assocFind d attr).isSome then .ok (dictDel d attr)
        else .error (.keyError attr)
      else .ok d

mutual

/-- `Nested._dereference_flattened` (fields.py:429-441): a list is
dereferenced element-wise; a bare string id is dereferenced; a node that
consists of a single `"@id"` entry is dereferenced through that id; any
other node passes through unchanged. -/
def dereferenceFlattened (allObjects : List (JValue × JObj)) (reverse : Bool)
    (attr : String) : JValue → Except PyErr JValue
  | .arr vs =>
      match dereferenceFlattenedList allObjects reverse attr vs with
      | .error e => .error e
      | .ok ds => .ok (.arr ds)
  | .str s =>
      match dereferenceSingleId allObjects reverse attr (.str s) with
      | .error e => .error e
      | .ok d => .ok (.obj d)
  | .obj kvs =>
      if kvs.length = 1 then
        match assocFind kvs "@id" with
        | some idv =>
            match dereferenceSingleId allObjects reverse attr idv with
            | .error e => .error e
            | .ok d => .ok (.obj d)
        | none => .ok (.obj kvs)
      else .ok (.obj kvs)

def dereferenceFlattenedList (allObjects : List (JValue × JObj)) (reverse : Bool)
    (attr : String) : List JValue → Except PyErr (List JValue)
  | [] => .ok []
  | v :: rest =>
      match dereferenceFlattened allObjects reverse attr v with
      | .error e => .error e
      | .ok d =>
          match dereferenceFlattenedList allObjects reverse attr rest with
          | .error e => .error e
          | .ok ds => .ok (d :: ds)

end

/-- The scan of `get_reverse_links` (schema.py:218-223) over the indexed
nodes in insertion order: collect `d["@id"]` of every node `d` carrying
`fieldName` whose normalized value contains the target id. -/
def getReverseLinksLoop (target : JValue) (fieldName : String) :
    List (JValue × JObj) → Except PyErr (List JValue)
  | [] => .ok []
  | (_, d) :: rest =>
      match assocFind d fieldName with
      | none => getReverseLinksLoop target fieldName rest
      | some fv =>
          match normalizeId fv with
          | none => .error .valueError
          | some ids =>
              if target ∈ ids then
                match assocFind d "@id" with
                | some did =>
                    match getReverseLinksLoop target fieldName rest with
                    | .error e => .error e
                    | .ok links => .ok (did :: links)
                | none => .error (.keyError "@id")
              else getReverseLinksLoop target fieldName rest

/-- `JsonLDSchema.get_reverse_links` (schema.py:211-225): find all
indexed nodes whose `fieldName` property points at `data`'s identifier
(`normalize_id(data["@id"])[0]`), returning their ids. -/
def getReverseLinks (allObjects : List (JValue × JObj)) (data : JObj)
    (fieldName : String) : Except PyErr (List JValue) :=
  match assocFind data "@id" with
  | none => .error (.keyError "@id")
  | some dataId =>
      match normalizeId dataId with
      | none => .error .valueError
      | some nids =>
          match nids.head? with
          | none => .error .indexError
          | some target => getReverseLinksLoop target fieldName allObjects

/-- Locate a field's raw value (schema.py:296-310): a reverse field reads
the `"@reverse"` bucket (when the bucket exists but lacks the key, the
value is missing); in flattened mode without a bucket it falls back to
scanning for reverse links, an empty result counting as missing; a
forward field reads its data key.  `none` models marshmallow `missing`. -/
def fieldRawValue (ctx : DeserCtx) (allObjects : List (JValue × JObj))
    (data : JObj) (f : FieldDesc) : Except PyErr (Option JValue) :=
  if f.reverse then
    match assocFind data "@reverse" with
    | some rv =>
        match rv with
        | .obj rb => .ok (assocFind rb f.dataKey)
        | _ => .error .typeError
    | none =>
        if ctx.flattened then
          match getReverseLinks allObjects data f.dataKey with
          | .error e => .error e
          | .ok links => .ok (if links.isEmpty then none else some (.arr links))
        else .ok none
  else .ok (assocFind data f.dataKey)

/-- Result of loading one nested entry: an escaping Python exception, a
marshmallow `ValidationError` (re-raised by `Nested._load` and stored at
the enclosing field), or the loaded instance. -/
abbrev EntryRes := Except PyErr (Except Unit PVal)

/-- `Nested.load_single_entry` (fields.py:370-384), non-lazy path:
dispatch on the node's normalized `"@type"` through the `"from"` map
(`value["@type"]` raising `KeyError` when absent, and a type missing
from the map raising `KeyError` from the dict lookup; the unreached
`if not schema` check at fields.py:376-377 is dead code), thread the
shared id→node index and reversed-properties table into the sub-schema,
and load the node; a clean sub-load yields the built instance (the
model's constructor capturing all attributes), an erroring one a
`ValidationError`. -/
def loadSingleEntry
    (loadNodeAt : Nat → JObj → Except PyErr (PAttrs × List VErr))
    (ctx : DeserCtx) (subs : List Nat) (value : JValue) : EntryRes :=
  match value with
  | .obj kvs =>
      match assocFind kvs "@type" with
      | none => .error (.keyError "@type")
      | some tv =>
          match normalizeType tv with
          | none => .error .valueError
          | some tyKey =>
              match nestedFromDispatch ctx.reg subs tyKey with
              | none => .error (.dispatchKeyError tyKey)
              | some i =>
                  match getSchema ctx.reg i with
                  | none => .error (.dispatchKeyError tyKey)
                  | some s =>
                      match loadNodeAt i kvs with
                      | .error e => .error e
                      | .ok (attrs, errs) =>
                          if errs.isEmpty then .ok (.ok (.obj s.model attrs))
                          else .ok (.error ())
  | _ => .error .typeError

/-- Load the entries of a many-valued nested field in order
(fields.py:390-395): the first `ValidationError` propagates (and is
stored at the enclosing field); escaping exceptions abort. -/
def loadEntriesLoop (loadEntry : JValue → EntryRes) :
    List JValue → Except PyErr (Except Unit (List PVal))
  | [] => .ok (.ok [])
  | v :: rest =>
      match loadEntry v with
      | .error e => .error e
      | .ok (.error e) => .ok (.error e)
      | .ok (.ok pv) =>
          match loadEntriesLoop loadEntry rest with
          | .error e => .error e
          | .ok (.error e) => .ok (.error e)
          | .ok (.ok pvs) => .ok (.ok (pv :: pvs))

/-- `Nested._load` (fields.py:386-410): a many-valued field wraps a
non-collection into a singleton and loads each entry; a single-valued
field unwraps a singleton list (multiple values raise a `ValueError`,
an empty list an `IndexError`) and loads the one entry. -/
def nestedLoad (loadEntry : JValue → EntryRes) (many : Bool)
    (fieldName : String) (v : JValue) : EntryRes :=
  if many then
    let vs := match v with | .arr l => l | other => [other]
    match loadEntriesLoop loadEntry vs with
    | .error e => .error e
    | .ok (.error e) => .ok (.error e)
    | .ok (.ok pvs) => .ok (.ok (.list pvs))
  else
    match v with
    | .arr l =>
        if l.length > 1 then .error (.multipleValuesError fieldName)
        else
          match l with
          | [x] => loadEntry x
          | _ => .error .indexError
    | other => loadEntry other

/-- Deserialize one field's raw value.  `fields.Id` / `fields.String`
normalize the value (`_JsonLDField._deserialize`, fields.py:138-140) and
require a string (marshmallow raises a `ValidationError` otherwise);
`fields.Nested` first dereferences id references in flattened mode
(fields.py:443-450), then normalizes and runs `_load`. -/
def deserializeField (loadSub : List Nat → JValue → EntryRes)
    (ctx : DeserCtx) (allObjects : List (JValue × JObj))
    (f : FieldDesc) (raw : JValue) : EntryRes :=
  match f.kind with
  | .idF =>
      match normalizeValue raw with
      | .str s => .ok (.ok (.str s))
      | _ => .ok (.error ())
  | .stringF =>
      match normalizeValue raw with
      | .str s => .ok (.ok (.str s))
      | _ => .ok (.error ())
  | .nestedF subs many =>
      match
        (if ctx.flattened then dereferenceFlattened allObjects f.reverse f.dataKey raw
         else .ok raw) with
      | .error e => .error e
      | .ok v => nestedLoad (fun x => loadSub subs x) many f.dataKey (normalizeValue v)

/-- The field loop of `_deserialize` (schema.py:296-336): locate each
field's raw value, skip missing ones (fields are not `required` in this
universe), store `ValidationError`s in the error store and keep going,
and bind successful values under the attribute name. -/
def deserializeFieldsLoop (loadSub : List Nat → JValue → EntryRes)
    (ctx : DeserCtx) (allObjects : List (JValue × JObj)) (data : JObj) :
    List FieldDesc → PAttrs → List VErr → Except PyErr (PAttrs × List VErr)
  | [], ret, errs => .ok (ret, errs)
  | f :: rest, ret, errs =>
      match fieldRawValue ctx allObjects data f with
      | .error e => .error e
      | .ok none => deserializeFieldsLoop loadSub ctx allObjects data rest ret errs
      | .ok (some raw) =>
          match deserializeField loadSub ctx allObjects f raw with
          | .error e => .error e
          | .ok (.error ()) =>
              deserializeFieldsLoop loadSub ctx allObjects data rest ret
                (errs ++ [.invalidField f.dataKey])
          | .ok (.ok v) =>
              deserializeFieldsLoop loadSub ctx allObjects data rest
                (dictSet ret f.attr v) errs

/-- The body of the unknown-key loop (schema.py:342-362), iterating the
key set difference: `"@type"` and `"@reverse"` are skipped; a key that is
a reversed property of a schema the current one is an instance of is
skipped; `"@id"` is skipped when an identifier-generation strategy is
configured; everything else is merged under `INCLUDE` or reported under
`RAISE`. -/
def unknownKeysGo (reversedProps : List (String × List Nat))
    (isInst : Nat → Bool) (hasIdStrategy : Bool) (unknown : UnknownPolicy)
    (data : JObj) : List String → List (String × JValue) × List VErr
  | [] => ([], [])
  | key :: rest =>
      let (inc, errs) := unknownKeysGo reversedProps isInst hasIdStrategy unknown data rest
      if key = "@type" ∨ key = "@reverse" then (inc, errs)
      else if (assocFind reversedProps key).any (fun ss => ss.any isInst) then (inc, errs)
      else if key = "@id" ∧ hasIdStrategy then (inc, errs)
      else
        match unknown with
        | .INCLUDE =>
            match assocFind data key with
            | some v => ((key, v) :: inc, errs)
            | none => (inc, errs)
        | .RAISE => (inc, .unknownKey key :: errs)
        | .EXCLUDE => (inc, errs)

/-- The unknown-key handling of `_deserialize` (schema.py:337-362): when
the policy is not `EXCLUDE`, iterate over `set(data) - fields` (modelled
as the deduplicated filtered key list; Python's set iteration order is
arbitrary, so only membership in the outcome is meaningful). -/
def unknownKeys (fields : List String) (reversedProps : List (String × List Nat))
    (isInst : Nat → Bool) (hasIdStrategy : Bool) (unknown : UnknownPolicy)
    (data : JObj) : List (String × JValue) × List VErr :=
  if unknown = .EXCLUDE then ([], [])
  else
    unknownKeysGo reversedProps isInst hasIdStrategy unknown data
      (((data.map Prod.fst).filter (fun k => decide (k ∉ fields))).dedup)

/-- One node of `_deserialize` (schema.py:283-368) given a loader for
nested entries: run the field loop, then the unknown-key loop.  Values
merged under `INCLUDE` are raw document fragments and stay outside the
attribute map of this universe; only the reported errors are kept. -/
def deserializeNodeCore (loadSub : List Nat → JValue → EntryRes)
    (ctx : DeserCtx) (allObjects : List (JValue × JObj)) (sIdx : Nat)
    (s : SchemaDef) (data : JObj) : Except PyErr (PAttrs × List VErr) :=
  match deserializeFieldsLoop loadSub ctx allObjects data s.fieldList [] [] with
  | .error e => .error e
  | .ok (ret, errs) =>
      .ok (ret, errs ++
        (unknownKeys (s.fieldList.map FieldDesc.dataKey) ctx.reversedProps
          (ctx.isInst sIdx) s.idStrategy ctx.unknown data).2)

/-- A full nested `schema.load` on one node, with the Python call stack
made explicit: look the schema up and deserialize the node, loading
nested entries through a recursive call one stack level down. -/
def loadNode (ctx : DeserCtx) (allObjects : List (JValue × JObj)) :
    Nat → Nat → JObj → Except PyErr (PAttrs × List VErr)
  | 0, _, _ => .error .recursionLimit
  | fuel + 1, sIdx, data =>
      match getSchema ctx.reg sIdx with
      | none => .error (.keyError "schema")
      | some s =>
          deserializeNodeCore
            (fun subs v =>
              loadSingleEntry (fun i kvs => loadNode ctx allObjects fuel i kvs)
                ctx subs v)
            ctx allObjects sIdx s data

/-- The single pass of the flattened-input branch (schema.py:248-258):
index every node by its raw `"@id"` (`d["@id"]` raising `KeyError` when
absent, and indexing on a non-mapping raising a `TypeError`) while
collecting, in input order, the nodes whose `"@type"` matches the
schema's `rdf_type` per `_compare_ids`. -/
def flattenScanLoop (rdfType : List String) :
    List JValue → List (JValue × JObj) → List JObj →
    Except PyErr (List (JValue × JObj) × List JObj)
  | [], acc, sel => .ok (acc, sel)
  | v :: rest, acc, sel =>
      match v with
      | .obj d =>
          match assocFind d "@id" with
          | none => .error (.keyError "@id")
          | some idv =>
              match assocFind d "@type" with
              | none => flattenScanLoop rdfType rest (jdictSet acc idv d) sel
              | some tv =>
                  match compareIds tv (.arr (rdfType.map .str)) with
                  | none => .error .valueError
                  | some b =>
                      flattenScanLoop rdfType rest (jdictSet acc idv d)
                        (if b then sel ++ [d] else sel)
      | _ => .error .typeError

/-- The root-set selection of the flattened branch: the id→node index
over the whole input list and the selected root nodes. -/
def flattenedRoots (rdfType : List String) (nodes : List JValue) :
    Except PyErr (List (JValue × JObj) × List JObj) :=
  flattenScanLoop rdfType nodes [] []

/-- The result channel of a top-level load: an accumulated
`ValidationError` or the built object(s). -/
abbrev LoadRes := Except PyErr (Except (List VErr) PVal)

/-- Load the elements of the `many` branch (schema.py:263-282): each
element is deserialized independently (a non-mapping element stores the
schema-level `"type"` error and contributes an empty attribute map), and
the per-element instance is built by the `post_load` hook. -/
def loadManyLoop (ctx : DeserCtx) (allObjects : List (JValue × JObj))
    (fuel : Nat) (sIdx : Nat) (model : String) :
    List JValue → Except PyErr (List PVal × List VErr)
  | [] => .ok ([], [])
  | v :: rest =>
      match
        ((match v with
         | .obj kvs =>
             match loadNode ctx allObjects fuel sIdx kvs with
             | .error e => .error e
             | .ok (attrs, errs) => .ok ((PVal.obj model attrs : PVal), errs)
         | _ => .ok ((PVal.obj model [] : PVal), [VErr.typeInvalid])) :
           Except PyErr (PVal × List VErr)) with
      | .error e => .error e
      | .ok (pv, errs) =>
          match loadManyLoop ctx allObjects fuel sIdx model rest with
          | .error e => .error e
          | .ok (pvs, errs') => .ok (pv :: pvs, errs ++ errs')

/-- `JsonLDSchema.load` (`_do_load` → `_deserialize` → `post_load
make_instance`): the flattened branch (schema.py:248-261) runs at the
top level on a collection when the id→node index is still unset; then
the `many` dispatch (schema.py:263-282) or the single-node path; a load
finishing with a non-empty error store raises the accumulated
`ValidationError`, otherwise the instance builder (modelled as the
constructor capturing all attributes) produces the result. -/
def jsonldLoad (ctx : DeserCtx) (fuel : Nat) (sIdx : Nat) (many : Bool)
    (data : JValue) : LoadRes :=
  match getSchema ctx.reg sIdx with
  | none => .error (.keyError "schema")
  | some s =>
      match
        ((if ctx.flattened ∧ isCollection data then
          match data with
          | .arr nodes =>
              match flattenedRoots s.rdfType nodes with
              | .error e => .error e
              | .ok (acc, sel) =>
                  .ok
                    ((match sel with
                      | [single] => JValue.obj single
                      | _ => JValue.arr (sel.map JValue.obj)), acc)
          | _ => .ok (data, [])
        else .ok (data, ([] : List (JValue × JObj)))) :
          Except PyErr (JValue × List (JValue × JObj))) with
      | .error e => .error e
      | .ok (data', allObjects) =>
          if many then
            match data' with
            | .arr elems =>
                match loadManyLoop ctx allObjects fuel sIdx s.model elems with
                | .error e => .error e
                | .ok (pvs, errs) =>
                    if errs.isEmpty then .ok (.ok (.list pvs))
                    else .ok (.error errs)
            | _ => .ok (.error [VErr.typeInvalid])
          else
            match data' with
            | .obj kvs =>
                match loadNode ctx allObjects fuel sIdx kvs with
                | .error e => .error e
                | .ok (attrs, errs) =>
                    if errs.isEmpty then .ok (.ok (.obj s.model attrs))
                    else .ok (.error errs)
            | _ => .ok (.error [VErr.typeInvalid])

end Calamus

namespace Calamus

instance {ε α : Type} [DecidableEq ε] [DecidableEq α] : DecidableEq (Except ε α) := fun
  | .ok a, .ok b =>
      if h : a = b then .isTrue (by rw [h]) else .isFalse (by simp [h])
  | .error a, .error b =>
      if h : a = b then .isTrue (by rw [h]) else .isFalse (by simp [h])
  | .ok _, .error _ => .isFalse (by simp)
  | .error _, .ok _ => .isFalse (by simp)

/-! ## C10: the unknown-key skip list -/

theorem unknownKeysGo_mem (rp : List (String × List Nat)) (isInst : Nat → Bool)
    (hasId : Bool) (data : JObj) (k : String) :
    ∀ keys : List String,
      VErr.unknownKey k ∈ (unknownKeysGo rp isInst hasId .RAISE data keys).2 ↔
        (k ∈ keys ∧ ¬(k = "@type" ∨ k = "@reverse") ∧
          ¬((assocFind rp k).any (fun ss => ss.any isInst) = true) ∧
          ¬(k = "@id" ∧ hasId = true)) := by
  intro keys
  induction keys with
  | nil => simp [unknownKeysGo]
  | cons key rest ih =>
      simp only [unknownKeysGo]
      by_cases h1 : key = "@type" ∨ key = "@reverse"
      · rw [if_pos h1, ih]
        constructor
        · rintro ⟨hk, h⟩
          exact ⟨List.mem_cons_of_mem key hk, h⟩
        · rintro ⟨hk, hne, hrp, hid⟩
          rcases List.mem_cons.mp hk with he | hk
          · exact absurd (he ▸ h1) hne
          · exact ⟨hk, hne, hrp, hid⟩
      · rw [if_neg h1]
        by_cases h2 : (assocFind rp key).any (fun ss => ss.any isInst) = true
        · rw [if_pos h2, ih]
          constructor
          · rintro ⟨hk, h⟩
            exact ⟨List.mem_cons_of_mem key hk, h⟩
          · rintro ⟨hk, hne, hrp, hid⟩
            rcases List.mem_cons.mp hk with he | hk
            · exact absurd (he ▸ h2) hrp
            · exact ⟨hk, hne, hrp, hid⟩
        · rw [if_neg h2]
          by_cases h3 : key = "@id" ∧ hasId = true
          · rw [if_pos h3, ih]
            constructor
            · rintro ⟨hk, h⟩
              exact ⟨List.mem_cons_of_mem key hk, h⟩
            · rintro ⟨hk, hne, hrp, hid⟩
              rcases List.mem_cons.mp hk with he | hk
              · exact absurd (he ▸ h3) hid
              · exact ⟨hk, hne, hrp, hid⟩
          · rw [if_neg h3]
            constructor
            · intro hm
              rcases List.mem_cons.mp hm with he | hm
              · injection he with he
                exact ⟨he ▸ List.mem_cons_self key rest,
                  he ▸ h1, he ▸ h2, he ▸ h3⟩
              · obtain ⟨hk, h⟩ := ih.mp hm
                exact ⟨List.mem_cons_of_mem key hk, h⟩
            · rintro ⟨hk, hne, hrp, hid⟩
              rcases List.mem_cons.mp hk with he | hk
              · exact he ▸ List.mem_cons_self _ _
              · exact List.mem_cons_of_mem _ (ih.mpr ⟨hk, hne, hrp, hid⟩)

/-- C10. For every deserialize call under the reject unknown-key policy,
the unknown-key loop reports a key exactly when it occurs in the
document, is not claimed by any field, and falls into none of the
silently skipped categories: the JSON-LD meta keys `"@type"` and
`"@reverse"`, keys that are reversed properties of a schema the current
schema is an instance of, and `"@id"` when an identifier-generation
strategy is configured.  In particular those four categories are never
reported as unknown-key errors. -/
theorem C10_unknown_key_skips (fields : List String)
    (rp : List (String × List Nat)) (isInst : Nat → Bool) (hasId : Bool)
    (data : JObj) (k : String) :
    VErr.unknownKey k ∈ (unknownKeys fields rp isInst hasId .RAISE data).2 ↔
      (k ∈ data.map Prod.fst ∧ k ∉ fields ∧
        ¬(k = "@type" ∨ k = "@reverse") ∧
        ¬((assocFind rp k).any (fun ss => ss.any isInst) = true) ∧
        ¬(k = "@id" ∧ hasId = true)) := by
  rw [unknownKeys, if_neg (by simp : ¬ (UnknownPolicy.RAISE = UnknownPolicy.EXCLUDE)),
    unknownKeysGo_mem]
  rw [List.mem_dedup, List.mem_filter]
  simp only [decide_eq_true_eq, and_assoc]

end Calamus

namespace Calamus

/-! ## C1: flattened root-set selection -/

/-- The amended root-selection predicate, following the corrected reading
of the spec sentence: a node is selected as a root iff it declares a
`"@type"` whose normalized identifiers, **as a set, equal** the schema's
type identifiers (which is what `_compare_ids`'s
`first & second == first | second` computes), not merely intersect
them. -/
def selectsNodeAmended (rdfType : List String) (d : JObj) : Bool :=
  match assocFind d "@type" with
  | none => false
  | some tv =>
      match normalizeId tv with
      | none => false
      | some ids =>
          (ids.all fun x => decide (x ∈ rdfType.map JValue.str)) &&
          ((rdfType.map JValue.str).all fun x => decide (x ∈ ids))

/-- The id→node index accumulated by the flattened-branch loop. -/
def buildIndexAux (acc : List (JValue × JObj)) : List JObj → List (JValue × JObj)
  | [] => acc
  | d :: rest =>
      match assocFind d "@id" with
      | some idv => buildIndexAux (jdictSet acc idv d) rest
      | none => buildIndexAux acc rest

/-- The last node in a list that declares the given identifier. -/
def lastWithId (idv : JValue) : List JObj → Option JObj
  | [] => none
  | d :: rest =>
      match lastWithId idv rest with
      | some d' => some d'
      | none => if assocFind d "@id" = some idv then some d else none

/-- Input-list well-formedness for the flattened branch: every node
declares an `"@id"`, and a declared `"@type"` normalizes. -/
def NodeOk (d : JObj) : Prop :=
  (assocFind d "@id").isSome ∧
    (match assocFind d "@type" with
     | some tv => (normalizeId tv).isSome
     | none => true) = true

instance (d : JObj) : Decidable (NodeOk d) := by
  unfold NodeOk
  infer_instance

theorem jassocFind_jdictSet (m : List (JValue × JObj)) (k k' : JValue) (v : JObj) :
    jassocFind (jdictSet m k v) k' = if k = k' then some v else jassocFind m k' := by
  induction m with
  | nil => simp [jdictSet, jassocFind]
  | cons hd tl ih =>
      obtain ⟨k₀, v₀⟩ := hd
      by_cases h0 : k₀ = k
      · subst h0
        by_cases h1 : k₀ = k'
        · subst h1; simp [jdictSet, jassocFind]
        · simp [jdictSet, jassocFind, h1]
      · by_cases h1 : k₀ = k'
        · subst h1
          have hk : ¬ k = k₀ := fun h => h0 h.symm
          simp [jdictSet, jassocFind, h0, hk, ih]
        · simp [jdictSet, jassocFind, h0, h1, ih]

theorem buildIndexAux_lookup (idv : JValue) :
    ∀ (nodes : List JObj) (acc : List (JValue × JObj)),
      jassocFind (buildIndexAux acc nodes) idv =
        match lastWithId idv nodes with
        | some d => some d
        | none => jassocFind acc idv := by
  intro nodes
  induction nodes with
  | nil => intro acc; simp [buildIndexAux, lastWithId]
  | cons d rest ih =>
      intro acc
      rw [show buildIndexAux acc (d :: rest) =
          (match assocFind d "@id" with
           | some idv0 => buildIndexAux (jdictSet acc idv0 d) rest
           | none => buildIndexAux acc rest) from rfl]
      rw [show lastWithId idv (d :: rest) =
          (match lastWithId idv rest with
           | some d' => some d'
           | none => if assocFind d "@id" = some idv then some d else none) from rfl]
      cases hid : assocFind d "@id" with
      | some idv0 =>
          rw [ih]
          cases hl : lastWithId idv rest with
          | some d' => rfl
          | none =>
              rw [jassocFind_jdictSet]
              by_cases he : idv0 = idv
              · subst he; simp
              · rw [if_neg he, if_neg (by simpa using he)]
      | none =>
          rw [ih]
          cases hl : lastWithId idv rest with
          | some d' => rfl
          | none => rw [if_neg (by simp)]

theorem normalizeIdList_strs (l : List String) :
    normalizeIdList (l.map JValue.str) = some (l.map JValue.str) := by
  induction l with
  | nil => rfl
  | cons x xs ih =>
      simp only [List.map_cons, normalizeIdList, ih]
      rfl

theorem normalizeId_strArr (l : List String) :
    normalizeId (.arr (l.map JValue.str)) = some (l.map JValue.str) :=
  normalizeIdList_strs l

theorem flattenScanLoop_spec (rdfType : List String) :
    ∀ (nodes : List JObj), (∀ d ∈ nodes, NodeOk d) →
      ∀ (acc : List (JValue × JObj)) (sel : List JObj),
        flattenScanLoop rdfType (nodes.map .obj) acc sel =
          .ok (buildIndexAux acc nodes,
               sel ++ nodes.filter (selectsNodeAmended rdfType)) := by
  intro nodes
  induction nodes with
  | nil => intro _ acc sel; simp [flattenScanLoop, buildIndexAux]
  | cons d rest ih =>
      intro hwf acc sel
      have hrest : ∀ d' ∈ rest, NodeOk d' := fun d' hd' => hwf d' (List.mem_cons_of_mem d hd')
      obtain ⟨hidSome, htypeOk⟩ := hwf d (List.mem_cons_self d rest)
      obtain ⟨idv, hid⟩ := Option.isSome_iff_exists.mp hidSome
      cases htv : assocFind d "@type" with
      | none =>
          have hsel : selectsNodeAmended rdfType d = false := by
            simp [selectsNodeAmended, htv]
          simp [flattenScanLoop, buildIndexAux, hid, htv, ih hrest,
            List.filter_cons, hsel]
      | some tv =>
          rw [htv] at htypeOk
          obtain ⟨ids, hids⟩ := Option.isSome_iff_exists.mp htypeOk
          have hcmp := compareIds_eq_setEq tv (.arr (rdfType.map JValue.str)) ids
            (rdfType.map JValue.str) hids (normalizeId_strArr rdfType)
          have hself : selectsNodeAmended rdfType d =
              ((ids.all fun x => decide (x ∈ rdfType.map JValue.str)) &&
               ((rdfType.map JValue.str).all fun x => decide (x ∈ ids))) := by
            simp [selectsNodeAmended, htv, hids]
          simp only [flattenScanLoop, buildIndexAux, hid, htv, hcmp, ih hrest,
            List.filter_cons, hself]
          simp
          split <;> simp

/-- C1 counterexample.  The claim's selection rule ("a node matches if
any of its declared types is claimed by the schema") is false on the
code: a single-node input declaring types `T` and `U`, under a schema
whose type identifier list is `[T]`, has intersecting — but not equal —
type sets; `_compare_ids` requires set equality, so the root set is
empty and a flattened many-load returns the empty collection instead of
deserializing the node. -/
theorem C1_counterexample :
    (flattenedRoots ["T"] [.obj [("@id", .str "i"), ("@type", .arr [.str "T", .str "U"])]] =
      .ok ([(.str "i", [("@id", .str "i"), ("@type", .arr [.str "T", .str "U"])])], [])) ∧
    ((["T", "U"] : List String).filter (fun t => decide (t ∈ (["T"] : List String))) ≠ []) ∧
    (jsonldLoad ⟨[⟨["T"], "M", true, []⟩], true, .RAISE, [], fun _ _ => false⟩ 3 0 true
        (.arr [.obj [("@id", .str "i"), ("@type", .arr [.str "T", .str "U"])]]) =
      .ok (.ok (.list []))) :=
  ⟨rfl, by decide, rfl⟩

/-- C1 (amended).  For every flattened deserialize call whose input is a
list of nodes (each carrying an `"@id"` and a normalizable `"@type"`),
the deserializer builds an id-to-node index over the whole list — the
last node declaring an id wins — and selects as the root set exactly
those nodes whose declared type identifiers, **as a set, equal** the
schema's type identifiers (set equality, not mere intersection); if
exactly one node is selected it is deserialized as the single target
(with `many = False`), otherwise every selected node is deserialized
independently and the collection is returned (with `many = True`). -/
theorem C1_flattened_root_selection (ctx : DeserCtx) (fuel sIdx : Nat)
    (s : SchemaDef) (hs : getSchema ctx.reg sIdx = some s)
    (hflat : ctx.flattened = true)
    (nodes : List JObj) (hwf : ∀ d ∈ nodes, NodeOk d) :
    (flattenedRoots s.rdfType (nodes.map .obj) =
      .ok (buildIndexAux [] nodes, nodes.filter (selectsNodeAmended s.rdfType))) ∧
    (∀ idv, jassocFind (buildIndexAux [] nodes) idv = lastWithId idv nodes) ∧
    (∀ d, nodes.filter (selectsNodeAmended s.rdfType) = [d] →
      jsonldLoad ctx fuel sIdx false (.arr (nodes.map .obj)) =
        (match loadNode ctx (buildIndexAux [] nodes) fuel sIdx d with
         | .error e => .error e
         | .ok (attrs, errs) =>
             if errs.isEmpty then .ok (.ok (.obj s.model attrs))
             else .ok (.error errs))) ∧
    ((nodes.filter (selectsNodeAmended s.rdfType)).length ≠ 1 →
      jsonldLoad ctx fuel sIdx true (.arr (nodes.map .obj)) =
        (match loadManyLoop ctx (buildIndexAux [] nodes) fuel sIdx s.model
            ((nodes.filter (selectsNodeAmended s.rdfType)).map .obj) with
         | .error e => .error e
         | .ok (pvs, errs) =>
             if errs.isEmpty then .ok (.ok (.list pvs))
             else .ok (.error errs))) := by
  have hroots : flattenedRoots s.rdfType (nodes.map .obj) =
      .ok (buildIndexAux [] nodes, nodes.filter (selectsNodeAmended s.rdfType)) := by
    rw [flattenedRoots, flattenScanLoop_spec s.rdfType nodes hwf]
    simp
  refine ⟨hroots, ?_, ?_, ?_⟩
  · intro idv
    rw [buildIndexAux_lookup]
    cases lastWithId idv nodes <;> rfl
  · intro d hone
    simp [jsonldLoad, hs, hflat, isCollection, hroots, hone]
  · intro hlen
    cases hsel : nodes.filter (selectsNodeAmended s.rdfType) with
    | nil => simp [jsonldLoad, hs, hflat, isCollection, hroots, hsel]
    | cons d0 ds =>
        cases ds with
        | nil => exact absurd (by rw [hsel]; rfl) hlen
        | cons d1 ds' =>
            simp [jsonldLoad, hs, hflat, isCollection, hroots, hsel]

/-- Concrete registry for the C1 witness: one schema claiming type `T`. -/
def c1Reg : Registry := [⟨["T"], "M", true, []⟩]

/-- Concrete flattened deserialization context for the C1 witness. -/
def c1Ctx : DeserCtx := ⟨c1Reg, true, .RAISE, [], fun _ _ => false⟩

/-- Concrete input nodes for the C1 witness: one node of type `T`, one of
an unrelated type `X`. -/
def c1Nodes : List JObj :=
  [[("@id", .str "a"), ("@type", .str "T")],
   [("@id", .str "b"), ("@type", .str "X")]]

/-- Witness for C1 (amended) at a concrete two-node input where exactly
one node matches the schema's type. -/
theorem C1_flattened_root_selection_witness :
    (getSchema c1Ctx.reg 0 = some ⟨["T"], "M", true, []⟩) ∧
    (c1Ctx.flattened = true) ∧
    (∀ d ∈ c1Nodes, NodeOk d) ∧
    ((flattenedRoots (["T"] : List String) (c1Nodes.map .obj) =
      .ok (buildIndexAux [] c1Nodes, c1Nodes.filter (selectsNodeAmended ["T"]))) ∧
    (∀ idv, jassocFind (buildIndexAux [] c1Nodes) idv = lastWithId idv c1Nodes) ∧
    (∀ d, c1Nodes.filter (selectsNodeAmended ["T"]) = [d] →
      jsonldLoad c1Ctx 3 0 false (.arr (c1Nodes.map .obj)) =
        (match loadNode c1Ctx (buildIndexAux [] c1Nodes) 3 0 d with
         | .error e => .error e
         | .ok (attrs, errs) =>
             if errs.isEmpty then .ok (.ok (.obj "M" attrs))
             else .ok (.error errs))) ∧
    ((c1Nodes.filter (selectsNodeAmended ["T"])).length ≠ 1 →
      jsonldLoad c1Ctx 3 0 true (.arr (c1Nodes.map .obj)) =
        (match loadManyLoop c1Ctx (buildIndexAux [] c1Nodes) 3 0 "M"
            ((c1Nodes.filter (selectsNodeAmended ["T"])).map .obj) with
         | .error e => .error e
         | .ok (pvs, errs) =>
             if errs.isEmpty then .ok (.ok (.list pvs))
             else .ok (.error errs)))) :=
  ⟨rfl, rfl, by decide,
    C1_flattened_root_selection c1Ctx 3 0 ⟨["T"], "M", true, []⟩ rfl rfl c1Nodes (by decide)⟩

/-! ## C6: serialization of unaccessed deferred handles -/

/-- A deferred handle as seen by `_serialize`: either a
`calamus.utils.Proxy` — which carries `__proxy_initialized__`,
`__proxy_schema__` (here: its schema class as a registry index together
with that schema instance's `flattened` mode) and
`__proxy_original_data__` — or a plain `lazy_object_proxy.Proxy`, which
carries none of those slots. -/
inductive Handle where
  | calamusProxy (initialized : Bool) (schemaType : Nat) (schemaFlattened : Bool)
      (originalData : JValue) : Handle
  | plainLazyProxy : Handle
deriving DecidableEq

/-- What `fields.Nested.load_single_entry` (fields.py:379-380) constructs
on the lazy path: `lazy_object_proxy.Proxy(lambda: schema.load(...))` — a
plain proxy, not a `calamus.utils.Proxy`, so the schema that produced it
and the original document fragment are not recorded on the handle. -/
def load_single_entry_lazy (_schemaType : Nat) (_schemaFlattened : Bool)
    (_value : JValue) : Handle :=
  .plainLazyProxy

/-- Outcome of serializing a deferred handle: the identity short-circuit
returning the captured fragment, or forcing the handle (resolving
`__wrapped__`, which invokes the construction closure) and serializing
the object afresh. -/
inductive ProxySerializeOutcome where
  | originalData (doc : JValue) : ProxySerializeOutcome
  | forced : ProxySerializeOutcome
deriving DecidableEq

/-- The `Proxy` branch of `_serialize` (schema.py:168-179): only a
`calamus.utils.Proxy` passes the `isinstance(obj, Proxy)` check; for one
that was never accessed, whose recorded schema is an instance of the
serializing schema's class (`isInst recorded self` models
`isinstance(proxy_schema, type(self))`), and whose recorded mode equals
the current `flattened` mode, the original captured document is returned
unchanged; in every other case the handle ends up resolved and
serialized fresh.  (For a plain `lazy_object_proxy.Proxy` the
`isinstance` check itself already resolves the handle in CPython, since
it consults `obj.__class__`, which forwards to the wrapped object.) -/
def serializeProxyStep (isInst : Nat → Nat → Bool) (selfType : Nat)
    (selfFlattened : Bool) (h : Handle) : ProxySerializeOutcome :=
  match h with
  | .calamusProxy initialized schemaType schemaFlattened originalData =>
      if !initialized && isInst schemaType selfType
          && (schemaFlattened == selfFlattened) then
        .originalData originalData
      else .forced
  | .plainLazyProxy => .forced

/-- C6 (code bug).  A never-accessed deferred handle produced by the lazy
deserialization path, re-serialized with the very schema type and
flattened mode that produced it, is forced and serialized fresh instead
of returning the original captured fragment — because
`load_single_entry` builds a plain `lazy_object_proxy.Proxy` without the
`__proxy_schema__` / `__proxy_original_data__` slots the short-circuit
at schema.py:168-179 tests.  A `calamus.utils.Proxy` with the same
metadata would short-circuit, which is what the repository's own test
(`test_lazy_proxy_serialization`) asserts. -/
theorem C6_unaccessed_handle_forced :
    serializeProxyStep (fun a b => a == b) 0 false
        (load_single_entry_lazy 0 false (.obj [("@id", .str "b1")])) =
      .forced ∧
    serializeProxyStep (fun a b => a == b) 0 false
        (.calamusProxy false 0 false (.obj [("@id", .str "b1")])) =
      .originalData (.obj [("@id", .str "b1")]) :=
  ⟨rfl, rfl⟩

/-- Lookup in a node's `"@reverse"` bucket. -/
def bucketFind (m : JObj) (k : String) : Option JValue :=
  match assocFind m "@reverse" with
  | some (.obj b) => assocFind b k
  | _ => none

/-- Keys the serializer field loop never writes forward stay unchanged:
only forward data keys and `"@reverse"` are assigned. -/
theorem SFL_preserve (serNode : SchemaDef → PAttrs → Option JObj)
    (reg : Registry) (attrs : PAttrs) :
    ∀ (fl : List FieldDesc) (ret₀ ret : JObj),
      serializeFieldsLoop serNode reg attrs fl ret₀ = some ret →
      ∀ k, (∀ g ∈ fl, g.reverse = false → g.dataKey ≠ k) → k ≠ "@reverse" →
        assocFind ret k = assocFind ret₀ k := by
  intro fl
  induction fl with
  | nil =>
      intro ret₀ ret h k _ _
      simp only [serializeFieldsLoop, Option.some.injEq] at h
      rw [h]
  | cons g rest ih =>
      intro ret₀ ret h k hk hrev
      have hkrest : ∀ g' ∈ rest, g'.reverse = false → g'.dataKey ≠ k :=
        fun g' hg' => hk g' (List.mem_cons_of_mem g hg')
      simp only [serializeFieldsLoop] at h
      cases hattr : assocFind attrs g.attr with
      | none =>
          simp only [hattr] at h
          exact ih ret₀ ret h k hkrest hrev
      | some v =>
          simp only [hattr] at h
          cases hser : serializeValue serNode reg g.kind v with
          | none =>
              simp only [hser] at h
              exact absurd h (by simp)
          | some jv =>
              simp only [hser] at h
              by_cases hgrev : g.reverse = true
              · rw [if_pos hgrev] at h
                cases hbucket : assocFind ret₀ "@reverse" with
                | some bv =>
                    cases bv with
                    | obj bucket =>
                        simp only [hbucket] at h
                        rw [ih _ ret h k hkrest hrev, assocFind_dictSet,
                          if_neg (fun he => hrev he.symm)]
                    | str s =>
                        simp only [hbucket] at h
                        rw [ih _ ret h k hkrest hrev, assocFind_dictSet,
                          if_neg (fun he => hrev he.symm)]
                    | arr vs =>
                        simp only [hbucket] at h
                        rw [ih _ ret h k hkrest hrev, assocFind_dictSet,
                          if_neg (fun he => hrev he.symm)]
                | none =>
                    simp only [hbucket] at h
                    rw [ih _ ret h k hkrest hrev, assocFind_dictSet,
                      if_neg (fun he => hrev he.symm)]
              · rw [Bool.not_eq_true] at hgrev
                rw [if_neg (by simp [hgrev])] at h
                have hgk : g.dataKey ≠ k := hk g (List.mem_cons_self g rest) hgrev
                rw [ih _ ret h k hkrest hrev, assocFind_dictSet, if_neg hgk]

/-- Reverse-bucket entries the loop never writes stay unchanged: only
reverse data keys are assigned inside the bucket, and forward writes
(at keys other than `"@reverse"`) never touch it. -/
theorem SFL_bucket_preserve (serNode : SchemaDef → PAttrs → Option JObj)
    (reg : Registry) (attrs : PAttrs) :
    ∀ (fl : List FieldDesc) (ret₀ ret : JObj),
      serializeFieldsLoop serNode reg attrs fl ret₀ = some ret →
      (∀ g ∈ fl, g.dataKey ≠ "@reverse") →
      ∀ k, (∀ g ∈ fl, g.reverse = true → g.dataKey ≠ k) →
        bucketFind ret k = bucketFind ret₀ k := by
  intro fl
  induction fl with
  | nil =>
      intro ret₀ ret h _ k _
      simp only [serializeFieldsLoop, Option.some.injEq] at h
      rw [h]
  | cons g rest ih =>
      intro ret₀ ret h hnr k hk
      have hnrRest : ∀ g' ∈ rest, g'.dataKey ≠ "@reverse" :=
        fun g' hg' => hnr g' (List.mem_cons_of_mem g hg')
      have hkRest : ∀ g' ∈ rest, g'.reverse = true → g'.dataKey ≠ k :=
        fun g' hg' => hk g' (List.mem_cons_of_mem g hg')
      simp only [serializeFieldsLoop] at h
      cases hattr : assocFind attrs g.attr with
      | none =>
          simp only [hattr] at h
          exact ih ret₀ ret h hnrRest k hkRest
      | some v =>
          simp only [hattr] at h
          cases hser : serializeValue serNode reg g.kind v with
          | none =>
              simp only [hser] at h
              exact absurd h (by simp)
          | some jv =>
              simp only [hser] at h
              by_cases hgrev : g.reverse = true
              · rw [if_pos hgrev] at h
                have hgk : g.dataKey ≠ k := hk g (List.mem_cons_self g rest) hgrev
                cases hbucket : assocFind ret₀ "@reverse" with
                | some bv =>
                    cases bv with
                    | obj bucket =>
                        simp only [hbucket] at h
                        rw [ih _ ret h hnrRest k hkRest]
                        simp [bucketFind, assocFind_dictSet, hbucket, hgk]
                    | str s =>
                        simp only [hbucket] at h
                        rw [ih _ ret h hnrRest k hkRest]
                        simp [bucketFind, assocFind_dictSet, assocFind_cons, assocFind_nil,
                          hbucket, hgk]
                    | arr vs =>
                        simp only [hbucket] at h
                        rw [ih _ ret h hnrRest k hkRest]
                        simp [bucketFind, assocFind_dictSet, assocFind_cons, assocFind_nil,
                          hbucket, hgk]
                | none =>
                    simp only [hbucket] at h
                    rw [ih _ ret h hnrRest k hkRest]
                    simp [bucketFind, assocFind_dictSet, assocFind_cons, assocFind_nil,
                      hbucket, hgk]
              · rw [Bool.not_eq_true] at hgrev
                rw [if_neg (by simp [hgrev])] at h
                have hgnr : g.dataKey ≠ "@reverse" := hnr g (List.mem_cons_self g rest)
                rw [ih _ ret h hnrRest k hkRest]
                simp [bucketFind, assocFind_dictSet, hgnr]

/-- A forward field's key in the serialized node: the serialized value of
its (present) attribute, or whatever the accumulator already held. -/
theorem SFL_forward_lookup (serNode : SchemaDef → PAttrs → Option JObj)
    (reg : Registry) (attrs : PAttrs) :
    ∀ (fl : List FieldDesc) (ret₀ ret : JObj),
      serializeFieldsLoop serNode reg attrs fl ret₀ = some ret →
      (fl.map FieldDesc.dataKey).Nodup →
      (∀ g ∈ fl, g.dataKey ≠ "@reverse") →
      ∀ f ∈ fl, f.reverse = false →
        assocFind ret f.dataKey =
          (match assocFind attrs f.attr with
           | some v => serializeValue serNode reg f.kind v
           | none => assocFind ret₀ f.dataKey) := by
  intro fl
  induction fl with
  | nil => intro _ _ _ _ _ f hf; simp at hf
  | cons g rest ih =>
      intro ret₀ ret h hnodup hnr f hf hfrev
      have hnodup' : (rest.map FieldDesc.dataKey).Nodup := (List.nodup_cons.mp hnodup).2
      have hgnotin : g.dataKey ∉ rest.map FieldDesc.dataKey := (List.nodup_cons.mp hnodup).1
      have hnrRest : ∀ g' ∈ rest, g'.dataKey ≠ "@reverse" :=
        fun g' hg' => hnr g' (List.mem_cons_of_mem g hg')
      simp only [serializeFieldsLoop] at h
      rcases List.mem_cons.mp hf with hfg | hfrest
      · subst hfg
        cases hattr : assocFind attrs f.attr with
        | none =>
            simp only [hattr] at h
            have := SFL_preserve serNode reg attrs rest ret₀ ret h f.dataKey
              (fun g' hg' _ => fun he =>
                hgnotin (he ▸ List.mem_map_of_mem FieldDesc.dataKey hg'))
              (hnr f (List.mem_cons_self f rest))
            rw [this]
        | some v =>
            simp only [hattr] at h
            cases hser : serializeValue serNode reg f.kind v with
            | none =>
                simp only [hser] at h
                exact absurd h (by simp)
            | some jv =>
                simp only [hser] at h
                rw [if_neg (by simp [hfrev])] at h
                have := SFL_preserve serNode reg attrs rest _ ret h f.dataKey
                  (fun g' hg' _ => fun he =>
                    hgnotin (he ▸ List.mem_map_of_mem FieldDesc.dataKey hg'))
                  (hnr f (List.mem_cons_self f rest))
                rw [this, assocFind_dictSet, if_pos rfl]
                exact hser.symm
      · have hgf : g.dataKey ≠ f.dataKey := fun he =>
          hgnotin (he ▸ List.mem_map_of_mem FieldDesc.dataKey hfrest)
        cases hattr : assocFind attrs g.attr with
        | none =>
            simp only [hattr] at h
            exact ih ret₀ ret h hnodup' hnrRest f hfrest hfrev
        | some v =>
            simp only [hattr] at h
            cases hser : serializeValue serNode reg g.kind v with
            | none =>
                simp only [hser] at h
                exact absurd h (by simp)
            | some jv =>
                simp only [hser] at h
                by_cases hgrev : g.reverse = true
                · rw [if_pos hgrev] at h
                  cases hbucket : assocFind ret₀ "@reverse" with
                  | some bv =>
                      cases bv with
                      | obj bucket =>
                          simp only [hbucket] at h
                          rw [ih _ ret h hnodup' hnrRest f hfrest hfrev]
                          cases assocFind attrs f.attr with
                          | none =>
                              simp only [assocFind_dictSet,
                                if_neg (hnr f (List.mem_cons_of_mem g hfrest) ∘ Eq.symm)]
                          | some v' => rfl
                      | str s =>
                          simp only [hbucket] at h
                          rw [ih _ ret h hnodup' hnrRest f hfrest hfrev]
                          cases assocFind attrs f.attr with
                          | none =>
                              simp only [assocFind_dictSet,
                                if_neg (hnr f (List.mem_cons_of_mem g hfrest) ∘ Eq.symm)]
                          | some v' => rfl
                      | arr vs =>
                          simp only [hbucket] at h
                          rw [ih _ ret h hnodup' hnrRest f hfrest hfrev]
                          cases assocFind attrs f.attr with
                          | none =>
                              simp only [assocFind_dictSet,
                                if_neg (hnr f (List.mem_cons_of_mem g hfrest) ∘ Eq.symm)]
                          | some v' => rfl
                  | none =>
                      simp only [hbucket] at h
                      rw [ih _ ret h hnodup' hnrRest f hfrest hfrev]
                      cases assocFind attrs f.attr with
                      | none =>
                          simp only [assocFind_dictSet,
                            if_neg (hnr f (List.mem_cons_of_mem g hfrest) ∘ Eq.symm)]
                      | some v' => rfl
                · rw [Bool.not_eq_true] at hgrev
                  rw [if_neg (by simp [hgrev])] at h
                  rw [ih _ ret h hnodup' hnrRest f hfrest hfrev]
                  cases assocFind attrs f.attr with
                  | none => simp only [assocFind_dictSet, if_neg hgf]
                  | some v' => rfl

/-- A reverse field's entry in the serialized node's `"@reverse"` bucket:
the serialized value of its (present) attribute, or whatever the
accumulator's bucket already held. -/
theorem SFL_bucket_lookup (serNode : SchemaDef → PAttrs → Option JObj)
    (reg : Registry) (attrs : PAttrs) :
    ∀ (fl : List FieldDesc) (ret₀ ret : JObj),
      serializeFieldsLoop serNode reg attrs fl ret₀ = some ret →
      (fl.map FieldDesc.dataKey).Nodup →
      (∀ g ∈ fl, g.dataKey ≠ "@reverse") →
      ∀ f ∈ fl, f.reverse = true →
        bucketFind ret f.dataKey =
          (match assocFind attrs f.attr with
           | some v => serializeValue serNode reg f.kind v
           | none => bucketFind ret₀ f.dataKey) := by
  intro fl
  induction fl with
  | nil => intro _ _ _ _ _ f hf; simp at hf
  | cons g rest ih =>
      intro ret₀ ret h hnodup hnr f hf hfrev
      have hnodup' : (rest.map FieldDesc.dataKey).Nodup := (List.nodup_cons.mp hnodup).2
      have hgnotin : g.dataKey ∉ rest.map FieldDesc.dataKey := (List.nodup_cons.mp hnodup).1
      have hnrRest : ∀ g' ∈ rest, g'.dataKey ≠ "@reverse" :=
        fun g' hg' => hnr g' (List.mem_cons_of_mem g hg')
      simp only [serializeFieldsLoop] at h
      rcases List.mem_cons.mp hf with hfg | hfrest
      · subst hfg
        have hrestKeys : ∀ g' ∈ rest, g'.reverse = true → g'.dataKey ≠ f.dataKey :=
          fun g' hg' _ he => hgnotin (he ▸ List.mem_map_of_mem FieldDesc.dataKey hg')
        cases hattr : assocFind attrs f.attr with
        | none =>
            simp only [hattr] at h
            exact SFL_bucket_preserve serNode reg attrs rest ret₀ ret h hnrRest
              f.dataKey hrestKeys
        | some v =>
            simp only [hattr] at h
            cases hser : serializeValue serNode reg f.kind v with
            | none =>
                simp only [hser] at h
                exact absurd h (by simp)
            | some jv =>
                simp only [hser] at h
                rw [if_pos hfrev] at h
                cases hbucket : assocFind ret₀ "@reverse" with
                | some bv =>
                    cases bv with
                    | obj bucket =>
                        simp only [hbucket] at h
                        rw [SFL_bucket_preserve serNode reg attrs rest _ ret h hnrRest
                          f.dataKey hrestKeys]
                        simp [bucketFind, assocFind_dictSet]
                        exact hser.symm
                    | str s =>
                        simp only [hbucket] at h
                        rw [SFL_bucket_preserve serNode reg attrs rest _ ret h hnrRest
                          f.dataKey hrestKeys]
                        simp [bucketFind, assocFind_dictSet, assocFind_cons]
                        exact hser.symm
                    | arr vs =>
                        simp only [hbucket] at h
                        rw [SFL_bucket_preserve serNode reg attrs rest _ ret h hnrRest
                          f.dataKey hrestKeys]
                        simp [bucketFind, assocFind_dictSet, assocFind_cons]
                        exact hser.symm
                | none =>
                    simp only [hbucket] at h
                    rw [SFL_bucket_preserve serNode reg attrs rest _ ret h hnrRest
                      f.dataKey hrestKeys]
                    simp [bucketFind, assocFind_dictSet, assocFind_cons]
                    exact hser.symm
      · have hgf : g.dataKey ≠ f.dataKey := fun he =>
          hgnotin (he ▸ List.mem_map_of_mem FieldDesc.dataKey hfrest)
        cases hattr : assocFind attrs g.attr with
        | none =>
            simp only [hattr] at h
            exact ih ret₀ ret h hnodup' hnrRest f hfrest hfrev
        | some v =>
            simp only [hattr] at h
            cases hser : serializeValue serNode reg g.kind v with
            | none =>
                simp only [hser] at h
                exact absurd h (by simp)
            | some jv =>
                simp only [hser] at h
                by_cases hgrev : g.reverse = true
                · rw [if_pos hgrev] at h
                  cases hbucket : assocFind ret₀ "@reverse" with
                  | some bv =>
                      cases bv with
                      | obj bucket =>
                          simp only [hbucket] at h
                          rw [ih _ ret h hnodup' hnrRest f hfrest hfrev]
                          cases assocFind attrs f.attr with
                          | some v' => rfl
                          | none =>
                              simp [bucketFind, assocFind_dictSet, hbucket, hgf]
                      | str s =>
                          simp only [hbucket] at h
                          rw [ih _ ret h hnodup' hnrRest f hfrest hfrev]
                          cases assocFind attrs f.attr with
                          | some v' => rfl
                          | none =>
                              simp [bucketFind, assocFind_dictSet, assocFind_cons,
                                hbucket, hgf]
                      | arr vs =>
                          simp only [hbucket] at h
                          rw [ih _ ret h hnodup' hnrRest f hfrest hfrev]
                          cases assocFind attrs f.attr with
                          | some v' => rfl
                          | none =>
                              simp [bucketFind, assocFind_dictSet, assocFind_cons,
                                hbucket, hgf]
                  | none =>
                      simp only [hbucket] at h
                      rw [ih _ ret h hnodup' hnrRest f hfrest hfrev]
                      cases assocFind attrs f.attr with
                      | some v' => rfl
                      | none =>
                          simp [bucketFind, assocFind_dictSet, assocFind_cons,
                            hbucket, hgf]
                · rw [Bool.not_eq_true] at hgrev
                  rw [if_neg (by simp [hgrev])] at h
                  rw [ih _ ret h hnodup' hnrRest f hfrest hfrev]
                  have hgnr : g.dataKey ≠ "@reverse" := hnr g (List.mem_cons_self g rest)
                  cases assocFind attrs f.attr with
                  | some v' => rfl
                  | none => simp [bucketFind, assocFind_dictSet, hgnr]

/-- The serializer field loop succeeds as soon as every present attribute
value serializes. -/
theorem SFL_some (serNode : SchemaDef → PAttrs → Option JObj)
    (reg : Registry) (attrs : PAttrs) :
    ∀ (fl : List FieldDesc) (ret₀ : JObj),
      (∀ f ∈ fl, ∀ v, assocFind attrs f.attr = some v →
        (serializeValue serNode reg f.kind v).isSome) →
      (serializeFieldsLoop serNode reg attrs fl ret₀).isSome := by
  intro fl
  induction fl with
  | nil => intro ret₀ _; simp [serializeFieldsLoop]
  | cons g rest ih =>
      intro ret₀ hall
      have hrest : ∀ f ∈ rest, ∀ v, assocFind attrs f.attr = some v →
          (serializeValue serNode reg f.kind v).isSome :=
        fun f hf => hall f (List.mem_cons_of_mem g hf)
      simp only [serializeFieldsLoop]
      cases hattr : assocFind attrs g.attr with
      | none => exact ih ret₀ hrest
      | some v =>
          obtain ⟨jv, hjv⟩ := Option.isSome_iff_exists.mp
            (hall g (List.mem_cons_self g rest) v hattr)
          simp only [hjv]
          by_cases hgrev : g.reverse = true
          · rw [if_pos hgrev]
            cases assocFind ret₀ "@reverse" with
            | some bv => cases bv <;> exact ih _ hrest
            | none => exact ih _ hrest
          · rw [Bool.not_eq_true] at hgrev
            rw [if_neg (by simp [hgrev])]
            exact ih _ hrest

/-- Every key of the serialized field map is an accumulator key, the
`"@reverse"` bucket, or a forward field's data key. -/
theorem SFL_keys (serNode : SchemaDef → PAttrs → Option JObj)
    (reg : Registry) (attrs : PAttrs) :
    ∀ (fl : List FieldDesc) (ret₀ ret : JObj),
      serializeFieldsLoop serNode reg attrs fl ret₀ = some ret →
      ∀ k, (assocFind ret k).isSome →
        (assocFind ret₀ k).isSome ∨ k = "@reverse" ∨ ∃ f ∈ fl, f.dataKey = k := by
  intro fl
  induction fl with
  | nil =>
      intro ret₀ ret h k hk
      simp only [serializeFieldsLoop, Option.some.injEq] at h
      exact Or.inl (h ▸ hk)
  | cons g rest ih =>
      intro ret₀ ret h k hk
      simp only [serializeFieldsLoop] at h
      cases hattr : assocFind attrs g.attr with
      | none =>
          simp only [hattr] at h
          rcases ih ret₀ ret h k hk with h1 | h2 | ⟨f, hf, hfk⟩
          · exact Or.inl h1
          · exact Or.inr (Or.inl h2)
          · exact Or.inr (Or.inr ⟨f, List.mem_cons_of_mem g hf, hfk⟩)
      | some v =>
          simp only [hattr] at h
          cases hser : serializeValue serNode reg g.kind v with
          | none =>
              simp only [hser] at h
              exact absurd h (by simp)
          | some jv =>
              simp only [hser] at h
              by_cases hgrev : g.reverse = true
              · rw [if_pos hgrev] at h
                have key : ∀ (b : JValue),
                    serializeFieldsLoop serNode reg attrs rest
                      (dictSet ret₀ "@reverse" b) = some ret →
                    (assocFind ret₀ k).isSome ∨ k = "@reverse" ∨
                      ∃ f ∈ g :: rest, f.dataKey = k := by
                  intro b hb
                  rcases ih _ ret hb k hk with h1 | h2 | ⟨f, hf, hfk⟩
                  · rw [assocFind_dictSet] at h1
                    by_cases hrk : "@reverse" = k
                    · exact Or.inr (Or.inl hrk.symm)
                    · rw [if_neg hrk] at h1
                      exact Or.inl h1
                  · exact Or.inr (Or.inl h2)
                  · exact Or.inr (Or.inr ⟨f, List.mem_cons_of_mem g hf, hfk⟩)
                cases hbucket : assocFind ret₀ "@reverse" with
                | some bv =>
                    cases bv with
                    | obj bucket => simp only [hbucket] at h; exact key _ h
                    | str s => simp only [hbucket] at h; exact key _ h
                    | arr vs => simp only [hbucket] at h; exact key _ h
                | none => simp only [hbucket] at h; exact key _ h
              · rw [Bool.not_eq_true] at hgrev
                rw [if_neg (by simp [hgrev])] at h
                rcases ih _ ret h k hk with h1 | h2 | ⟨f, hf, hfk⟩
                · rw [assocFind_dictSet] at h1
                  by_cases hgk : g.dataKey = k
                  · exact Or.inr (Or.inr ⟨g, List.mem_cons_self g rest, hgk⟩)
                  · rw [if_neg hgk] at h1
                    exact Or.inl h1
                · exact Or.inr (Or.inl h2)
                · exact Or.inr (Or.inr ⟨f, List.mem_cons_of_mem g hf, hfk⟩)

/-- The `"@id"` synthesis step only touches the `"@id"` key. -/
theorem serializeAddId_preserve (gen : JObj → PAttrs → String) (s : SchemaDef)
    (attrs : PAttrs) (ret ret₁ : JObj)
    (h : serializeAddId gen s attrs ret = some ret₁)
    (k : String) (hk : k ≠ "@id") :
    assocFind ret₁ k = assocFind ret k := by
  rw [serializeAddId] at h
  cases hid : assocFind ret "@id" with
  | some idv =>
      simp only [hid] at h
      by_cases htr : jtruthy idv = true
      · rw [if_pos htr] at h
        injection h with h
        rw [← h]
      · rw [if_neg htr] at h
        cases hstrat : s.idStrategy with
        | false => simp [hstrat] at h
        | true =>
            simp only [hstrat, if_pos] at h
            injection h with h
            rw [← h, assocFind_dictSet, if_neg (fun he => hk he.symm)]
  | none =>
      simp only [hid] at h
      cases hstrat : s.idStrategy with
      | false => simp [hstrat] at h
      | true =>
          simp only [hstrat, if_pos] at h
          injection h with h
          rw [← h, assocFind_dictSet, if_neg (fun he => hk he.symm)]

/-- C3 part (a) at node level: in a successfully serialized node, a
reverse-flagged field's value appears only inside the `"@reverse"`
bucket under its property identifier and never as a forward key. -/
theorem serializeNode_reverse_field (gen : JObj → PAttrs → String)
    (reg : Registry) (fuel : Nat) (s : SchemaDef) (attrs : PAttrs)
    (node : JObj) (f : FieldDesc)
    (h : serializeNode gen reg (fuel + 1) s attrs = some node)
    (hnodup : (s.fieldList.map FieldDesc.dataKey).Nodup)
    (hnr : ∀ g ∈ s.fieldList, g.dataKey ≠ "@reverse")
    (hfid : f.dataKey ≠ "@id") (hfty : f.dataKey ≠ "@type")
    (hf : f ∈ s.fieldList) (hfrev : f.reverse = true) :
    assocFind node f.dataKey = none ∧
    bucketFind node f.dataKey =
      (match assocFind attrs f.attr with
       | some v => serializeValue (serializeNode gen reg fuel) reg f.kind v
       | none => none) := by
  rw [show serializeNode gen reg (fuel + 1) s attrs =
      serializeNodeCore (serializeNode gen reg fuel) gen reg s attrs from rfl] at h
  rw [serializeNodeCore] at h
  cases hloop : serializeFieldsLoop (serializeNode gen reg fuel) reg attrs s.fieldList []
    with
  | none =>
      rw [hloop] at h
      exact absurd h (by simp)
  | some ret =>
      simp only [hloop] at h
      have hforward : ∀ g ∈ s.fieldList, g.reverse = false → g.dataKey ≠ f.dataKey := by
        intro g hg hgrev he
        have hne : g ≠ f := fun hc => by rw [hc] at hgrev; rw [hgrev] at hfrev; cases hfrev
        have := List.inj_on_of_nodup_map hnodup hg hf he
        exact hne this
      have hret : assocFind ret f.dataKey = none := by
        rw [SFL_preserve (serializeNode gen reg fuel) reg attrs s.fieldList [] ret hloop
          f.dataKey hforward (hnr f hf)]
        rfl
      have hbret : bucketFind ret f.dataKey =
          (match assocFind attrs f.attr with
           | some v => serializeValue (serializeNode gen reg fuel) reg f.kind v
           | none => none) := by
        rw [SFL_bucket_lookup (serializeNode gen reg fuel) reg attrs s.fieldList [] ret
          hloop hnodup hnr f hf hfrev]
        cases assocFind attrs f.attr with
        | some v => rfl
        | none => simp [bucketFind, assocFind]
      cases hid : serializeAddId gen s attrs ret with
      | none =>
          rw [hid] at h
          exact absurd h (by simp)
      | some ret₁ =>
          simp only [hid] at h
          cases hrdf : s.rdfType.isEmpty with
          | true => simp [hrdf] at h
          | false =>
              rw [if_neg (by simp [hrdf])] at h
              injection h with h
              constructor
              · rw [← h, assocFind_dictSet, if_neg (fun he => hfty he.symm),
                  serializeAddId_preserve gen s attrs ret ret₁ hid f.dataKey hfid, hret]
              · rw [← h, ← hbret]
                simp only [bucketFind, assocFind_dictSet]
                rw [if_neg (by decide),
                  serializeAddId_preserve gen s attrs ret ret₁ hid "@reverse" (by decide)]

/-! ## C3 scenario: a reverse-flagged nested field (author/books)

The canonical reverse-field example of the repository's documentation
and tests (`tests/test_serialization.py`): a `Book` schema with id and
name, and an `Author` schema whose `books` field is
`Nested(schema.author, BookSchema, reverse=True, many=True)`.  The
schema registry, the reversed-properties table and both document
encodings (nested and flattened-with-forward-links) are spelled out
concretely; the population of books stays symbolic. -/

def c3BookType : String := "t:B"

def c3PersonType : String := "t:P"

def c3NameKey : String := "p:n"

def c3AuthorKey : String := "p:a"

/-- The book schema (registry index 0). -/
def c3BookSchema : SchemaDef :=
  ⟨[c3BookType], "Book", true,
   [⟨"_id", "@id", false, .idF⟩, ⟨"name", c3NameKey, false, .stringF⟩]⟩

/-- The author schema (registry index 1): its `books` field is
reverse-flagged, many-valued and nested on the book schema. -/
def c3AuthorSchema : SchemaDef :=
  ⟨[c3PersonType], "Author", true,
   [⟨"_id", "@id", false, .idF⟩, ⟨"name", c3NameKey, false, .stringF⟩,
    ⟨"books", c3AuthorKey, true, .nestedF [0] true⟩]⟩

def c3Reg : Registry := [c3BookSchema, c3AuthorSchema]

/-- Deserialization context for the scenario: `_reversed_properties`
maps the reverse property to the set of sub-schemas of the reverse
field (`Nested._reversed_fields`, fields.py:452-466), and `isinstance`
between the registered schemas is plain index equality. -/
def c3Ctx (fl : Bool) : DeserCtx :=
  ⟨c3Reg, fl, .RAISE, [(c3AuthorKey, [0])], fun a b => a == b⟩

/-- A book object, from its (id, name) pair. -/
def c3Book (b : String × String) : PVal :=
  .obj "Book" [("_id", .str b.1), ("name", .str b.2)]

/-- An author object holding a collection of books. -/
def c3Author (aid aname : String) (books : List (String × String)) : PVal :=
  .obj "Author"
    [("_id", .str aid), ("name", .str aname),
     ("books", .list (books.map c3Book))]

/-- The serialized book node. -/
def c3BookNode (b : String × String) : JObj :=
  [("@id", .str b.1), (c3NameKey, .str b.2), ("@type", .arr [.str c3BookType])]

/-- The nested (non-flattened) author document: the books live only in
the `"@reverse"` bucket under the reverse property. -/
def c3NestedDoc (aid aname : String) (books : List (String × String)) : JObj :=
  [("@id", .str aid), (c3NameKey, .str aname),
   ("@reverse", .obj [(c3AuthorKey, .arr (books.map (fun b => .obj (c3BookNode b))))]),
   ("@type", .arr [.str c3PersonType])]

/-- A flattened book node: the reverse property appears as a forward
link from the book back to the author. -/
def c3FlatBookNode (aid : String) (b : String × String) : JObj :=
  [("@id", .str b.1), (c3NameKey, .str b.2), ("@type", .arr [.str c3BookType]),
   (c3AuthorKey, .obj [("@id", .str aid)])]

/-- The author node of the flattened document: no `"@reverse"` bucket. -/
def c3AuthorFlatNode (aid aname : String) : JObj :=
  [("@id", .str aid), ("@type", .arr [.str c3PersonType]), (c3NameKey, .str aname)]

/-- The flattened document: the author node followed by the book nodes. -/
def c3FlatDoc (aid aname : String) (books : List (String × String)) : List JValue :=
  .obj (c3AuthorFlatNode aid aname) :: books.map (fun b => .obj (c3FlatBookNode aid b))

/-- The id→node index the flattened branch builds over `c3FlatDoc`. -/
def c3AllObjects (aid aname : String) (books : List (String × String)) :
    List (JValue × JObj) :=
  (.str aid, c3AuthorFlatNode aid aname)
    :: books.map (fun b => (.str b.1, c3FlatBookNode aid b))

theorem c3_serBook (gen : JObj → PAttrs → String) (b : String × String)
    (h : b.1.isEmpty = false) :
    serializeNode gen c3Reg 1 c3BookSchema [("_id", .str b.1), ("name", .str b.2)] =
      some (c3BookNode b) := by
  show serializeNodeCore (serializeNode gen c3Reg 0) gen c3Reg c3BookSchema _ = _
  have hloop : serializeFieldsLoop (serializeNode gen c3Reg 0) c3Reg
      [("_id", .str b.1), ("name", .str b.2)] c3BookSchema.fieldList [] =
      some [("@id", .str b.1), (c3NameKey, .str b.2)] := rfl
  rw [serializeNodeCore]
  simp only [hloop]
  have hid : serializeAddId gen c3BookSchema [("_id", .str b.1), ("name", .str b.2)]
      [("@id", .str b.1), (c3NameKey, .str b.2)] =
      some [("@id", .str b.1), (c3NameKey, .str b.2)] := by
    rw [serializeAddId]
    have : assocFind [("@id", JValue.str b.1), (c3NameKey, .str b.2)] "@id" =
        some (.str b.1) := rfl
    simp only [this]
    rw [if_pos (by simp [jtruthy, h])]
  simp only [hid]
  rfl

theorem c3_serObjList (gen : JObj → PAttrs → String)
    (books : List (String × String)) (hb : ∀ b ∈ books, b.1.isEmpty = false) :
    serializeObjList (serializeNode gen c3Reg 1) c3Reg [0] (books.map c3Book) =
      some (books.map (fun b => .obj (c3BookNode b))) := by
  induction books with
  | nil => rfl
  | cons b bs ih =>
      have h1 : b.1.isEmpty = false := hb b (by simp)
      have hser := c3_serBook gen b h1
      simp only [List.map_cons, serializeObjList, serializeSingleObj, c3Book]
      have hdisp : nestedToDispatch c3Reg [0] "Book" = some 0 := rfl
      have hg : getSchema c3Reg 0 = some c3BookSchema := rfl
      simp only [hdisp, hg, Option.bind_eq_bind, Option.some_bind, hser, Option.map]
      rw [ih (fun x hx => hb x (List.mem_cons_of_mem b hx))]

theorem c3_serialize (gen : JObj → PAttrs → String) (aid aname : String)
    (books : List (String × String))
    (haid : aid.isEmpty = false) (hb : ∀ b ∈ books, b.1.isEmpty = false) :
    jsonldSerialize gen c3Reg 2 1 (c3Author aid aname books) =
      some (c3NestedDoc aid aname books) := by
  have hg : getSchema c3Reg 1 = some c3AuthorSchema := rfl
  simp only [c3Author, jsonldSerialize, hg, Option.bind_eq_bind, Option.some_bind]
  show serializeNodeCore (serializeNode gen c3Reg 1) gen c3Reg c3AuthorSchema _ = _
  have hloop : serializeFieldsLoop (serializeNode gen c3Reg 1) c3Reg
      [("_id", .str aid), ("name", .str aname), ("books", .list (books.map c3Book))]
      c3AuthorSchema.fieldList [] =
      some (dictSet [("@id", .str aid), (c3NameKey, .str aname)] "@reverse"
        (.obj [(c3AuthorKey,
          .arr (books.map (fun b => .obj (c3BookNode b))))])) := by
    have step12 : serializeFieldsLoop (serializeNode gen c3Reg 1) c3Reg
        [("_id", .str aid), ("name", .str aname), ("books", .list (books.map c3Book))]
        c3AuthorSchema.fieldList [] =
        serializeFieldsLoop (serializeNode gen c3Reg 1) c3Reg
          [("_id", .str aid), ("name", .str aname), ("books", .list (books.map c3Book))]
          [⟨"books", c3AuthorKey, true, .nestedF [0] true⟩]
          [("@id", .str aid), (c3NameKey, .str aname)] := rfl
    rw [step12, serializeFieldsLoop]
    have hfind : assocFind
        [("_id", PVal.str aid), ("name", .str aname), ("books", .list (books.map c3Book))]
        "books" = some (.list (books.map c3Book)) := by
      simp [assocFind]
    simp only [hfind]
    have hval : serializeValue (serializeNode gen c3Reg 1) c3Reg
        (.nestedF [0] true) (.list (books.map c3Book)) =
        some (.arr (books.map (fun b => .obj (c3BookNode b)))) := by
      simp only [serializeValue, if_pos]
      rw [c3_serObjList gen books hb]
      rfl
    simp only [hval]
    rfl
  rw [serializeNodeCore]
  simp only [hloop]
  have hid : serializeAddId gen c3AuthorSchema
      [("_id", .str aid), ("name", .str aname), ("books", .list (books.map c3Book))]
      (dictSet [("@id", .str aid), (c3NameKey, .str aname)] "@reverse"
        (.obj [(c3AuthorKey, .arr (books.map (fun b => .obj (c3BookNode b))))])) =
      some (dictSet [("@id", .str aid), (c3NameKey, .str aname)] "@reverse"
        (.obj [(c3AuthorKey, .arr (books.map (fun b => .obj (c3BookNode b))))])) := by
    rw [serializeAddId]
    have hfind : assocFind (dictSet [("@id", JValue.str aid), (c3NameKey, .str aname)]
        "@reverse" (.obj [(c3AuthorKey,
          .arr (books.map (fun b => .obj (c3BookNode b))))])) "@id" =
        some (.str aid) := by
      simp [dictSet, assocFind]
    simp only [hfind]
    rw [if_pos (by simp [jtruthy, haid])]
  simp only [hid]
  rfl

theorem jassocFind_append (m1 m2 : List (JValue × JObj)) (k : JValue)
    (h : jassocFind m1 k = none) : jassocFind (m1 ++ m2) k = jassocFind m2 k := by
  induction m1 with
  | nil => rfl
  | cons p rest ih =>
      obtain ⟨k', v⟩ := p
      simp only [jassocFind] at h
      by_cases hk : k' = k
      · rw [if_pos hk] at h; cases h
      · rw [if_neg hk] at h
        rw [List.cons_append]
        simp only [jassocFind]
        rw [if_neg hk]
        exact ih h

theorem jdictSet_append (m : List (JValue × JObj)) (k : JValue) (v : JObj)
    (h : jassocFind m k = none) : jdictSet m k v = m ++ [(k, v)] := by
  induction m with
  | nil => rfl
  | cons p rest ih =>
      obtain ⟨k', v'⟩ := p
      simp only [jassocFind] at h
      by_cases hk : k' = k
      · rw [if_pos hk] at h; cases h
      · rw [if_neg hk] at h
        simp only [jdictSet]
        rw [if_neg hk, List.cons_append, ih h]

theorem c3_nv_node (b : String × String) :
    normalizeValue (.obj (c3BookNode b)) = .obj (c3BookNode b) := rfl

theorem c3_nvl (books : List (String × String)) :
    normalizeValueList (books.map (fun b => .obj (c3BookNode b))) =
      books.map (fun b => .obj (c3BookNode b)) := by
  induction books with
  | nil => rfl
  | cons b bs ih => simp only [List.map_cons, normalizeValueList, c3_nv_node, ih]

theorem c3_nestedLoad_books (le : JValue → EntryRes) (k : String)
    (books : List (String × String)) :
    nestedLoad le true k
      (normalizeValue (.arr (books.map (fun b => .obj (c3BookNode b))))) =
      (match loadEntriesLoop le (books.map (fun b => .obj (c3BookNode b))) with
       | .error e => .error e
       | .ok (.error e) => .ok (.error e)
       | .ok (.ok pvs) => .ok (.ok (.list pvs))) := by
  match books with
  | [] => rfl
  | [b] =>
      rw [show normalizeValue (.arr ([b].map (fun x => JValue.obj (c3BookNode x)))) =
        .obj (c3BookNode b) from rfl]
      rfl
  | b1 :: b2 :: bs =>
      rw [show normalizeValue
          (.arr ((b1 :: b2 :: bs).map (fun x => JValue.obj (c3BookNode x)))) =
          .arr (normalizeValueList
            ((b1 :: b2 :: bs).map (fun x => .obj (c3BookNode x)))) from rfl]
      rw [c3_nvl]
      rfl

theorem c3_loadBookNode (fl : Bool) (ao : List (JValue × JObj)) (fuel : Nat)
    (b : String × String) :
    loadNode (c3Ctx fl) ao (fuel + 1) 0 (c3BookNode b) =
      .ok ([("_id", .str b.1), ("name", .str b.2)], []) := rfl

theorem c3_loadSingle (fl : Bool) (ao : List (JValue × JObj)) (b : String × String) :
    loadSingleEntry (fun i kvs => loadNode (c3Ctx fl) ao 1 i kvs) (c3Ctx fl) [0]
      (.obj (c3BookNode b)) = .ok (.ok (c3Book b)) := rfl

theorem c3_loadEntries (fl : Bool) (ao : List (JValue × JObj))
    (books : List (String × String)) :
    loadEntriesLoop
      (fun x => loadSingleEntry (fun i kvs => loadNode (c3Ctx fl) ao 1 i kvs)
        (c3Ctx fl) [0] x)
      (books.map (fun b => .obj (c3BookNode b))) = .ok (.ok (books.map c3Book)) := by
  induction books with
  | nil => rfl
  | cons b bs ih =>
      simp only [List.map_cons, loadEntriesLoop, c3_loadSingle, ih]

theorem c3_loadNested (aid aname : String) (books : List (String × String)) :
    jsonldLoad (c3Ctx false) 2 1 false (.obj (c3NestedDoc aid aname books)) =
      .ok (.ok (c3Author aid aname books)) := by
  rw [show jsonldLoad (c3Ctx false) 2 1 false (.obj (c3NestedDoc aid aname books)) =
      (match loadNode (c3Ctx false) [] 2 1 (c3NestedDoc aid aname books) with
       | .error e => .error e
       | .ok (attrs, errs) =>
           if errs.isEmpty then Except.ok (.ok (.obj "Author" attrs))
           else .ok (.error errs)) from rfl]
  have hdf : deserializeField
      (fun subs v => loadSingleEntry (fun i kvs => loadNode (c3Ctx false) [] 1 i kvs)
        (c3Ctx false) subs v)
      (c3Ctx false) [] ⟨"books", c3AuthorKey, true, .nestedF [0] true⟩
      (.arr (books.map (fun b => .obj (c3BookNode b)))) =
      .ok (.ok (.list (books.map c3Book))) := by
    rw [show deserializeField
        (fun subs v => loadSingleEntry (fun i kvs => loadNode (c3Ctx false) [] 1 i kvs)
          (c3Ctx false) subs v)
        (c3Ctx false) [] ⟨"books", c3AuthorKey, true, .nestedF [0] true⟩
        (.arr (books.map (fun b => .obj (c3BookNode b)))) =
        nestedLoad
          (fun x => loadSingleEntry (fun i kvs => loadNode (c3Ctx false) [] 1 i kvs)
            (c3Ctx false) [0] x)
          true c3AuthorKey
          (normalizeValue (.arr (books.map (fun b => .obj (c3BookNode b)))))
        from rfl]
    rw [c3_nestedLoad_books]
    rw [c3_loadEntries false [] books]
  have hload : loadNode (c3Ctx false) [] 2 1 (c3NestedDoc aid aname books) =
      .ok ([("_id", .str aid), ("name", .str aname),
            ("books", .list (books.map c3Book))], []) := by
    rw [show loadNode (c3Ctx false) [] 2 1 (c3NestedDoc aid aname books) =
        deserializeNodeCore
          (fun subs v => loadSingleEntry
            (fun i kvs => loadNode (c3Ctx false) [] 1 i kvs) (c3Ctx false) subs v)
          (c3Ctx false) [] 1 c3AuthorSchema (c3NestedDoc aid aname books) from rfl]
    rw [deserializeNodeCore]
    have hloop : deserializeFieldsLoop
        (fun subs v => loadSingleEntry
          (fun i kvs => loadNode (c3Ctx false) [] 1 i kvs) (c3Ctx false) subs v)
        (c3Ctx false) [] (c3NestedDoc aid aname books) c3AuthorSchema.fieldList [] [] =
        .ok ([("_id", .str aid), ("name", .str aname),
              ("books", .list (books.map c3Book))], []) := by
      rw [show deserializeFieldsLoop
          (fun subs v => loadSingleEntry
            (fun i kvs => loadNode (c3Ctx false) [] 1 i kvs) (c3Ctx false) subs v)
          (c3Ctx false) [] (c3NestedDoc aid aname books) c3AuthorSchema.fieldList [] [] =
          deserializeFieldsLoop
            (fun subs v => loadSingleEntry
              (fun i kvs => loadNode (c3Ctx false) [] 1 i kvs) (c3Ctx false) subs v)
            (c3Ctx false) [] (c3NestedDoc aid aname books)
            [⟨"books", c3AuthorKey, true, .nestedF [0] true⟩]
            [("_id", .str aid), ("name", .str aname)] [] from rfl]
      simp only [deserializeFieldsLoop]
      rw [show fieldRawValue (c3Ctx false) [] (c3NestedDoc aid aname books)
          ⟨"books", c3AuthorKey, true, .nestedF [0] true⟩ =
          .ok (some (.arr (books.map (fun b => .obj (c3BookNode b))))) from rfl]
      simp only [hdf]
      rfl
    simp only [hloop]
    rfl
  simp only [hload]
  rfl

theorem c3_lookup (aid : String) (books : List (String × String))
    (hnd : (books.map Prod.fst).Nodup) (b : String × String) (hb : b ∈ books) :
    jassocFind (books.map (fun x => (.str x.1, c3FlatBookNode aid x))) (.str b.1) =
      some (c3FlatBookNode aid b) := by
  induction books with
  | nil => cases hb
  | cons b0 bs ih =>
      simp only [List.map_cons, jassocFind]
      by_cases he : b0.1 = b.1
      · have hb0 : b = b0 := by
          rcases List.mem_cons.mp hb with h | h
          · exact h
          · exfalso
            have hm : b.1 ∈ bs.map Prod.fst := List.mem_map_of_mem _ h
            rw [← he] at hm
            exact (List.nodup_cons.mp (by simpa using hnd)).1 hm
        rw [if_pos (congrArg JValue.str he), hb0]
      · rw [if_neg (fun hc => he (by injection hc))]
        rcases List.mem_cons.mp hb with h | h
        · exact absurd (congrArg Prod.fst h).symm he
        · exact ih (List.nodup_cons.mp (by simpa using hnd)).2 h

theorem c3_deref (aid aname : String) (books sub : List (String × String))
    (hsub : ∀ b ∈ sub, b ∈ books)
    (hbid : ∀ b ∈ books, b.1 ≠ aid)
    (hnd : (books.map Prod.fst).Nodup) :
    dereferenceFlattenedList (c3AllObjects aid aname books) true c3AuthorKey
      (sub.map (fun b => .str b.1)) =
      .ok (sub.map (fun b => .obj (c3BookNode b))) := by
  induction sub with
  | nil => rfl
  | cons b bs ih =>
      have hbB : b ∈ books := hsub b (List.mem_cons_self b bs)
      have hlook : jassocFind (c3AllObjects aid aname books) (.str b.1) =
          some (c3FlatBookNode aid b) := by
        show jassocFind ((.str aid, c3AuthorFlatNode aid aname) :: _) _ = _
        simp only [jassocFind]
        rw [if_neg (fun hc => hbid b hbB (by injection hc with h; exact h.symm))]
        exact c3_lookup aid books hnd b hbB
      have hone : dereferenceFlattened (c3AllObjects aid aname books) true c3AuthorKey
          (.str b.1) = .ok (.obj (c3BookNode b)) := by
        rw [show dereferenceFlattened (c3AllObjects aid aname books) true c3AuthorKey
            (.str b.1) =
            (match dereferenceSingleId (c3AllObjects aid aname books) true c3AuthorKey
                (.str b.1) with
             | .error e => .error e
             | .ok d => .ok (.obj d)) from rfl]
        rw [dereferenceSingleId]
        simp only [hlook]
        rfl
      simp only [List.map_cons, dereferenceFlattenedList, hone,
        ih (fun x hx => hsub x (List.mem_cons_of_mem b hx))]

theorem c3_revLinksLoop (aid : String) (books : List (String × String)) :
    getReverseLinksLoop (.str aid) c3AuthorKey
      (books.map (fun b => (.str b.1, c3FlatBookNode aid b))) =
      .ok (books.map (fun b => .str b.1)) := by
  induction books with
  | nil => rfl
  | cons b bs ih =>
      simp only [List.map_cons, getReverseLinksLoop,
        show assocFind (c3FlatBookNode aid b) c3AuthorKey =
          some (.obj [("@id", .str aid)]) from rfl,
        show normalizeId (.obj [("@id", JValue.str aid)]) = some [.str aid] from rfl]
      rw [if_pos (List.mem_singleton.mpr rfl)]
      simp only [show assocFind (c3FlatBookNode aid b) "@id" = some (.str b.1) from rfl,
        ih]

theorem c3_scan (aid : String) (books : List (String × String))
    (acc : List (JValue × JObj)) (sel : List JObj)
    (h1 : ∀ b ∈ books, jassocFind acc (.str b.1) = none)
    (hnd : (books.map Prod.fst).Nodup) :
    flattenScanLoop [c3PersonType] (books.map (fun b => .obj (c3FlatBookNode aid b)))
      acc sel =
      .ok (acc ++ books.map (fun b => (.str b.1, c3FlatBookNode aid b)), sel) := by
  induction books generalizing acc with
  | nil => simp [flattenScanLoop]
  | cons b bs ih =>
      simp only [List.map_cons, List.map_nil, flattenScanLoop,
        show assocFind (c3FlatBookNode aid b) "@id" = some (.str b.1) from rfl,
        show assocFind (c3FlatBookNode aid b) "@type" =
          some (.arr [.str c3BookType]) from rfl,
        show compareIds (.arr [.str c3BookType]) (.arr [.str c3PersonType]) =
          some false from rfl]
      rw [jdictSet_append acc _ _ (h1 b (List.mem_cons_self b bs))]
      have h1' : ∀ x ∈ bs,
          jassocFind (acc ++ [(.str b.1, c3FlatBookNode aid b)]) (.str x.1) = none := by
        intro x hx
        rw [jassocFind_append _ _ _ (h1 x (List.mem_cons_of_mem b hx))]
        have hne : b.1 ≠ x.1 := by
          intro hc
          have hm : x.1 ∈ bs.map Prod.fst := List.mem_map_of_mem _ hx
          rw [← hc] at hm
          exact (List.nodup_cons.mp (by simpa using hnd)).1 hm
        simp only [jassocFind]
        rw [if_neg (fun hc => hne (by injection hc))]
      rw [if_neg Bool.false_ne_true]
      rw [ih _ h1' (List.nodup_cons.mp (by simpa using hnd)).2]
      rw [List.append_assoc]
      rfl

theorem c3_roots (aid aname : String) (books : List (String × String))
    (hbid : ∀ b ∈ books, b.1 ≠ aid)
    (hnd : (books.map Prod.fst).Nodup) :
    flattenedRoots [c3PersonType] (c3FlatDoc aid aname books) =
      .ok (c3AllObjects aid aname books, [c3AuthorFlatNode aid aname]) := by
  rw [show flattenedRoots [c3PersonType] (c3FlatDoc aid aname books) =
      flattenScanLoop [c3PersonType]
        (books.map (fun b => .obj (c3FlatBookNode aid b)))
        [(.str aid, c3AuthorFlatNode aid aname)] [c3AuthorFlatNode aid aname]
      from rfl]
  have h1 : ∀ b ∈ books,
      jassocFind [(.str aid, c3AuthorFlatNode aid aname)] (.str b.1) = none := by
    intro b hb
    simp only [jassocFind]
    rw [if_neg (fun hc => hbid b hb (by injection hc with h; exact h.symm))]
  rw [c3_scan aid books _ _ h1 hnd]
  rw [List.singleton_append]
  rfl

theorem c3_loadFlat (aid aname : String) (books : List (String × String))
    (hbooks : books ≠ [])
    (hbid : ∀ b ∈ books, b.1 ≠ aid)
    (hnd : (books.map Prod.fst).Nodup) :
    jsonldLoad (c3Ctx true) 2 1 false (.arr (c3FlatDoc aid aname books)) =
      .ok (.ok (c3Author aid aname books)) := by
  rw [show jsonldLoad (c3Ctx true) 2 1 false (.arr (c3FlatDoc aid aname books)) =
      (match
        ((match flattenedRoots [c3PersonType] (c3FlatDoc aid aname books) with
          | .error e => .error e
          | .ok (acc, sel) =>
              .ok
                ((match sel with
                  | [single] => JValue.obj single
                  | _ => JValue.arr (sel.map JValue.obj)), acc)) :
          Except PyErr (JValue × List (JValue × JObj))) with
       | .error e => .error e
       | .ok (data', allObjects) =>
           match data' with
           | .obj kvs =>
               match loadNode (c3Ctx true) allObjects 2 1 kvs with
               | .error e => .error e
               | .ok (attrs, errs) =>
                   if errs.isEmpty then Except.ok (.ok (.obj "Author" attrs))
                   else .ok (.error errs)
           | _ => .ok (.error [VErr.typeInvalid])) from rfl]
  rw [c3_roots aid aname books hbid hnd]
  have hlinks : getReverseLinks (c3AllObjects aid aname books)
      (c3AuthorFlatNode aid aname) c3AuthorKey =
      .ok (books.map (fun b => .str b.1)) := by
    rw [show getReverseLinks (c3AllObjects aid aname books)
        (c3AuthorFlatNode aid aname) c3AuthorKey =
        getReverseLinksLoop (.str aid) c3AuthorKey (c3AllObjects aid aname books)
        from rfl]
    rw [show getReverseLinksLoop (.str aid) c3AuthorKey (c3AllObjects aid aname books) =
        getReverseLinksLoop (.str aid) c3AuthorKey
          (books.map (fun b => (.str b.1, c3FlatBookNode aid b))) from rfl]
    exact c3_revLinksLoop aid books
  have hne : (books.map (fun b => JValue.str b.1)).isEmpty = false := by
    cases books with
    | nil => exact absurd rfl hbooks
    | cons b bs => rfl
  have hraw : fieldRawValue (c3Ctx true) (c3AllObjects aid aname books)
      (c3AuthorFlatNode aid aname) ⟨"books", c3AuthorKey, true, .nestedF [0] true⟩ =
      .ok (some (.arr (books.map (fun b => .str b.1)))) := by
    rw [show fieldRawValue (c3Ctx true) (c3AllObjects aid aname books)
        (c3AuthorFlatNode aid aname) ⟨"books", c3AuthorKey, true, .nestedF [0] true⟩ =
        (match getReverseLinks (c3AllObjects aid aname books)
            (c3AuthorFlatNode aid aname) c3AuthorKey with
         | .error e => .error e
         | .ok links =>
             .ok (if links.isEmpty then none else some (.arr links))) from rfl]
    simp only [hlinks, hne]
    rfl
  have hdf : deserializeField
      (fun subs v => loadSingleEntry
        (fun i kvs => loadNode (c3Ctx true) (c3AllObjects aid aname books) 1 i kvs)
        (c3Ctx true) subs v)
      (c3Ctx true) (c3AllObjects aid aname books)
      ⟨"books", c3AuthorKey, true, .nestedF [0] true⟩
      (.arr (books.map (fun b => .str b.1))) =
      .ok (.ok (.list (books.map c3Book))) := by
    rw [show deserializeField
        (fun subs v => loadSingleEntry
          (fun i kvs => loadNode (c3Ctx true) (c3AllObjects aid aname books) 1 i kvs)
          (c3Ctx true) subs v)
        (c3Ctx true) (c3AllObjects aid aname books)
        ⟨"books", c3AuthorKey, true, .nestedF [0] true⟩
        (.arr (books.map (fun b => .str b.1))) =
        (match dereferenceFlattened (c3AllObjects aid aname books) true c3AuthorKey
            (.arr (books.map (fun b => .str b.1))) with
         | .error e => .error e
         | .ok v =>
             nestedLoad
               (fun x => loadSingleEntry
                 (fun i kvs =>
                   loadNode (c3Ctx true) (c3AllObjects aid aname books) 1 i kvs)
                 (c3Ctx true) [0] x)
               true c3AuthorKey (normalizeValue v)) from rfl]
    have hderef : dereferenceFlattened (c3AllObjects aid aname books) true c3AuthorKey
        (.arr (books.map (fun b => .str b.1))) =
        .ok (.arr (books.map (fun b => .obj (c3BookNode b)))) := by
      rw [show dereferenceFlattened (c3AllObjects aid aname books) true c3AuthorKey
          (.arr (books.map (fun b => .str b.1))) =
          (match dereferenceFlattenedList (c3AllObjects aid aname books) true
              c3AuthorKey (books.map (fun b => .str b.1)) with
           | .error e => .error e
           | .ok ds => .ok (.arr ds)) from rfl]
      simp only [c3_deref aid aname books books (fun x hx => hx) hbid hnd]
    simp only [hderef]
    rw [c3_nestedLoad_books]
    rw [c3_loadEntries true (c3AllObjects aid aname books) books]
  have hload : loadNode (c3Ctx true) (c3AllObjects aid aname books) 2 1
      (c3AuthorFlatNode aid aname) =
      .ok ([("_id", .str aid), ("name", .str aname),
            ("books", .list (books.map c3Book))], []) := by
    rw [show loadNode (c3Ctx true) (c3AllObjects aid aname books) 2 1
        (c3AuthorFlatNode aid aname) =
        deserializeNodeCore
          (fun subs v => loadSingleEntry
            (fun i kvs => loadNode (c3Ctx true) (c3AllObjects aid aname books) 1 i kvs)
            (c3Ctx true) subs v)
          (c3Ctx true) (c3AllObjects aid aname books) 1 c3AuthorSchema
          (c3AuthorFlatNode aid aname) from rfl]
    rw [deserializeNodeCore]
    have hloop : deserializeFieldsLoop
        (fun subs v => loadSingleEntry
          (fun i kvs => loadNode (c3Ctx true) (c3AllObjects aid aname books) 1 i kvs)
          (c3Ctx true) subs v)
        (c3Ctx true) (c3AllObjects aid aname books) (c3AuthorFlatNode aid aname)
        c3AuthorSchema.fieldList [] [] =
        .ok ([("_id", .str aid), ("name", .str aname),
              ("books", .list (books.map c3Book))], []) := by
      rw [show deserializeFieldsLoop
          (fun subs v => loadSingleEntry
            (fun i kvs => loadNode (c3Ctx true) (c3AllObjects aid aname books) 1 i kvs)
            (c3Ctx true) subs v)
          (c3Ctx true) (c3AllObjects aid aname books) (c3AuthorFlatNode aid aname)
          c3AuthorSchema.fieldList [] [] =
          deserializeFieldsLoop
            (fun subs v => loadSingleEntry
              (fun i kvs =>
                loadNode (c3Ctx true) (c3AllObjects aid aname books) 1 i kvs)
              (c3Ctx true) subs v)
            (c3Ctx true) (c3AllObjects aid aname books) (c3AuthorFlatNode aid aname)
            [⟨"books", c3AuthorKey, true, .nestedF [0] true⟩]
            [("_id", .str aid), ("name", .str aname)] [] from rfl]
      simp only [deserializeFieldsLoop]
      rw [hraw]
      simp only [hdf]
      rfl
    simp only [hloop]
    rfl
  simp only [hload]
  rfl

/-- C3: for every schema with a reverse-flagged field `f`, serializing
places `f`'s value only inside the node's `"@reverse"` bucket keyed by
`f`'s property identifier and never as a forward key (first conjunct,
fully general); and — in the author/books scenario with a populated
book collection — deserializing the non-flattened encoding reads the
collection from the reverse bucket, while deserializing the flattened
encoding, which lacks a bucket, finds it by scanning all indexed nodes
for ones whose property points back at the author's identifier, so both
encodings yield the same populated collection (remaining conjuncts). -/
theorem C3_reverse_field_encodings
    (gen : JObj → PAttrs → String) (reg : Registry) (fuel : Nat)
    (s : SchemaDef) (attrs : PAttrs) (node : JObj) (f : FieldDesc)
    (hser : serializeNode gen reg (fuel + 1) s attrs = some node)
    (hnodup : (s.fieldList.map FieldDesc.dataKey).Nodup)
    (hnr : ∀ g ∈ s.fieldList, g.dataKey ≠ "@reverse")
    (hfid : f.dataKey ≠ "@id") (hfty : f.dataKey ≠ "@type")
    (hf : f ∈ s.fieldList) (hfrev : f.reverse = true)
    (aid aname : String) (books : List (String × String))
    (haid : aid.isEmpty = false) (hbooks : books ≠ [])
    (hb : ∀ b ∈ books, b.1.isEmpty = false ∧ b.1 ≠ aid)
    (hnd : (books.map Prod.fst).Nodup) :
    (assocFind node f.dataKey = none ∧
     bucketFind node f.dataKey =
       (match assocFind attrs f.attr with
        | some v => serializeValue (serializeNode gen reg fuel) reg f.kind v
        | none => none)) ∧
    jsonldSerialize gen c3Reg 2 1 (c3Author aid aname books) =
      some (c3NestedDoc aid aname books) ∧
    jsonldLoad (c3Ctx false) 2 1 false (.obj (c3NestedDoc aid aname books)) =
      .ok (.ok (c3Author aid aname books)) ∧
    jsonldLoad (c3Ctx true) 2 1 false (.arr (c3FlatDoc aid aname books)) =
      .ok (.ok (c3Author aid aname books)) :=
  ⟨serializeNode_reverse_field gen reg fuel s attrs node f hser hnodup hnr
      hfid hfty hf hfrev,
   c3_serialize gen aid aname books haid (fun b hb2 => (hb b hb2).1),
   c3_loadNested aid aname books,
   c3_loadFlat aid aname books hbooks (fun b hb2 => (hb b hb2).2) hnd⟩

theorem C3_reverse_field_encodings_witness :
    serializeNode (fun _ _ => "x") c3Reg 2 c3AuthorSchema
      [("_id", .str "a"), ("name", .str "A"), ("books", .list [c3Book ("b", "N")])] =
      some (c3NestedDoc "a" "A" [("b", "N")]) ∧
    ((assocFind (c3NestedDoc "a" "A" [("b", "N")]) c3AuthorKey = none ∧
      bucketFind (c3NestedDoc "a" "A" [("b", "N")]) c3AuthorKey =
        (match assocFind [("_id", PVal.str "a"), ("name", .str "A"),
            ("books", .list [c3Book ("b", "N")])] "books" with
         | some v => serializeValue (serializeNode (fun _ _ => "x") c3Reg 1) c3Reg
             (.nestedF [0] true) v
         | none => none)) ∧
     jsonldSerialize (fun _ _ => "x") c3Reg 2 1 (c3Author "a" "A" [("b", "N")]) =
       some (c3NestedDoc "a" "A" [("b", "N")]) ∧
     jsonldLoad (c3Ctx false) 2 1 false (.obj (c3NestedDoc "a" "A" [("b", "N")])) =
       .ok (.ok (c3Author "a" "A" [("b", "N")])) ∧
     jsonldLoad (c3Ctx true) 2 1 false (.arr (c3FlatDoc "a" "A" [("b", "N")])) =
       .ok (.ok (c3Author "a" "A" [("b", "N")]))) :=
  ⟨rfl,
   C3_reverse_field_encodings (fun _ _ => "x") c3Reg 1 c3AuthorSchema
     [("_id", .str "a"), ("name", .str "A"), ("books", .list [c3Book ("b", "N")])]
     (c3NestedDoc "a" "A" [("b", "N")])
     ⟨"books", c3AuthorKey, true, .nestedF [0] true⟩
     rfl (by decide) (by decide) (by decide) (by decide) (by decide) rfl
     "a" "A" [("b", "N")] (by decide) (by decide) (by decide) (by decide)⟩

/-! ## C2: the serialize/deserialize round trip

`pvalEquiv` is "equal field-for-field": Python `==` on the model
objects, i.e. equality of type plus dictionary equality of the
attribute maps (key-order-insensitive, recursive).  `conforms` is the
typed conformance of an object to a schema — it contains the claim's
hypothesis (every attribute of the object is covered by a field
descriptor) together with the provisos the code actually needs, and
`wfReg` is well-formedness of the registry.  All of it is executable. -/

mutual

/-- Python `==` on model objects: strings compare as strings, objects
compare by type and by attribute dictionary (order-insensitive),
collections compare pointwise. -/
def pvalEquiv : PVal → PVal → Bool
  | .str s, .str t => s == t
  | .obj ty1 a1, .obj ty2 a2 =>
      ty1 == ty2 && pvalEquivFields a1 a2 &&
      (a2.map Prod.fst).all (fun k => (assocFind a1 k).isSome)
  | .list l1, .list l2 => pvalEquivList l1 l2
  | _, _ => false

def pvalEquivFields : List (String × PVal) → List (String × PVal) → Bool
  | [], _ => true
  | (k, v) :: rest, a2 =>
      (match assocFind a2 k with
       | some w => pvalEquiv v w
       | none => false) && pvalEquivFields rest a2

def pvalEquivList : List PVal → List PVal → Bool
  | [], [] => true
  | v :: vs, w :: ws => pvalEquiv v w && pvalEquivList vs ws
  | _, _ => false

end

/-- Conformance of a nested object: its runtime type dispatches through
the `"to"` map to a registered sub-schema it conforms to. -/
def objConformsCore (rec : SchemaDef → PVal → Bool) (reg : Registry)
    (subs : List Nat) : PVal → Bool
  | .obj ty attrs =>
      (match nestedToDispatch reg subs ty with
       | some i =>
           match getSchema reg i with
           | some si => rec si (.obj ty attrs)
           | none => false
       | none => false)
  | _ => false

/-- Conformance of a field value to its field kind: id values are
non-empty strings, string values are strings, nested values are
(collections of) conforming objects. -/
def valueConformsCore (rec : SchemaDef → PVal → Bool) (reg : Registry) :
    FieldKind → PVal → Bool
  | .idF, .str t => !t.isEmpty
  | .idF, _ => false
  | .stringF, .str _ => true
  | .stringF, _ => false
  | .nestedF subs many, w =>
      if many then
        match w with
        | .list objs => objs.all (objConformsCore rec reg subs)
        | _ => false
      else
        match w with
        | .list _ => false
        | w' => objConformsCore rec reg subs w'

/-- One level of object conformance: the runtime type is the schema's
model, every attribute is covered by a field descriptor (the claim's
"fully maps" hypothesis), attribute keys are distinct, and every
field's present value conforms to the field's kind (an `Id` field's
value must be present). -/
def conformsCore (rec : SchemaDef → PVal → Bool) (reg : Registry)
    (s : SchemaDef) : PVal → Bool
  | .obj ty attrs =>
      s.model == ty &&
      attrs.all (fun kv => s.fieldList.any (fun f => f.attr == kv.1)) &&
      decide ((attrs.map Prod.fst).Nodup) &&
      s.fieldList.all (fun f =>
        match assocFind attrs f.attr with
        | none => (match f.kind with | .idF => false | _ => true)
        | some w => valueConformsCore rec reg f.kind w)
  | _ => false

/-- Conformance to nesting depth `fuel`. -/
def conforms (reg : Registry) : Nat → SchemaDef → PVal → Bool
  | 0, _, _ => false
  | fuel + 1, s, v => conformsCore (conforms reg fuel) reg s v

/-- Well-formedness of one field descriptor: the data key stays clear
of the JSON-LD keywords the node itself uses, `Id` fields (and only
they) live on the forward `"@id"` key, and a nested field's sub-schema
dispatch is consistent — dumping by model and loading by normalized
type land on the same sub-schema. -/
def wfField (reg : Registry) (f : FieldDesc) : Bool :=
  f.dataKey != "@type" && f.dataKey != "@reverse" && f.dataKey != "@value" &&
  (match f.kind with
   | .idF => f.dataKey == "@id" && !f.reverse
   | _ => f.dataKey != "@id") &&
  (match f.kind with
   | .nestedF subs _ =>
       subs.all (fun i =>
         (getSchema reg i).any (fun si =>
           decide (nestedToDispatch reg subs si.model = some i) &&
           decide (nestedFromDispatch reg subs (sortStrings si.rdfType) = some i)))
   | _ => true)

/-- Well-formedness of one schema: distinct data keys, a non-empty
`rdf_type`, the (default) identifier-generation strategy, and
well-formed fields. -/
def wfSchema (reg : Registry) (s : SchemaDef) : Bool :=
  decide ((s.fieldList.map FieldDesc.dataKey).Nodup) && !s.rdfType.isEmpty &&
  s.idStrategy && s.fieldList.all (wfField reg)

/-- Well-formedness of the registry. -/
def wfReg (reg : Registry) : Bool := reg.all (wfSchema reg)

theorem assocFind_nodup_mem {α : Type} (a : List (String × α))
    (hnd : (a.map Prod.fst).Nodup) (k : String) (v : α) (hm : (k, v) ∈ a) :
    assocFind a k = some v := by
  induction a with
  | nil => cases hm
  | cons hd tl ih =>
      obtain ⟨k0, v0⟩ := hd
      rcases List.mem_cons.mp hm with he | hm'
      · simp only [Prod.mk.injEq] at he
        obtain ⟨h1, h2⟩ := he
        subst h1; subst h2
        simp [assocFind]
      · have hk0 : k0 ≠ k := by
          intro hc
          have hkm : k ∈ tl.map Prod.fst := List.mem_map_of_mem _ hm'
          rw [← hc] at hkm
          exact (List.nodup_cons.mp (by simpa using hnd)).1 hkm
        rw [assocFind_cons, if_neg hk0]
        exact ih (List.nodup_cons.mp (by simpa using hnd)).2 hm'

theorem pvalEquivFields_of_forall (a1 a2 : List (String × PVal))
    (h : ∀ kv ∈ a1, ∃ w, assocFind a2 kv.1 = some w ∧ pvalEquiv kv.2 w = true) :
    pvalEquivFields a1 a2 = true := by
  induction a1 with
  | nil => rfl
  | cons kv rest ih =>
      obtain ⟨k, v⟩ := kv
      obtain ⟨w, hw, he⟩ := h (k, v) (List.mem_cons_self _ _)
      simp only [pvalEquivFields, hw, he, Bool.true_and]
      exact ih (fun kv2 hkv2 => h kv2 (List.mem_cons_of_mem _ hkv2))

theorem normalizeType_strs (l : List String) :
    normalizeType (.arr (l.map .str)) = some (sortStrings l) := by
  have h : ∀ m : List String,
      normalizeTypeList (m.map .str) = some (m.map (fun s => [s])) := by
    intro m
    induction m with
    | nil => rfl
    | cons x xs ih => simp [normalizeTypeList, normalizeType, ih]
  have h2 : ∀ m : List String, (m.map (fun s => [s])).flatten = m := by
    intro m
    induction m with
    | nil => rfl
    | cons x xs ih => simp [ih]
  simp [normalizeType, h, h2]

theorem getLast?_mem_of {α : Type} (l : List α) (x : α) (h : l.getLast? = some x) :
    x ∈ l := by
  obtain ⟨hne, heq⟩ := List.mem_getLast?_eq_getLast (Option.mem_def.mpr h)
  rw [heq]
  exact List.getLast_mem hne

theorem nestedToDispatch_mem (reg : Registry) (subs : List Nat) (ty : String)
    (i : Nat) (h : nestedToDispatch reg subs ty = some i) : i ∈ subs :=
  List.mem_of_mem_filter (getLast?_mem_of _ _ h)

theorem nestedToDispatch_model (reg : Registry) (subs : List Nat) (ty : String)
    (i : Nat) (si : SchemaDef)
    (h : nestedToDispatch reg subs ty = some i) (hs : getSchema reg i = some si) :
    si.model = ty := by
  have hm := getLast?_mem_of _ _ h
  have hp := (List.mem_filter.mp hm).2
  rw [hs] at hp
  simpa using hp

theorem normalizeValue_obj_no_value (kvs : JObj)
    (h : assocFind kvs "@value" = none) : normalizeValue (.obj kvs) = .obj kvs := by
  simp only [normalizeValue, h]

theorem normalizeValueList_id (l : List JValue)
    (h : ∀ x ∈ l, normalizeValue x = x) : normalizeValueList l = l := by
  induction l with
  | nil => rfl
  | cons x xs ih =>
      simp only [normalizeValueList, h x (List.mem_cons_self _ _)]
      rw [ih (fun z hz => h z (List.mem_cons_of_mem _ hz))]

theorem nestedLoad_many_objs (le : JValue → EntryRes) (k : String) (l : List JValue)
    (hobj : ∀ x ∈ l, (∃ kvs, x = JValue.obj kvs) ∧ normalizeValue x = x) :
    nestedLoad le true k (normalizeValue (.arr l)) =
      (match loadEntriesLoop le l with
       | .error e => .error e
       | .ok (.error e) => .ok (.error e)
       | .ok (.ok pvs) => .ok (.ok (.list pvs))) := by
  cases l with
  | nil => rfl
  | cons x xs =>
      cases xs with
      | nil =>
          obtain ⟨⟨kvs, hx⟩, hnv⟩ := hobj x (List.mem_cons_self _ _)
          subst hx
          rw [show normalizeValue (.arr [JValue.obj kvs]) =
            normalizeValue (.obj kvs) from rfl, hnv]
          rfl
      | cons y ys =>
          rw [show normalizeValue (.arr (x :: y :: ys)) =
            .arr (normalizeValueList (x :: y :: ys)) from rfl]
          rw [normalizeValueList_id _ (fun z hz => (hobj z hz).2)]
          rfl

theorem unknownKeysGo_skip_all (rp : List (String × List Nat))
    (isInst : Nat → Bool) (hasId : Bool) (u : UnknownPolicy) (data : JObj)
    (keys : List String)
    (h : ∀ k ∈ keys, k = "@type" ∨ k = "@reverse" ∨ (k = "@id" ∧ hasId = true)) :
    unknownKeysGo rp isInst hasId u data keys = ([], []) := by
  induction keys with
  | nil => rfl
  | cons k rest ih =>
      simp only [unknownKeysGo, ih (fun x hx => h x (List.mem_cons_of_mem k hx))]
      rcases h k (List.mem_cons_self k rest) with hk | hk | hk
      · rw [if_pos (Or.inl hk)]
      · rw [if_pos (Or.inr hk)]
      · have hne : ¬(k = "@type" ∨ k = "@reverse") := by
          rintro (h2 | h2) <;> rw [hk.1] at h2 <;> exact absurd h2 (by decide)
        rw [if_neg hne]
        by_cases h2 : ((assocFind rp k).any (fun ss => ss.any isInst)) = true
        · rw [if_pos h2]
        · rw [if_neg h2, if_pos hk]

theorem unknownKeys_nil_of (fields : List String) (rp : List (String × List Nat))
    (isInst : Nat → Bool) (hasId : Bool) (u : UnknownPolicy) (data : JObj)
    (h : ∀ k ∈ data.map Prod.fst, k ∉ fields →
      (k = "@type" ∨ k = "@reverse" ∨ (k = "@id" ∧ hasId = true))) :
    unknownKeys fields rp isInst hasId u data = ([], []) := by
  rw [unknownKeys]
  by_cases hu : u = .EXCLUDE
  · rw [if_pos hu]
  · rw [if_neg hu]
    apply unknownKeysGo_skip_all
    intro k hk
    have hfil := List.mem_filter.mp (List.mem_dedup.mp hk)
    exact h k hfil.1 (by simpa using hfil.2)

theorem SFL_bucket_shape (serNode : SchemaDef → PAttrs → Option JObj)
    (reg : Registry) (attrs : PAttrs) :
    ∀ (fl : List FieldDesc) (ret₀ ret : JObj),
      serializeFieldsLoop serNode reg attrs fl ret₀ = some ret →
      (∀ g ∈ fl, g.dataKey ≠ "@reverse") →
      (assocFind ret₀ "@reverse" = none ∨
        ∃ b, assocFind ret₀ "@reverse" = some (.obj b)) →
      (assocFind ret "@reverse" = none ∨
        ∃ b, assocFind ret "@reverse" = some (.obj b)) := by
  intro fl
  induction fl with
  | nil =>
      intro ret₀ ret h _ h0
      simp only [serializeFieldsLoop, Option.some.injEq] at h
      exact h ▸ h0
  | cons g rest ih =>
      intro ret₀ ret h hnr h0
      have hnrRest : ∀ g' ∈ rest, g'.dataKey ≠ "@reverse" :=
        fun g' hg' => hnr g' (List.mem_cons_of_mem g hg')
      simp only [serializeFieldsLoop] at h
      cases hattr : assocFind attrs g.attr with
      | none =>
          simp only [hattr] at h
          exact ih _ _ h hnrRest h0
      | some v =>
          simp only [hattr] at h
          cases hv : serializeValue serNode reg g.kind v with
          | none => simp only [hv] at h; cases h
          | some jv =>
              simp only [hv] at h
              by_cases hgrev : g.reverse = true
              · rw [if_pos hgrev] at h
                cases hb : assocFind ret₀ "@reverse" with
                | none =>
                    simp only [hb] at h
                    refine ih _ _ h hnrRest
                      (Or.inr ⟨[(g.dataKey, jv)], by rw [assocFind_dictSet, if_pos rfl]⟩)
                | some rv =>
                    cases rv with
                    | obj bucket =>
                        simp only [hb] at h
                        refine ih _ _ h hnrRest
                          (Or.inr ⟨dictSet bucket g.dataKey jv,
                            by rw [assocFind_dictSet, if_pos rfl]⟩)
                    | str s0 =>
                        simp only [hb] at h
                        refine ih _ _ h hnrRest
                          (Or.inr ⟨[(g.dataKey, jv)],
                            by rw [assocFind_dictSet, if_pos rfl]⟩)
                    | arr l0 =>
                        simp only [hb] at h
                        refine ih _ _ h hnrRest
                          (Or.inr ⟨[(g.dataKey, jv)],
                            by rw [assocFind_dictSet, if_pos rfl]⟩)
              · rw [if_neg hgrev] at h
                refine ih _ _ h hnrRest ?_
                have hgk : g.dataKey ≠ "@reverse" := hnr g (List.mem_cons_self g rest)
                rcases h0 with h0 | ⟨b, h0⟩
                · refine Or.inl ?_
                  rw [assocFind_dictSet, if_neg hgk, h0]
                · refine Or.inr ⟨b, ?_⟩
                  rw [assocFind_dictSet, if_neg hgk, h0]

theorem fieldRawValue_forward (ctx : DeserCtx) (ao : List (JValue × JObj))
    (data : JObj) (f : FieldDesc) (hrev : f.reverse = false) :
    fieldRawValue ctx ao data f = .ok (assocFind data f.dataKey) := by
  simp [fieldRawValue, hrev]

theorem fieldRawValue_reverse_nf (ctx : DeserCtx) (ao : List (JValue × JObj))
    (data : JObj) (f : FieldDesc) (hrev : f.reverse = true)
    (hfl : ctx.flattened = false)
    (hshape : assocFind data "@reverse" = none ∨
      ∃ b, assocFind data "@reverse" = some (.obj b)) :
    fieldRawValue ctx ao data f = .ok (bucketFind data f.dataKey) := by
  rcases hshape with hb | ⟨b, hb⟩
  · simp [fieldRawValue, hrev, hfl, hb, bucketFind]
  · simp [fieldRawValue, hrev, hb, bucketFind]

theorem RT_desLoop (loadSub : List Nat → JValue → EntryRes) (ctx : DeserCtx)
    (ao : List (JValue × JObj)) (data : JObj) (attrs : PAttrs) :
    ∀ (fl : List FieldDesc) (ret : PAttrs) (errs : List VErr),
      (∀ f ∈ fl,
        match assocFind attrs f.attr with
        | none => fieldRawValue ctx ao data f = .ok none
        | some v => ∃ jv v', fieldRawValue ctx ao data f = .ok (some jv) ∧
            deserializeField loadSub ctx ao f jv = .ok (.ok v') ∧
            pvalEquiv v v' = true) →
      ∃ ret', deserializeFieldsLoop loadSub ctx ao data fl ret errs = .ok (ret', errs) ∧
        (∀ k v, assocFind attrs k = some v → (∃ f ∈ fl, f.attr = k) →
          ∃ v', assocFind ret' k = some v' ∧ pvalEquiv v v' = true) ∧
        (∀ k, (assocFind ret' k).isSome →
          (assocFind ret k).isSome ∨
            ∃ f ∈ fl, f.attr = k ∧ (assocFind attrs k).isSome) ∧
        (∀ k, (¬ ∃ f ∈ fl, f.attr = k ∧ (assocFind attrs k).isSome) →
          assocFind ret' k = assocFind ret k) := by
  intro fl
  induction fl with
  | nil =>
      intro ret errs _
      refine ⟨ret, rfl, ?_, fun k hk => Or.inl hk, fun k _ => rfl⟩
      rintro k v _ ⟨f, hf, _⟩
      cases hf
  | cons f rest ih =>
      intro ret errs hfact
      have hf := hfact f (List.mem_cons_self f rest)
      have hfactRest : ∀ g ∈ rest,
          match assocFind attrs g.attr with
          | none => fieldRawValue ctx ao data g = .ok none
          | some v => ∃ jv v', fieldRawValue ctx ao data g = .ok (some jv) ∧
              deserializeField loadSub ctx ao g jv = .ok (.ok v') ∧
              pvalEquiv v v' = true :=
        fun g hg => hfact g (List.mem_cons_of_mem f hg)
      cases hv : assocFind attrs f.attr with
      | none =>
          simp only [hv] at hf
          obtain ⟨ret', hloop, P1, P2, P3⟩ := ih ret errs hfactRest
          refine ⟨ret', ?_, ?_, ?_, ?_⟩
          · simp only [deserializeFieldsLoop, hf]
            exact hloop
          · intro k v hkv hex
            rcases hex with ⟨g, hg, hgk⟩
            rcases List.mem_cons.mp hg with heq | hgrest
            · subst heq
              rw [← hgk, hv] at hkv
              cases hkv
            · exact P1 k v hkv ⟨g, hgrest, hgk⟩
          · intro k hk
            rcases P2 k hk with h | ⟨g, hg, hgk, hgs⟩
            · exact Or.inl h
            · exact Or.inr ⟨g, List.mem_cons_of_mem f hg, hgk, hgs⟩
          · intro k hno
            apply P3
            rintro ⟨g, hg, hgk, hgs⟩
            exact hno ⟨g, List.mem_cons_of_mem f hg, hgk, hgs⟩
      | some v =>
          simp only [hv] at hf
          obtain ⟨jv, v', hraw, hdf, hequiv⟩ := hf
          obtain ⟨ret', hloop, P1, P2, P3⟩ := ih (dictSet ret f.attr v') errs hfactRest
          refine ⟨ret', ?_, ?_, ?_, ?_⟩
          · simp only [deserializeFieldsLoop, hraw, hdf]
            exact hloop
          · intro k v₀ hkv hex
            by_cases hrest : ∃ g ∈ rest, g.attr = k ∧ (assocFind attrs k).isSome
            · obtain ⟨g, hg, hgk, _⟩ := hrest
              exact P1 k v₀ hkv ⟨g, hg, hgk⟩
            · rcases hex with ⟨g, hg, hgk⟩
              rcases List.mem_cons.mp hg with heq | hgrest
              · subst heq
                have hveq : v₀ = v := by
                  rw [← hgk, hv] at hkv
                  exact (Option.some.inj hkv).symm
                refine ⟨v', ?_, hveq ▸ hequiv⟩
                rw [P3 k hrest, assocFind_dictSet, if_pos hgk]
              · exact absurd ⟨g, hgrest, hgk, by rw [hkv]; rfl⟩ hrest
          · intro k hk
            rcases P2 k hk with h | ⟨g, hg, hgk, hgs⟩
            · rw [assocFind_dictSet] at h
              by_cases hfk : f.attr = k
              · refine Or.inr ⟨f, List.mem_cons_self f rest, hfk, ?_⟩
                rw [← hfk, hv]
                rfl
              · rw [if_neg hfk] at h
                exact Or.inl h
            · exact Or.inr ⟨g, List.mem_cons_of_mem f hg, hgk, hgs⟩
          · intro k hno
            have hrest : ¬ ∃ g ∈ rest, g.attr = k ∧ (assocFind attrs k).isSome := by
              rintro ⟨g, hg, hgk, hgs⟩
              exact hno ⟨g, List.mem_cons_of_mem f hg, hgk, hgs⟩
            rw [P3 k hrest, assocFind_dictSet]
            have hfk : f.attr ≠ k := by
              intro hc
              refine hno ⟨f, List.mem_cons_self f rest, hc, ?_⟩
              rw [← hc, hv]
              rfl
            rw [if_neg hfk]

theorem getSchema_mem (reg : Registry) (i : Nat) (s : SchemaDef)
    (h : getSchema reg i = some s) : s ∈ reg := by
  obtain ⟨hlt, rfl⟩ := List.getElem?_eq_some_iff.mp h
  exact List.getElem_mem hlt

theorem wfField_parts (reg : Registry) (f : FieldDesc) (h : wfField reg f = true) :
    f.dataKey ≠ "@type" ∧ f.dataKey ≠ "@reverse" ∧ f.dataKey ≠ "@value" ∧
    (f.kind = .idF → f.dataKey = "@id" ∧ f.reverse = false) ∧
    (f.kind ≠ .idF → f.dataKey ≠ "@id") ∧
    (∀ subs many, f.kind = .nestedF subs many →
      ∀ j ∈ subs, ∃ sj, getSchema reg j = some sj ∧
        nestedToDispatch reg subs sj.model = some j ∧
        nestedFromDispatch reg subs (sortStrings sj.rdfType) = some j) := by
  rw [wfField] at h
  simp only [Bool.and_eq_true, bne_iff_ne, ne_eq] at h
  obtain ⟨⟨⟨⟨h1, h2⟩, h3⟩, h4⟩, h5⟩ := h
  refine ⟨h1, h2, h3, ?_, ?_, ?_⟩
  · intro hk
    rw [hk] at h4
    simp only [Bool.and_eq_true, beq_iff_eq, Bool.not_eq_true'] at h4
    exact h4
  · intro hk
    cases hkind : f.kind with
    | idF => exact absurd hkind hk
    | stringF => rw [hkind] at h4; simpa using h4
    | nestedF subs many => rw [hkind] at h4; simpa using h4
  · intro subs many hkind j hj
    rw [hkind] at h5
    have h6 := List.all_eq_true.mp h5 j hj
    cases hsj : getSchema reg j with
    | none => rw [hsj] at h6; simp [Option.any] at h6
    | some sj =>
        rw [hsj] at h6
        simp only [Option.any, Bool.and_eq_true, decide_eq_true_eq] at h6
        exact ⟨sj, rfl, h6.1, h6.2⟩

theorem wfSchema_parts (reg : Registry) (s : SchemaDef) (h : wfSchema reg s = true) :
    (s.fieldList.map FieldDesc.dataKey).Nodup ∧
    s.rdfType.isEmpty = false ∧
    s.idStrategy = true ∧
    (∀ f ∈ s.fieldList, wfField reg f = true) := by
  rw [wfSchema] at h
  simp only [Bool.and_eq_true, decide_eq_true_eq, Bool.not_eq_true'] at h
  obtain ⟨⟨⟨h1, h2⟩, h3⟩, h4⟩ := h
  exact ⟨h1, h2, h3, List.all_eq_true.mp h4⟩

/-- The round-trip statement at a given nesting depth: a conforming
object serializes to a node carrying the normalized `"@type"` and no
`"@value"` key, and loading that node back yields an error-free
attribute map that is dictionary-equal to the original. -/
def NodeIH (gen : JObj → PAttrs → String) (reg : Registry) (ctx : DeserCtx)
    (fuel : Nat) : Prop :=
  ∀ i s, getSchema reg i = some s →
  ∀ ty attrs, conforms reg fuel s (.obj ty attrs) = true →
  ∃ node ret',
    serializeNode gen reg fuel s attrs = some node ∧
    assocFind node "@type" = some (.arr ((sortStrings s.rdfType).map .str)) ∧
    assocFind node "@value" = none ∧
    loadNode ctx [] fuel i node = .ok (ret', []) ∧
    pvalEquivFields attrs ret' = true ∧
    (∀ k, (assocFind ret' k).isSome → (assocFind attrs k).isSome)

theorem RT_obj (gen : JObj → PAttrs → String) (reg : Registry) (ctx : DeserCtx)
    (hcreg : ctx.reg = reg) (fuel : Nat) (NIH : NodeIH gen reg ctx fuel)
    (subs : List Nat)
    (hdisp : ∀ j ∈ subs, ∃ sj, getSchema reg j = some sj ∧
        nestedToDispatch reg subs sj.model = some j ∧
        nestedFromDispatch reg subs (sortStrings sj.rdfType) = some j)
    (obj : PVal) (hoc : objConformsCore (conforms reg fuel) reg subs obj = true) :
    ∃ node v',
      serializeSingleObj (serializeNode gen reg fuel) reg subs obj =
        some (.obj node) ∧
      normalizeValue (.obj node) = .obj node ∧
      loadSingleEntry (fun j kvs => loadNode ctx [] fuel j kvs) ctx subs
        (.obj node) = .ok (.ok v') ∧
      pvalEquiv obj v' = true := by
  cases obj with
  | str t => exact absurd hoc (by simp [objConformsCore])
  | list l => exact absurd hoc (by simp [objConformsCore])
  | obj ty a =>
      rw [objConformsCore] at hoc
      cases hd : nestedToDispatch reg subs ty with
      | none => simp only [hd] at hoc; cases hoc
      | some j =>
          simp only [hd] at hoc
          cases hsj : getSchema reg j with
          | none => simp only [hsj] at hoc; cases hoc
          | some sj =>
              simp only [hsj] at hoc
              obtain ⟨node, ret', hser, hty, hval, hload, hequivF, hkeys⟩ :=
                NIH j sj hsj ty a hoc
              have hmodel : sj.model = ty := nestedToDispatch_model reg subs ty j sj hd hsj
              obtain ⟨sj', hsj', hto, hfrom⟩ := hdisp j (nestedToDispatch_mem reg subs ty j hd)
              rw [hsj] at hsj'
              obtain rfl : sj = sj' := Option.some.inj hsj' 
              refine ⟨node, .obj sj.model ret', ?_, normalizeValue_obj_no_value node hval,
                ?_, ?_⟩
              · simp only [serializeSingleObj, hd, hsj, hser, Option.bind_eq_bind,
                  Option.some_bind, Option.map]
              · rw [loadSingleEntry]
                simp only [hty, normalizeType_strs, sortStrings_idem, hcreg, hfrom,
                  hsj, hload, List.isEmpty_nil, if_true]
              · simp only [pvalEquiv, Bool.and_eq_true]
                refine ⟨⟨?_, hequivF⟩, ?_⟩
                · rw [hmodel]
                  simp
                · rw [List.all_eq_true]
                  intro k hk
                  exact hkeys k ((assocFind_isSome_iff_mem ret' k).mpr hk)

theorem RT_objList (gen : JObj → PAttrs → String) (reg : Registry) (ctx : DeserCtx)
    (hcreg : ctx.reg = reg) (fuel : Nat) (NIH : NodeIH gen reg ctx fuel)
    (subs : List Nat)
    (hdisp : ∀ j ∈ subs, ∃ sj, getSchema reg j = some sj ∧
        nestedToDispatch reg subs sj.model = some j ∧
        nestedFromDispatch reg subs (sortStrings sj.rdfType) = some j)
    (objs : List PVal)
    (hall : ∀ o ∈ objs, objConformsCore (conforms reg fuel) reg subs o = true) :
    ∃ nodes vs',
      serializeObjList (serializeNode gen reg fuel) reg subs objs = some nodes ∧
      (∀ n ∈ nodes, (∃ kvs, n = JValue.obj kvs) ∧ normalizeValue n = n) ∧
      loadEntriesLoop
        (fun x => loadSingleEntry (fun j kvs => loadNode ctx [] fuel j kvs) ctx subs x)
        nodes = .ok (.ok vs') ∧
      pvalEquivList objs vs' = true := by
  induction objs with
  | nil => exact ⟨[], [], rfl, by simp, rfl, rfl⟩
  | cons o os ih =>
      obtain ⟨node, v', hso, hnv, hle, hev⟩ :=
        RT_obj gen reg ctx hcreg fuel NIH subs hdisp o (hall o (List.mem_cons_self o os))
      obtain ⟨nodes, vs', hsos, hshape, hles, hevs⟩ :=
        ih (fun x hx => hall x (List.mem_cons_of_mem o hx))
      refine ⟨.obj node :: nodes, v' :: vs', ?_, ?_, ?_, ?_⟩
      · simp only [serializeObjList, hso, hsos]
      · intro n hn
        rcases List.mem_cons.mp hn with heq | hmem
        · subst heq
          exact ⟨⟨node, rfl⟩, hnv⟩
        · exact hshape n hmem
      · simp only [loadEntriesLoop, hle, hles]
      · simp only [pvalEquivList, hev, hevs, Bool.and_self]

theorem RT_value (gen : JObj → PAttrs → String) (reg : Registry) (ctx : DeserCtx)
    (hcreg : ctx.reg = reg) (hcfl : ctx.flattened = false)
    (fuel : Nat) (NIH : NodeIH gen reg ctx fuel) (f : FieldDesc)
    (hdispf : ∀ subs many, f.kind = .nestedF subs many →
      ∀ j ∈ subs, ∃ sj, getSchema reg j = some sj ∧
        nestedToDispatch reg subs sj.model = some j ∧
        nestedFromDispatch reg subs (sortStrings sj.rdfType) = some j)
    (v : PVal) (hvc : valueConformsCore (conforms reg fuel) reg f.kind v = true) :
    ∃ jv v', serializeValue (serializeNode gen reg fuel) reg f.kind v = some jv ∧
      deserializeField
        (fun subs x => loadSingleEntry (fun j kvs => loadNode ctx [] fuel j kvs) ctx subs x)
        ctx [] f jv = .ok (.ok v') ∧
      pvalEquiv v v' = true := by
  cases hk : f.kind with
  | idF =>
      rw [hk] at hvc
      cases v with
      | str t =>
          refine ⟨.str t, .str t, ?_, ?_, ?_⟩
          · rfl
          · rw [deserializeField, hk]
            rfl
          · simp [pvalEquiv]
      | obj ty a => exact absurd hvc (by simp [valueConformsCore])
      | list l => exact absurd hvc (by simp [valueConformsCore])
  | stringF =>
      rw [hk] at hvc
      cases v with
      | str t =>
          refine ⟨.str t, .str t, ?_, ?_, ?_⟩
          · rfl
          · rw [deserializeField, hk]
            rfl
          · simp [pvalEquiv]
      | obj ty a => exact absurd hvc (by simp [valueConformsCore])
      | list l => exact absurd hvc (by simp [valueConformsCore])
  | nestedF subs many =>
      rw [hk] at hvc
      have hdisp := hdispf subs many hk
      cases hm : many with
      | true =>
          rw [hm] at hvc
          cases v with
          | str t => exact absurd hvc (by simp [valueConformsCore])
          | obj ty a => exact absurd hvc (by simp [valueConformsCore])
          | list objs =>
              have hall : ∀ o ∈ objs,
                  objConformsCore (conforms reg fuel) reg subs o = true := by
                have := hvc
                rw [valueConformsCore] at this
                simp only [if_pos] at this
                exact List.all_eq_true.mp this
              obtain ⟨nodes, vs', hsos, hshape, hles, hevs⟩ :=
                RT_objList gen reg ctx hcreg fuel NIH subs hdisp objs hall
              refine ⟨.arr nodes, .list vs', ?_, ?_, ?_⟩
              · simp [serializeValue, hsos]
              · rw [deserializeField]
                simp only [hk, hm, hcfl, Bool.false_eq_true, if_false]
                rw [nestedLoad_many_objs _ _ nodes hshape]
                simp only [hles]
              · simp only [pvalEquiv, hevs]
      | false =>
          rw [hm] at hvc
          have hoc : objConformsCore (conforms reg fuel) reg subs v = true := by
            cases v with
            | list l => exact absurd hvc (by simp [valueConformsCore])
            | str t => simpa [valueConformsCore] using hvc
            | obj ty a => simpa [valueConformsCore] using hvc
          obtain ⟨node, v', hso, hnv, hle, hev⟩ :=
            RT_obj gen reg ctx hcreg fuel NIH subs hdisp v hoc
          refine ⟨.obj node, v', ?_, ?_, hev⟩
          · cases v with
            | str t => exact absurd hoc (by simp [objConformsCore])
            | list l => exact absurd hoc (by simp [objConformsCore])
            | obj ty a => simpa [serializeValue] using hso
          · rw [deserializeField]
            simp only [hk, hm, hcfl, Bool.false_eq_true, if_false, hnv]
            rw [show nestedLoad
                (fun x => loadSingleEntry (fun j kvs => loadNode ctx [] fuel j kvs)
                  ctx subs x) false f.dataKey (.obj node) =
                loadSingleEntry (fun j kvs => loadNode ctx [] fuel j kvs) ctx subs
                  (.obj node) from rfl]
            exact hle

theorem RT_node (gen : JObj → PAttrs → String) (reg : Registry) (ctx : DeserCtx)
    (hwf : wfReg reg = true) (hcreg : ctx.reg = reg) (hcfl : ctx.flattened = false) :
    ∀ fuel, NodeIH gen reg ctx fuel := by
  intro fuel
  induction fuel with
  | zero =>
      intro i s hs ty attrs hconf
      exact absurd hconf (by simp [conforms])
  | succ fuel IH =>
      intro i s hs ty attrs hconf
      obtain ⟨hnodup, hrdfe, hidstrat, hfwf⟩ :=
        wfSchema_parts reg s (List.all_eq_true.mp hwf s (getSchema_mem reg i s hs))
      have hconf' : conformsCore (conforms reg fuel) reg s (.obj ty attrs) = true := hconf
      rw [conformsCore] at hconf'
      simp only [Bool.and_eq_true, beq_iff_eq, decide_eq_true_eq] at hconf'
      obtain ⟨⟨⟨hmodel, hcov⟩, hattrnd⟩, hfieldsc⟩ := hconf'
      have hcov' : ∀ kv ∈ attrs, ∃ f ∈ s.fieldList, f.attr = kv.1 := by
        intro kv hkv
        obtain ⟨f, hf, hfa⟩ := List.any_eq_true.mp (List.all_eq_true.mp hcov kv hkv)
        exact ⟨f, hf, by simpa using hfa⟩
      have hfieldsc' : ∀ f ∈ s.fieldList,
          (match assocFind attrs f.attr with
           | none => (match f.kind with | FieldKind.idF => false | _ => true)
           | some w => valueConformsCore (conforms reg fuel) reg f.kind w) = true :=
        List.all_eq_true.mp hfieldsc
      have hnr : ∀ g ∈ s.fieldList, g.dataKey ≠ "@reverse" :=
        fun g hg => (wfField_parts reg g (hfwf g hg)).2.1
      have hfRT : ∀ f ∈ s.fieldList, ∀ v, assocFind attrs f.attr = some v →
          ∃ jv v', serializeValue (serializeNode gen reg fuel) reg f.kind v = some jv ∧
            deserializeField
              (fun subs x => loadSingleEntry
                (fun j kvs => loadNode ctx [] fuel j kvs) ctx subs x)
              ctx [] f jv = .ok (.ok v') ∧
            pvalEquiv v v' = true := by
        intro f hf v hv
        have hvc : valueConformsCore (conforms reg fuel) reg f.kind v = true := by
          have h := hfieldsc' f hf
          simp only [hv] at h
          exact h
        exact RT_value gen reg ctx hcreg hcfl fuel IH f
          ((wfField_parts reg f (hfwf f hf)).2.2.2.2.2) v hvc
      have hallSome : ∀ f ∈ s.fieldList, ∀ v, assocFind attrs f.attr = some v →
          (serializeValue (serializeNode gen reg fuel) reg f.kind v).isSome := by
        intro f hf v hv
        obtain ⟨jv, v', hsv, _, _⟩ := hfRT f hf v hv
        rw [hsv]
        rfl
      obtain ⟨ret, hloop⟩ := Option.isSome_iff_exists.mp
        (SFL_some (serializeNode gen reg fuel) reg attrs s.fieldList [] hallSome)
      have hadd : ∃ ret₁, serializeAddId gen s attrs ret = some ret₁ ∧
          (∀ f ∈ s.fieldList, assocFind ret₁ f.dataKey = assocFind ret f.dataKey) := by
        by_cases hidf : ∃ f0 ∈ s.fieldList, f0.kind = FieldKind.idF
        · obtain ⟨f0, hf0, hf0k⟩ := hidf
          obtain ⟨hdk0, hrev0⟩ := (wfField_parts reg f0 (hfwf f0 hf0)).2.2.2.1 hf0k
          have hc0 := hfieldsc' f0 hf0
          cases hv0 : assocFind attrs f0.attr with
          | none =>
              simp only [hv0, hf0k] at hc0
              cases hc0
          | some w =>
              simp only [hv0, hf0k] at hc0
              cases w with
              | obj ty2 a2 => exact absurd hc0 (by simp [valueConformsCore])
              | list l2 => exact absurd hc0 (by simp [valueConformsCore])
              | str id =>
                  have hc0' : id.isEmpty = false := by
                    simpa [valueConformsCore] using hc0
                  have hids : assocFind ret "@id" = some (.str id) := by
                    have h := SFL_forward_lookup (serializeNode gen reg fuel) reg attrs
                      s.fieldList [] ret hloop hnodup hnr f0 hf0 hrev0
                    rw [hdk0] at h
                    simp only [hv0, hf0k] at h
                    exact h.trans rfl
                  refine ⟨ret, ?_, fun f hf => rfl⟩
                  rw [serializeAddId]
                  simp only [hids]
                  rw [if_pos (by simp [jtruthy, hc0'])]
        · push_neg at hidf
          have hnid : ∀ g ∈ s.fieldList, g.dataKey ≠ "@id" := by
            intro g hg
            exact (wfField_parts reg g (hfwf g hg)).2.2.2.2.1 (hidf g hg)
          have hretid : assocFind ret "@id" = none := by
            have h := SFL_preserve (serializeNode gen reg fuel) reg attrs s.fieldList []
              ret hloop "@id" (fun g hg _ => hnid g hg) (by decide)
            rw [h]
            rfl
          refine ⟨dictSet ret "@id" (.str (gen ret attrs)), ?_, ?_⟩
          · rw [serializeAddId]
            simp only [hretid, hidstrat, if_true]
          · intro f hf
            rw [assocFind_dictSet, if_neg (fun he => hnid f hf he.symm)]
      obtain ⟨ret₁, haddid, hkeep⟩ := hadd
      have hser : serializeNode gen reg (fuel + 1) s attrs =
          some (dictSet ret₁ "@type" (.arr ((sortStrings s.rdfType).map .str))) := by
        show serializeNodeCore (serializeNode gen reg fuel) gen reg s attrs = _
        rw [serializeNodeCore]
        simp only [hloop, haddid, hrdfe, Bool.false_eq_true, if_false]
      have hnty : assocFind (dictSet ret₁ "@type"
          (.arr ((sortStrings s.rdfType).map .str))) "@type" =
          some (.arr ((sortStrings s.rdfType).map .str)) := by
        rw [assocFind_dictSet, if_pos rfl]
      have hnOther : ∀ k, k ≠ "@type" → k ≠ "@id" →
          assocFind (dictSet ret₁ "@type"
            (.arr ((sortStrings s.rdfType).map .str))) k = assocFind ret k := by
        intro k h1 h2
        rw [assocFind_dictSet, if_neg (fun he => h1 he.symm)]
        exact serializeAddId_preserve gen s attrs ret ret₁ haddid k h2
      have hnval : assocFind (dictSet ret₁ "@type"
          (.arr ((sortStrings s.rdfType).map .str))) "@value" = none := by
        rw [hnOther "@value" (by decide) (by decide)]
        cases hvs : assocFind ret "@value" with
        | none => rfl
        | some w =>
            exfalso
            have h := SFL_keys (serializeNode gen reg fuel) reg attrs s.fieldList []
              ret hloop "@value" (by rw [hvs]; rfl)
            rcases h with h | h | ⟨f, hf, hfk⟩
            · simp [assocFind] at h
            · exact absurd h (by decide)
            · exact (wfField_parts reg f (hfwf f hf)).2.2.1 hfk
      have hshape : assocFind (dictSet ret₁ "@type"
          (.arr ((sortStrings s.rdfType).map .str))) "@reverse" = none ∨
          ∃ b, assocFind (dictSet ret₁ "@type"
            (.arr ((sortStrings s.rdfType).map .str))) "@reverse" = some (.obj b) := by
        rw [hnOther "@reverse" (by decide) (by decide)]
        exact SFL_bucket_shape (serializeNode gen reg fuel) reg attrs s.fieldList [] ret
          hloop hnr (Or.inl rfl)
      have hbnode : ∀ k, bucketFind (dictSet ret₁ "@type"
          (.arr ((sortStrings s.rdfType).map .str))) k = bucketFind ret k := by
        intro k
        simp only [bucketFind, hnOther "@reverse" (by decide) (by decide)]
      have hfact : ∀ f ∈ s.fieldList,
          match assocFind attrs f.attr with
          | none => fieldRawValue ctx []
              (dictSet ret₁ "@type" (.arr ((sortStrings s.rdfType).map .str))) f =
              .ok none
          | some v => ∃ jv v', fieldRawValue ctx []
              (dictSet ret₁ "@type" (.arr ((sortStrings s.rdfType).map .str))) f =
              .ok (some jv) ∧
              deserializeField
                (fun subs x => loadSingleEntry
                  (fun j kvs => loadNode ctx [] fuel j kvs) ctx subs x)
                ctx [] f jv = .ok (.ok v') ∧
              pvalEquiv v v' = true := by
        intro f hf
        have hfw := wfField_parts reg f (hfwf f hf)
        have hchain : assocFind (dictSet ret₁ "@type"
            (.arr ((sortStrings s.rdfType).map .str))) f.dataKey =
            assocFind ret f.dataKey := by
          rw [assocFind_dictSet, if_neg (fun he => hfw.1 he.symm)]
          exact hkeep f hf
        cases hfrev : f.reverse with
        | false =>
            have hraw := fieldRawValue_forward ctx []
              (dictSet ret₁ "@type" (.arr ((sortStrings s.rdfType).map .str))) f hfrev
            have hretf := SFL_forward_lookup (serializeNode gen reg fuel) reg attrs
              s.fieldList [] ret hloop hnodup hnr f hf hfrev
            cases hv : assocFind attrs f.attr with
            | none =>
                simp only [hv] at hretf ⊢
                rw [hraw, hchain, hretf]
                rfl
            | some v =>
                simp only [hv] at hretf ⊢
                obtain ⟨jv, v', hsv, hdf, hev⟩ := hfRT f hf v hv
                refine ⟨jv, v', ?_, hdf, hev⟩
                rw [hraw, hchain, hretf, hsv]
        | true =>
            have hraw := fieldRawValue_reverse_nf ctx []
              (dictSet ret₁ "@type" (.arr ((sortStrings s.rdfType).map .str))) f
              hfrev hcfl hshape
            have hretb := SFL_bucket_lookup (serializeNode gen reg fuel) reg attrs
              s.fieldList [] ret hloop hnodup hnr f hf hfrev
            have hbnil : bucketFind ([] : JObj) f.dataKey = none := rfl
            cases hv : assocFind attrs f.attr with
            | none =>
                simp only [hv] at hretb ⊢
                rw [hraw, hbnode, hretb, hbnil]
            | some v =>
                simp only [hv] at hretb ⊢
                obtain ⟨jv, v', hsv, hdf, hev⟩ := hfRT f hf v hv
                refine ⟨jv, v', ?_, hdf, hev⟩
                rw [hraw, hbnode, hretb, hsv]
      obtain ⟨ret_d, hloopd, P1, P2, P3⟩ :=
        RT_desLoop
          (fun subs x => loadSingleEntry
            (fun j kvs => loadNode ctx [] fuel j kvs) ctx subs x)
          ctx [] (dictSet ret₁ "@type" (.arr ((sortStrings s.rdfType).map .str)))
          attrs s.fieldList [] [] hfact
      have hunk : unknownKeys (s.fieldList.map FieldDesc.dataKey) ctx.reversedProps
          (ctx.isInst i) s.idStrategy ctx.unknown
          (dictSet ret₁ "@type" (.arr ((sortStrings s.rdfType).map .str))) =
          ([], []) := by
        apply unknownKeys_nil_of
        intro k hkmem hknotf
        have hksome : (assocFind (dictSet ret₁ "@type"
            (.arr ((sortStrings s.rdfType).map .str))) k).isSome :=
          (assocFind_isSome_iff_mem _ k).mpr hkmem
        by_cases h1 : k = "@type"
        · exact Or.inl h1
        by_cases h2 : k = "@id"
        · exact Or.inr (Or.inr ⟨h2, hidstrat⟩)
        rw [hnOther k h1 h2] at hksome
        rcases SFL_keys (serializeNode gen reg fuel) reg attrs s.fieldList [] ret
          hloop k hksome with h | h | ⟨f, hf, hfk⟩
        · simp [assocFind] at h
        · exact Or.inr (Or.inl h)
        · exfalso
          apply hknotf
          rw [← hfk]
          exact List.mem_map_of_mem _ hf
      have hload : loadNode ctx [] (fuel + 1) i
          (dictSet ret₁ "@type" (.arr ((sortStrings s.rdfType).map .str))) =
          .ok (ret_d, []) := by
        have hgs : getSchema ctx.reg i = some s := by rw [hcreg]; exact hs
        simp only [loadNode, hgs]
        rw [deserializeNodeCore]
        simp only [hloopd]
        rw [hunk]
        rfl
      refine ⟨dictSet ret₁ "@type" (.arr ((sortStrings s.rdfType).map .str)), ret_d,
        hser, hnty, hnval, hload, ?_, ?_⟩
      · apply pvalEquivFields_of_forall
        intro kv hkv
        have hfind : assocFind attrs kv.1 = some kv.2 :=
          assocFind_nodup_mem attrs hattrnd kv.1 kv.2 hkv
        obtain ⟨f, hf, hfa⟩ := hcov' kv hkv
        exact P1 kv.1 kv.2 hfind ⟨f, hf, hfa⟩
      · intro k hk
        rcases P2 k hk with h | ⟨f, hf, hfa, hfs⟩
        · simp [assocFind] at h
        · exact hfs

/-- The counterexample schema for C2: a single `Id` field, so every
attribute of the object below is covered by a field descriptor. -/
def c2Schema : SchemaDef :=
  ⟨["T"], "M", true, [⟨"_id", "@id", false, .idF⟩]⟩

def c2Reg : Registry := [c2Schema]

def c2Ctx : DeserCtx := ⟨c2Reg, false, .RAISE, [], fun _ _ => false⟩

/-- C2 counterexample: an object with a falsy (empty) identifier is
fully mapped by its schema, yet the round trip does not return an
equal object — serialization invokes the identifier-generation
strategy (schema.py:195-196), replacing the empty `"@id"` by a fresh
blank-node identifier, and deserialization hands that generated
identifier back as the object's `_id`. -/
theorem C2_counterexample :
    ([("_id", PVal.str "")].all
      (fun kv => c2Schema.fieldList.any (fun f => f.attr == kv.1))) = true ∧
    jsonldSerialize (blank_node_id_strategy "h") c2Reg 1 0
      (.obj "M" [("_id", .str "")]) =
      some [("@id", .str "_:h"), ("@type", .arr [.str "T"])] ∧
    jsonldLoad c2Ctx 1 0 false
      (.obj [("@id", .str "_:h"), ("@type", .arr [.str "T"])]) =
      .ok (.ok (.obj "M" [("_id", .str "_:h")])) ∧
    pvalEquiv (.obj "M" [("_id", .str "")]) (.obj "M" [("_id", .str "_:h")]) = false :=
  ⟨rfl, rfl, rfl, rfl⟩

/-- C2 (amended): for every object `o` that a well-formed schema
registry fully maps and that conforms to the schema at index `i` — in
particular, every declared `Id` field holds a non-empty identifier —
serializing `o` non-flattened succeeds and deserializing the resulting
document with the same schema yields an object equal to `o`
field-for-field (type equal and attribute maps dictionary-equal,
recursively). -/
theorem C2_roundtrip (gen : JObj → PAttrs → String) (reg : Registry)
    (hwf : wfReg reg = true) (ctx : DeserCtx) (hcreg : ctx.reg = reg)
    (hcfl : ctx.flattened = false) (fuel i : Nat) (s : SchemaDef)
    (hs : getSchema reg i = some s) (o : PVal)
    (hconf : conforms reg fuel s o = true) :
    ∃ doc o', jsonldSerialize gen reg fuel i o = some doc ∧
      jsonldLoad ctx fuel i false (.obj doc) = .ok (.ok o') ∧
      pvalEquiv o o' = true := by
  cases fuel with
  | zero => exact absurd hconf (by simp [conforms])
  | succ fuel =>
      cases o with
      | str t => exact absurd hconf (by simp [conforms, conformsCore])
      | list l => exact absurd hconf (by simp [conforms, conformsCore])
      | obj ty attrs =>
          obtain ⟨node, ret', hser, hnty, hnval, hload, hequivF, hkeys⟩ :=
            RT_node gen reg ctx hwf hcreg hcfl (fuel + 1) i s hs ty attrs hconf
          have hmodel : s.model = ty := by
            have h : conformsCore (conforms reg fuel) reg s (.obj ty attrs) = true :=
              hconf
            rw [conformsCore] at h
            simp only [Bool.and_eq_true, beq_iff_eq] at h
            exact h.1.1.1
          refine ⟨node, .obj s.model ret', ?_, ?_, ?_⟩
          · simp only [jsonldSerialize, hs, Option.bind_eq_bind, Option.some_bind, hser]
          · have hgs : getSchema ctx.reg i = some s := by rw [hcreg]; exact hs
            simp only [jsonldLoad, hgs, hcfl, Bool.false_eq_true, false_and,
              isCollection, if_false, hload, List.isEmpty_nil, if_true]
          · simp only [pvalEquiv, Bool.and_eq_true]
            refine ⟨⟨?_, hequivF⟩, ?_⟩
            · rw [hmodel]
              simp
            · rw [List.all_eq_true]
              intro k hk
              exact hkeys k ((assocFind_isSome_iff_mem ret' k).mpr hk)

theorem C2_roundtrip_witness :
    wfReg c3Reg = true ∧
    conforms c3Reg 2 c3AuthorSchema (c3Author "a" "A" [("b", "N")]) = true ∧
    (∃ doc o', jsonldSerialize (fun _ _ => "x") c3Reg 2 1
        (c3Author "a" "A" [("b", "N")]) = some doc ∧
      jsonldLoad (c3Ctx false) 2 1 false (.obj doc) = .ok (.ok o') ∧
      pvalEquiv (c3Author "a" "A" [("b", "N")]) o' = true) :=
  ⟨rfl, rfl,
   C2_roundtrip (fun _ _ => "x") c3Reg rfl (c3Ctx false) rfl rfl 2 1
     c3AuthorSchema rfl (c3Author "a" "A" [("b", "N")]) rfl⟩

end Calamus
